import Mathlib

/-!
Verification of the Network Rail integration's feed-ingestion pipeline.

This file gives a shallow embedding, in Lean, of the algorithmic core of the
repository (`custom_components/network_rail_integration`): the Train Describer
message decoder and berth/platform state machine (`td_parser.py`), the
rate-limiter/batcher of the hub (`hub.py`), the movement-record filter
(`hub.py`), the SMART reference-data parse and graph build (`smart_data.py`),
and the multi-hop adjacency search (`smart_utils.py`).  Python dictionaries are
modelled as ordered association lists with unique keys, Python `None` as
`Option`, wall-clock instants as rationals, and fallible operations as
`Option`-valued functions.  Theorems about the embedded definitions follow the
definitions.
-/

set_option linter.unusedVariables false

namespace NRail

/-! ## Association lists: the model of `dict[str, α]`

`alGet` models `d.get(k)`, `alSet` models `d[k] = v` (overwrite in place,
append if new), and `alErase` models `d.pop(k, None)`.  Starting from `[]` and
using only these operations keeps keys unique, as in a Python dict. -/

def alGet {α : Type} : List (String × α) → String → Option α
  | [], _ => none
  | (k, v) :: rest, key => if k = key then some v else alGet rest key

def alSet {α : Type} : List (String × α) → String → α → List (String × α)
  | [], key, v => [(key, v)]
  | (k, w) :: rest, key, v =>
      if k = key then (k, v) :: rest else (k, w) :: alSet rest key v

def alErase {α : Type} : List (String × α) → String → List (String × α)
  | [], _ => []
  | (k, v) :: rest, key => if k = key then rest else (k, v) :: alErase rest key

theorem alGet_alSet_self {α : Type} (l : List (String × α)) (k : String) (v : α) :
    alGet (alSet l k v) k = some v := by
  induction l with
  | nil => simp [alSet, alGet]
  | cons hd tl ih =>
      obtain ⟨k', v'⟩ := hd
      by_cases h : k' = k <;> simp [alSet, alGet, h, ih]

theorem alGet_alSet_ne {α : Type} (l : List (String × α)) (k k' : String) (v : α)
    (h : k ≠ k') : alGet (alSet l k v) k' = alGet l k' := by
  induction l with
  | nil => simp [alSet, alGet, h]
  | cons hd tl ih =>
      obtain ⟨k0, v0⟩ := hd
      by_cases h0 : k0 = k
      · subst h0; simp [alSet, alGet, h]
      · simp [alSet, alGet, h0, ih]

theorem alGet_alErase_ne {α : Type} (l : List (String × α)) (k k' : String)
    (h : k ≠ k') : alGet (alErase l k) k' = alGet l k' := by
  induction l with
  | nil => simp [alErase]
  | cons hd tl ih =>
      obtain ⟨k0, v0⟩ := hd
      by_cases h0 : k0 = k
      · subst h0
        have hne : k0 ≠ k' := h
        simp [alErase, alGet, hne]
      · simp [alErase, h0, alGet, ih]

/-! ## Train Describer message decoding (`td_parser.py`)

A raw TD wire message is a JSON object whose single interesting entry has a
key ending in `_MSG` and a dict value; per the wire shape (spec §6) the inner
fields are strings when present.  `TdContent` models that inner dict: an
`Option` field is `none` when the key is absent (or JSON `null`). -/

/-- Does the second list start with the first?  (Computable model of Python
`str.startswith`, on character lists.) -/
def listStartsWith : List Char → List Char → Bool
  | [], _ => true
  | _ :: _, [] => false
  | a :: as, b :: bs => decide (a = b) && listStartsWith as bs

/-- Python `s.startswith(pre)`. -/
def strStartsWith (s pre : String) : Bool := listStartsWith pre.data s.data

/-- Python `s.endswith(suf)`. -/
def strEndsWith (s suf : String) : Bool :=
  listStartsWith suf.data.reverse s.data.reverse

/-- Python `s.replace(pat, rep)` for a non-empty pattern: replace every
(non-overlapping, leftmost-first) occurrence. -/
def replaceAllAux (pat rep : List Char) : Nat → List Char → List Char
  | 0, s => s
  | _ + 1, [] => []
  | fuel + 1, c :: rest =>
      if listStartsWith pat (c :: rest) then
        rep ++ replaceAllAux pat rep fuel ((c :: rest).drop pat.length)
      else c :: replaceAllAux pat rep fuel rest

/-- Python `s.replace(pat, rep)` (used only with non-empty patterns). -/
def strReplace (s pat rep : String) : String :=
  String.mk (replaceAllAux pat.data rep.data s.data.length s.data)

/-- The closed set `TD_MESSAGE_TYPES` of `td_parser.py`. -/
def TD_MESSAGE_TYPES : List String := ["CA", "CB", "CC", "CT", "SF", "SG", "SH"]

/-- Inner dict of a TD wire message (`"CA_MSG": {...}`); `fromB`/`toB` stand
for the wire keys `from`/`to`, `sdata` for the wire key `data`. -/
structure TdContent where
  msg_type : Option String
  time : Option String
  area_id : Option String
  fromB : Option String
  toB : Option String
  descr : Option String
  report_time : Option String
  address : Option String
  sdata : Option String
  deriving DecidableEq

/-- A raw message dict: keys mapped to inner dicts, in insertion order. -/
abbrev TdWire := List (String × TdContent)

/-- Output dict of `parse_td_message`.  Fields not set by the branch for the
given `msg_type` are `none` (the Python dict simply lacks those keys; every
consumer reads only the keys its branch sets, so the flat record is faithful
on parser outputs). -/
structure ParsedTd where
  msg_type : String
  time : Option String
  area_id : Option String
  from_berth : Option String
  to_berth : Option String
  description : Option String
  report_time : Option String
  address : Option String
  sdata : Option String
  deriving DecidableEq

/-- The message-type-specific field extraction of `parse_td_message`
(`td_parser.py` lines 96-138); called only when `t ∈ TD_MESSAGE_TYPES`,
so the final branch covers `SF`/`SG`/`SH`. -/
def mkParsedTd (t : String) (c : TdContent) : ParsedTd :=
  let base : ParsedTd := ⟨t, c.time, c.area_id, none, none, none, none, none, none⟩
  if t = "CA" then
    { base with from_berth := c.fromB, to_berth := c.toB, description := c.descr }
  else if t = "CB" then
    { base with from_berth := c.fromB, description := c.descr }
  else if t = "CC" then
    { base with to_berth := c.toB, description := c.descr }
  else if t = "CT" then
    { base with report_time := c.report_time }
  else
    { base with address := c.address, sdata := c.sdata }

/-- `parse_td_message` (`td_parser.py` lines 26-141): scan the dict entries in
order; the first key ending in `_MSG` whose value has a recognized `msg_type`
wins; otherwise `None`. -/
def parse_td_message : TdWire → Option ParsedTd
  | [] => none
  | (key, content) :: rest =>
      if strEndsWith key "_MSG" then
        match content.msg_type with
        | some t => if t ∈ TD_MESSAGE_TYPES then some (mkParsedTd t content)
                    else parse_td_message rest
        | none => parse_td_message rest
      else parse_td_message rest

/-- `apply_td_filters` (`td_parser.py` lines 144-169).  A `none` or empty
filter allows everything; `parse_td_message` always stores the `area_id` and
`msg_type` keys, so `parsed_message.get("area_id", "")` is the stored value
(possibly Python `None`, which is never a member of a set of strings). -/
def apply_td_filters (p : ParsedTd) (area_filter : Option (List String))
    (message_types : Option (List String)) : Bool :=
  let areaPass : Bool :=
    match area_filter with
    | some areas =>
        if areas.isEmpty then true
        else match p.area_id with
             | some a => decide (a ∈ areas)
             | none => false
    | none => true
  let typePass : Bool :=
    match message_types with
    | some ts =>
        if ts.isEmpty then true
        else decide (p.msg_type ∈ ts)
    | none => true
  areaPass && typePass

/-! ## Berth/platform state machine (`td_parser.py`, class `BerthState`) -/

/-- A berth occupant: the dict `{"description": ..., "timestamp": ...}`. -/
structure Occ where
  description : Option String
  timestamp : Option String
  deriving DecidableEq

/-- A platform-state dict (`_update_platform_idle` / `_update_platform_active`). -/
structure PlatformRec where
  platform_id : String
  current_train : Option String
  current_event : Option String
  last_updated : Option String
  status : String
  deriving DecidableEq

/-- An event-history record; a `none` field models an absent dict key. -/
structure EventRecord where
  msg_type : String
  area_id : Option String
  timestamp : Option String
  event_type : Option String
  from_berth : Option String
  to_berth : Option String
  train_id : Option String
  from_platform : Option String
  to_platform : Option String
  platform : Option String
  deriving DecidableEq

structure BerthState where
  berths : List (String × Occ)
  event_history_size : Nat
  event_history : List EventRecord
  platform_state : List (String × PlatformRec)
  berth_to_platform : List (String × String)
  deriving DecidableEq

/-- `BerthState._validate_history_size`: clamp to 1..50. -/
def validate_history_size (size : Nat) : Nat := max 1 (min 50 size)

/-- `BerthState.__init__`. -/
def BerthState.init (event_history_size : Nat) : BerthState :=
  ⟨[], validate_history_size event_history_size, [], [], []⟩

/-- Python `f"{x}"` on a value that may be `None`. -/
def pyFmt : Option String → String
  | some s => s
  | none => "None"

/-- Python truthiness of a `str | None` value: `None` and `""` are falsy. -/
def truthy : Option String → Bool
  | some s => decide (s ≠ "")
  | none => false

/-- `append` on a `deque(maxlen=size)`: keep the most recent `size` entries. -/
def historyAppend (size : Nat) (hist : List EventRecord) (e : EventRecord) :
    List EventRecord :=
  let h := hist ++ [e]
  h.drop (h.length - size)

/-- `BerthState._update_platform_idle` (no-op on a falsy platform id). -/
def updatePlatformIdle (ps : List (String × PlatformRec))
    (platform_id : Option String) (timestamp : Option String) :
    List (String × PlatformRec) :=
  match platform_id with
  | some pid =>
      if pid = "" then ps
      else alSet ps pid ⟨pid, none, none, timestamp, "idle"⟩
  | none => ps

/-- `BerthState._update_platform_active` (no-op on a falsy platform id). -/
def updatePlatformActive (ps : List (String × PlatformRec))
    (platform_id : Option String) (train_id : Option String)
    (event_type : String) (timestamp : Option String) :
    List (String × PlatformRec) :=
  match platform_id with
  | some pid =>
      if pid = "" then ps
      else alSet ps pid ⟨pid, train_id, some event_type, timestamp, "active"⟩
  | none => ps

/-- The event-history record built by `BerthState.update` for a berth
operation; it depends only on the berth→platform mapping and the message. -/
def eventRecordOf (mapping : List (String × String)) (p : ParsedTd) : EventRecord :=
  let base : EventRecord :=
    ⟨p.msg_type, p.area_id, p.time, none, none, none, none, none, none, none⟩
  if p.msg_type = "CA" then
    let from_key := pyFmt p.area_id ++ ":" ++ pyFmt p.from_berth
    let to_key := pyFmt p.area_id ++ ":" ++ pyFmt p.to_berth
    let from_platform := alGet mapping from_key
    let to_platform := alGet mapping to_key
    { base with
      event_type := some "step"
      from_berth := p.from_berth
      to_berth := p.to_berth
      train_id := p.description
      from_platform := if truthy from_platform then from_platform else none
      to_platform := if truthy to_platform then to_platform else none }
  else if p.msg_type = "CB" then
    let from_key := pyFmt p.area_id ++ ":" ++ pyFmt p.from_berth
    let from_platform := alGet mapping from_key
    { base with
      event_type := some "cancel"
      from_berth := p.from_berth
      train_id := p.description
      platform := if truthy from_platform then from_platform else none }
  else if p.msg_type = "CC" then
    let to_key := pyFmt p.area_id ++ ":" ++ pyFmt p.to_berth
    let to_platform := alGet mapping to_key
    { base with
      event_type := some "interpose"
      to_berth := p.to_berth
      train_id := p.description
      platform := if truthy to_platform then to_platform else none }
  else base

/-- `BerthState.update` (`td_parser.py` lines 254-358). -/
def BerthState.update (st : BerthState) (p : ParsedTd) : BerthState :=
  let st1 : BerthState :=
    if p.msg_type = "CA" then
      let from_key := pyFmt p.area_id ++ ":" ++ pyFmt p.from_berth
      let to_key := pyFmt p.area_id ++ ":" ++ pyFmt p.to_berth
      let from_platform := alGet st.berth_to_platform from_key
      let to_platform := alGet st.berth_to_platform to_key
      let berths1 := alErase st.berths from_key
      let ps1 := updatePlatformIdle st.platform_state from_platform p.time
      let berths2 := alSet berths1 to_key ⟨p.description, p.time⟩
      let ps2 := updatePlatformActive ps1 to_platform p.description "arrive" p.time
      { st with berths := berths2, platform_state := ps2 }
    else if p.msg_type = "CB" then
      let from_key := pyFmt p.area_id ++ ":" ++ pyFmt p.from_berth
      let from_platform := alGet st.berth_to_platform from_key
      let berths1 := alErase st.berths from_key
      let ps1 := updatePlatformIdle st.platform_state from_platform p.time
      { st with berths := berths1, platform_state := ps1 }
    else if p.msg_type = "CC" then
      let to_key := pyFmt p.area_id ++ ":" ++ pyFmt p.to_berth
      let to_platform := alGet st.berth_to_platform to_key
      let berths1 := alSet st.berths to_key ⟨p.description, p.time⟩
      let ps1 := updatePlatformActive st.platform_state to_platform p.description
        "interpose" p.time
      { st with berths := berths1, platform_state := ps1 }
    else st
  if p.msg_type = "CA" ∨ p.msg_type = "CB" ∨ p.msg_type = "CC" then
    let hist1 := historyAppend st.event_history_size st.event_history
      (eventRecordOf st.berth_to_platform p)
    { st1 with event_history := hist1 }
  else st1

/-- `BerthState.get_berth`. -/
def BerthState.get_berth (st : BerthState) (area_id berth_id : String) : Option Occ :=
  alGet st.berths (area_id ++ ":" ++ berth_id)

/-- `BerthState.get_all_berths` (value level; aliasing is studied separately). -/
def BerthState.get_all_berths (st : BerthState) : List (String × Occ) := st.berths

/-- `BerthState.get_area_berths`: keys starting with `area_id ++ ":"`, with
every occurrence of that text removed (Python `str.replace` replaces all). -/
def BerthState.get_area_berths (st : BerthState) (area_id : String) :
    List (String × Occ) :=
  (st.berths.filter (fun kv => strStartsWith kv.1 (area_id ++ ":"))).map
    (fun kv => (strReplace kv.1 (area_id ++ ":") "", kv.2))

/-- `BerthState.get_platform_state`. -/
def BerthState.get_platform_state (st : BerthState) (platform_id : String) :
    Option PlatformRec :=
  alGet st.platform_state platform_id

/-- `BerthState.get_all_platform_states`. -/
def BerthState.get_all_platform_states (st : BerthState) :
    List (String × PlatformRec) := st.platform_state

/-- `BerthState.get_event_history` (`list(...)` of the deque, oldest first). -/
def BerthState.get_event_history (st : BerthState) : List EventRecord :=
  st.event_history

/-- `BerthState.set_event_history_size`. -/
def BerthState.set_event_history_size (st : BerthState) (size : Nat) : BerthState :=
  let new_size := validate_history_size size
  if new_size ≠ st.event_history_size then
    { st with
      event_history_size := new_size
      event_history := st.event_history.drop (st.event_history.length - new_size) }
  else st

/-- `BerthState.update` folded over a list of messages, in arrival order. -/
def BerthState.updateAll (st : BerthState) (ps : List ParsedTd) : BerthState :=
  ps.foldl BerthState.update st

/-- Whether a message is a berth operation (`CA`/`CB`/`CC`). -/
def isBerthOp (p : ParsedTd) : Bool :=
  p.msg_type = "CA" || p.msg_type = "CB" || p.msg_type = "CC"

/-! ## Lemmas about `BerthState.update` -/

theorem historyAppend_eq_rtake (size : Nat) (hist : List EventRecord)
    (e : EventRecord) : historyAppend size hist e = (hist ++ [e]).rtake size := rfl

theorem update_event_history_size (st : BerthState) (p : ParsedTd) :
    (st.update p).event_history_size = st.event_history_size := by
  simp only [BerthState.update]
  split_ifs <;> rfl

theorem update_berth_to_platform (st : BerthState) (p : ParsedTd) :
    (st.update p).berth_to_platform = st.berth_to_platform := by
  simp only [BerthState.update]
  split_ifs <;> rfl

theorem update_event_history (st : BerthState) (p : ParsedTd) :
    (st.update p).event_history =
      if isBerthOp p then
        historyAppend st.event_history_size st.event_history
          (eventRecordOf st.berth_to_platform p)
      else st.event_history := by
  simp only [BerthState.update, isBerthOp]
  split_ifs with h1 h2 <;> simp_all

theorem rtake_length_le {α : Type} (l : List α) (n : Nat) :
    (l.rtake n).length ≤ n := by
  simp only [List.rtake, List.length_drop]
  omega

theorem rtake_of_length_le {α : Type} (l : List α) (n : Nat)
    (h : l.length ≤ n) : l.rtake n = l := by
  simp only [List.rtake]
  rw [Nat.sub_eq_zero_of_le h, List.drop_zero]

theorem rtake_append_rtake {α : Type} (n : Nat) (l m : List α) :
    ((l.rtake n) ++ m).rtake n = (l ++ m).rtake n := by
  simp only [List.rtake_eq_reverse_take_reverse, List.reverse_append,
    List.reverse_reverse]
  congr 1
  have hm : min (n - m.reverse.length) n = n - m.reverse.length := by omega
  rw [List.take_append_eq_append_take, List.take_append_eq_append_take,
    List.take_take, hm]

theorem updateAll_event_history (st : BerthState) (ps : List ParsedTd)
    (hlen : st.event_history.length ≤ st.event_history_size) :
    (st.updateAll ps).event_history =
      (st.event_history ++
        (ps.filter isBerthOp).map (eventRecordOf st.berth_to_platform)).rtake
        st.event_history_size := by
  induction ps generalizing st with
  | nil =>
      simp only [BerthState.updateAll, List.foldl_nil, List.filter_nil,
        List.map_nil, List.append_nil]
      exact (rtake_of_length_le _ _ hlen).symm
  | cons p ps ih =>
      have hsz := update_event_history_size st p
      have hmap := update_berth_to_platform st p
      have hh := update_event_history st p
      have hstep : (st.updateAll (p :: ps)) = ((st.update p).updateAll ps) := rfl
      rw [hstep]
      by_cases hop : isBerthOp p
      · have hlen' : (st.update p).event_history.length ≤
            (st.update p).event_history_size := by
          rw [hh, hsz, if_pos hop, historyAppend_eq_rtake]
          exact rtake_length_le _ _
        rw [ih _ hlen', hsz, hmap, hh, if_pos hop, historyAppend_eq_rtake,
          rtake_append_rtake]
        simp [List.filter_cons, hop]
      · have hlen' : (st.update p).event_history.length ≤
            (st.update p).event_history_size := by
          rw [hh, hsz, if_neg hop]; exact hlen
        rw [ih _ hlen', hsz, hmap, hh, if_neg hop]
        simp [List.filter_cons, hop]

/-- Keys `a:f` and `a:t` coincide only when the berth ids coincide. -/
theorem berth_key_inj (a f t : String) (h : a ++ ":" ++ f = a ++ ":" ++ t) :
    f = t := by
  have h2 : (a ++ ":" ++ f).data = (a ++ ":" ++ t).data := congrArg String.data h
  simp only [String.data_append] at h2
  have h3 : f.data = t.data := List.append_cancel_left h2
  cases f
  cases t
  exact congrArg String.mk h3

/-! ## Claims C1, C10, C4: the berth state machine -/

/-- C10: for every CA step event whose from-berth equals its to-berth (within
the same TD area), `BerthState.update` leaves that berth occupied by the
event's train description afterwards — the `pop` of the source key is applied
before the insert of the destination key, so a self-step never empties the
berth. -/
theorem C10_self_step_leaves_berth_occupied (st : BerthState) (p : ParsedTd)
    (a b d : String)
    (hca : p.msg_type = "CA") (ha : p.area_id = some a)
    (hf : p.from_berth = some b) (ht : p.to_berth = some b)
    (hd : p.description = some d) :
    (st.update p).get_berth a b = some ⟨some d, p.time⟩ := by
  simp only [BerthState.update, BerthState.get_berth, hca, ha, hf, ht, hd,
    pyFmt, if_pos rfl, true_or, if_true]
  exact alGet_alSet_self _ _ _

/-- C10 witness: a concrete self-step applied to the empty state. -/
theorem C10_self_step_witness :
    ((BerthState.init 10).update
        ⟨"CA", some "1600000000000", some "SK", some "0001", some "0001",
          some "1A23", none, none, none⟩).get_berth "SK" "0001"
      = some ⟨some "1A23", some "1600000000000"⟩ :=
  C10_self_step_leaves_berth_occupied (BerthState.init 10)
    ⟨"CA", some "1600000000000", some "SK", some "0001", some "0001",
      some "1A23", none, none, none⟩
    "SK" "0001" "1A23" rfl rfl rfl rfl rfl

/-- C1 counterexample: the parsed CA event with area `SK`, from-berth `0001`,
to-berth `0001` and description `1A23`, applied to an empty berth state,
leaves `get_berth("SK", "0001")` occupied — but the claim, which quantifies
over every parsed CA event, demands that the from-berth read back as absent. -/
theorem C1_counterexample :
    parse_td_message [("CA_MSG",
        ⟨some "CA", some "1600000000000", some "SK", some "0001", some "0001",
          some "1A23", none, none, none⟩)]
      = some ⟨"CA", some "1600000000000", some "SK", some "0001", some "0001",
          some "1A23", none, none, none⟩ ∧
    ((BerthState.init 10).update
        ⟨"CA", some "1600000000000", some "SK", some "0001", some "0001",
          some "1A23", none, none, none⟩).get_berth "SK" "0001" ≠ none := by
  constructor
  · rfl
  · intro h
    rw [C10_self_step_witness] at h
    exact Option.noConfusion h

/-- C1 (amended): for every parsed CA event with area `a`, from-berth `f`,
to-berth `t` and description `d` such that `f ≠ t`, applied to an empty berth
state, `get_berth(a, t)` returns `{description := d, timestamp := event time}`
and `get_berth(a, f)` returns absent. -/
theorem C1_step_on_empty_state (S : Nat) (p : ParsedTd) (a f t d : String)
    (hca : p.msg_type = "CA") (ha : p.area_id = some a)
    (hf : p.from_berth = some f) (ht : p.to_berth = some t)
    (hd : p.description = some d) (hne : f ≠ t) :
    ((BerthState.init S).update p).get_berth a t = some ⟨some d, p.time⟩ ∧
    ((BerthState.init S).update p).get_berth a f = none := by
  have hkey : a ++ ":" ++ t ≠ a ++ ":" ++ f := fun h => hne (berth_key_inj a t f h).symm
  simp only [BerthState.update, BerthState.get_berth, BerthState.init, hca, ha,
    hf, ht, hd, pyFmt, if_pos rfl, true_or, if_true]
  constructor
  · exact alGet_alSet_self _ _ _
  · rw [alGet_alSet_ne _ _ _ _ hkey]
    rfl

/-- C1 witness: a concrete two-berth step on the empty state. -/
theorem C1_step_on_empty_state_witness :
    ((BerthState.init 10).update
        ⟨"CA", some "1600000000000", some "SK", some "101", some "102",
          some "1A23", none, none, none⟩).get_berth "SK" "102"
      = some ⟨some "1A23", some "1600000000000"⟩ ∧
    ((BerthState.init 10).update
        ⟨"CA", some "1600000000000", some "SK", some "101", some "102",
          some "1A23", none, none, none⟩).get_berth "SK" "101" = none :=
  C1_step_on_empty_state 10
    ⟨"CA", some "1600000000000", some "SK", some "101", some "102",
      some "1A23", none, none, none⟩
    "SK" "101" "102" "1A23" rfl rfl rfl rfl rfl (by decide)

/-- C4: with a configured history size `S` in 1..50, after the updates append
`S + m` berth-operation events the history holds exactly `S` records — the
most recent `S` appended records in arrival order (`drop m` of the full
record sequence) — and non-berth-operation messages (`CT`/`SF`/`SG`/`SH`)
never append to the history. -/
theorem C4_event_history_ring_buffer (S m : Nat) (hS1 : 1 ≤ S) (hS2 : S ≤ 50)
    (ps : List ParsedTd) (hlen : (ps.filter isBerthOp).length = S + m) :
    (((BerthState.init S).updateAll ps).get_event_history).length = S ∧
    ((BerthState.init S).updateAll ps).get_event_history
      = ((ps.filter isBerthOp).map (eventRecordOf [])).drop m ∧
    (∀ (q : ParsedTd) (st : BerthState), isBerthOp q = false →
      (st.update q).event_history = st.event_history) := by
  have hval : validate_history_size S = S := by
    simp only [validate_history_size]
    omega
  have hbase : (BerthState.init S).event_history.length ≤
      (BerthState.init S).event_history_size := by
    simp [BerthState.init]
  have hh := updateAll_event_history (BerthState.init S) ps hbase
  have hmaplen : ((ps.filter isBerthOp).map (eventRecordOf
      (BerthState.init S).berth_to_platform)).length = S + m := by
    rw [List.length_map]
    exact hlen
  have hsz : (BerthState.init S).event_history_size = S := by
    simp [BerthState.init, hval]
  have hmain : ((BerthState.init S).updateAll ps).get_event_history
      = ((ps.filter isBerthOp).map (eventRecordOf [])).drop m := by
    rw [BerthState.get_event_history, hh, hsz]
    have hmap0 : (BerthState.init S).berth_to_platform = [] := rfl
    rw [hmap0] at hmaplen ⊢
    have hhist0 : (BerthState.init S).event_history = [] := rfl
    rw [hhist0, List.nil_append, List.rtake, hmaplen]
    congr 1
    omega
  refine ⟨?_, hmain, ?_⟩
  · rw [hmain, List.length_drop, List.length_map, hlen]
    omega
  · intro q st hq
    rw [update_event_history, hq]
    simp

/-- Concrete messages for the C4 witness: two interpose operations and one
heartbeat, with history size 1 (so `m = 1`). -/
def c4msgs : List ParsedTd :=
  [⟨"CC", some "160", some "G1", none, some "0001", some "2J01", none, none, none⟩,
   ⟨"CT", some "161", some "G1", none, none, none, some "161", none, none⟩,
   ⟨"CC", some "162", some "G1", none, some "0002", some "2J02", none, none, none⟩]

/-- C4 witness: size 1, two berth operations, one heartbeat. -/
theorem C4_event_history_ring_buffer_witness :
    (((BerthState.init 1).updateAll c4msgs).get_event_history).length = 1 ∧
    ((BerthState.init 1).updateAll c4msgs).get_event_history
      = ((c4msgs.filter isBerthOp).map (eventRecordOf [])).drop 1 ∧
    (∀ (q : ParsedTd) (st : BerthState), isBerthOp q = false →
      (st.update q).event_history = st.event_history) :=
  C4_event_history_ring_buffer 1 1 (by decide) (by decide) c4msgs (by decide)

/-! ## Hub: TD rate limiter and batcher (`hub.py`, `_Listener._handle_td_message`)

Wall-clock instants (`time.monotonic()`) are modelled as rationals.  The
configuration snapshot `_read_options()` is a fixed record for a run.  The
`call_soon_threadsafe` hand-off of `_publish_td_batch` to `_update_td_batch`
is applied synchronously, and the dispatched batches are returned alongside
the new state as the observable dispatch log. -/

structure TdConfig where
  td_areas : List String
  max_messages_per_second : Nat
  max_batch_size : Nat
  update_interval : ℚ

structure TdHubState where
  td_batch : List ParsedTd
  td_last_dispatch_time : ℚ
  td_message_rate_window : List ℚ
  td_dropped_count : Nat
  berth_state : BerthState
  last_td_message : Option ParsedTd
  td_message_count : Nat

/-- How `_handle_td_message` disposed of a message; the Python function
returns `False` exactly for `notTd` and `True` otherwise. -/
inductive HandleOutcome where
  | notTd
  | earlyFiltered
  | areaFiltered
  | dropped
  | accepted
  deriving DecidableEq

/-- `_update_td_batch` (`hub.py` lines 497-529), state effects only: per
message set `last_td_message`, bump `td_message_count`, and feed `CA`/`CB`/`CC`
messages to the berth state machine, in batch order. -/
def updateTdBatchState (st : TdHubState) (batch : List ParsedTd) : TdHubState :=
  batch.foldl (fun s msg =>
    { s with
      last_td_message := some msg
      td_message_count := s.td_message_count + 1
      berth_state := if isBerthOp msg then s.berth_state.update msg
                     else s.berth_state }) st

/-- The early area filter of `_handle_td_message` (`hub.py` lines 353-368):
does any `_MSG`-keyed entry carry a tracked `area_id`? -/
def earlyAreaMatch (areas : List String) (msg : TdWire) : Bool :=
  msg.any (fun kv => strEndsWith kv.1 "_MSG" && decide ((kv.2.area_id.getD "") ∈ areas))

/-- `_handle_td_message` (`hub.py` lines 343-441).  Returns the new hub state,
the outcome, and the list of batches dispatched by this call (empty or a
singleton). -/
def handle_td_message (cfg : TdConfig) (now : ℚ) (msg : TdWire)
    (st : TdHubState) : TdHubState × HandleOutcome × List (List ParsedTd) :=
  if cfg.td_areas ≠ [] ∧ earlyAreaMatch cfg.td_areas msg = false then
    (st, .earlyFiltered, [])
  else
    match parse_td_message msg with
    | none => (st, .notTd, [])
    | some parsed =>
        let area_filter := if cfg.td_areas.isEmpty then none else some cfg.td_areas
        if apply_td_filters parsed area_filter none = false then
          (st, .areaFiltered, [])
        else
          let window := st.td_message_rate_window.filter (fun t => now - t < 1)
          if cfg.max_messages_per_second ≤ window.length then
            ({ st with
                td_message_rate_window := window
                td_dropped_count := st.td_dropped_count + 1 }, .dropped, [])
          else
            let window2 := window ++ [now]
            let batch2 := st.td_batch ++ [parsed]
            let time_since := now - st.td_last_dispatch_time
            if (cfg.max_batch_size ≤ batch2.length ∨
                cfg.update_interval ≤ time_since) ∧ batch2 ≠ [] then
              let st2 := { st with
                td_message_rate_window := window2
                td_batch := []
                td_last_dispatch_time := now }
              (updateTdBatchState st2 batch2, .accepted, [batch2])
            else
              ({ st with
                  td_message_rate_window := window2
                  td_batch := batch2 }, .accepted, [])

/-- Feed a timed sequence of raw messages through `_handle_td_message`,
collecting outcomes and dispatched batches. -/
def processTdMessages (cfg : TdConfig) (msgs : List (ℚ × TdWire))
    (st : TdHubState) : TdHubState × List HandleOutcome × List (List ParsedTd) :=
  match msgs with
  | [] => (st, [], [])
  | (t, w) :: rest =>
      let r1 := handle_td_message cfg t w st
      let r2 := processTdMessages cfg rest r1.1
      (r2.1, r1.2.1 :: r2.2.1, r1.2.2 ++ r2.2.2)

/-- A raw message that survives the early filter, parses as a TD message and
passes `apply_td_filters` — i.e. one that reaches the rate limiter. -/
def reachesRateLimiter (cfg : TdConfig) (msg : TdWire) : Bool :=
  (cfg.td_areas.isEmpty || earlyAreaMatch cfg.td_areas msg) &&
  (match parse_td_message msg with
   | none => false
   | some parsed =>
       apply_td_filters parsed
         (if cfg.td_areas.isEmpty then none else some cfg.td_areas) none)

theorem updateTdBatchState_proj (st : TdHubState) (b : List ParsedTd) :
    (updateTdBatchState st b).td_batch = st.td_batch ∧
    (updateTdBatchState st b).td_last_dispatch_time = st.td_last_dispatch_time ∧
    (updateTdBatchState st b).td_message_rate_window = st.td_message_rate_window ∧
    (updateTdBatchState st b).td_dropped_count = st.td_dropped_count ∧
    (updateTdBatchState st b).berth_state
      = (b.filter isBerthOp).foldl BerthState.update st.berth_state := by
  induction b generalizing st with
  | nil => simp [updateTdBatchState]
  | cons p b ih =>
      have hstep : updateTdBatchState st (p :: b) =
          updateTdBatchState
            { st with
              last_td_message := some p
              td_message_count := st.td_message_count + 1
              berth_state := if isBerthOp p then st.berth_state.update p
                             else st.berth_state } b := rfl
      rw [hstep]
      obtain ⟨h1, h2, h3, h4, h5⟩ := ih
        { st with
          last_td_message := some p
          td_message_count := st.td_message_count + 1
          berth_state := if isBerthOp p then st.berth_state.update p
                         else st.berth_state }
      refine ⟨h1, h2, h3, h4, ?_⟩
      rw [h5]
      by_cases hop : isBerthOp p
      · simp [List.filter_cons, hop]
      · simp [List.filter_cons, hop]

theorem parse_of_reaches (cfg : TdConfig) (msg : TdWire)
    (h : reachesRateLimiter cfg msg = true) :
    ∃ p, parse_td_message msg = some p := by
  unfold reachesRateLimiter at h
  rw [Bool.and_eq_true] at h
  obtain ⟨-, h2⟩ := h
  cases hp : parse_td_message msg with
  | none => rw [hp] at h2; exact absurd h2 (by simp)
  | some p => exact ⟨p, rfl⟩

theorem handle_td_message_accepted (cfg : TdConfig) (now : ℚ) (msg : TdWire)
    (st : TdHubState) (p : ParsedTd)
    (hparse : parse_td_message msg = some p)
    (hreach : reachesRateLimiter cfg msg = true)
    (hwin : st.td_message_rate_window.filter (fun t => decide (now - t < 1))
        = st.td_message_rate_window)
    (hlt : st.td_message_rate_window.length < cfg.max_messages_per_second) :
    handle_td_message cfg now msg st =
      if cfg.max_batch_size ≤ (st.td_batch ++ [p]).length ∨
         cfg.update_interval ≤ now - st.td_last_dispatch_time then
        (updateTdBatchState
          { st with
            td_message_rate_window :=
              st.td_message_rate_window ++ [now]
            td_batch := []
            td_last_dispatch_time := now } (st.td_batch ++ [p]),
         .accepted, [st.td_batch ++ [p]])
      else
        ({ st with
            td_message_rate_window := st.td_message_rate_window ++ [now]
            td_batch := st.td_batch ++ [p] }, .accepted, []) := by
  unfold reachesRateLimiter at hreach
  rw [hparse, Bool.and_eq_true] at hreach
  obtain ⟨hearly, hfilters⟩ := hreach
  have hfilters2 : apply_td_filters p
      (if cfg.td_areas.isEmpty then none else some cfg.td_areas) none = true :=
    hfilters
  have hnotearly : ¬ (cfg.td_areas ≠ [] ∧ earlyAreaMatch cfg.td_areas msg = false) := by
    rw [Bool.or_eq_true] at hearly
    rcases hearly with h | h
    · intro hc; exact hc.1 (List.isEmpty_iff.mp h)
    · intro hc; rw [h] at hc; exact Bool.noConfusion hc.2
  unfold handle_td_message
  rw [if_neg hnotearly, hparse]
  simp only
  rw [if_neg (by rw [hfilters2]; simp), hwin, if_neg (by omega)]
  have hne : st.td_batch ++ [p] ≠ [] := by simp
  by_cases hd : cfg.max_batch_size ≤ (st.td_batch ++ [p]).length ∨
      cfg.update_interval ≤ now - st.td_last_dispatch_time
  · rw [if_pos ⟨hd, hne⟩, if_pos hd]
  · rw [if_neg (fun hc => hd hc.1), if_neg hd]

theorem run_all_accepted (cfg : TdConfig) (msgs : List (ℚ × TdWire))
    (st : TdHubState)
    (hpass : ∀ m ∈ msgs, reachesRateLimiter cfg m.2 = true)
    (hclose : ∀ m ∈ msgs, ∀ t' ∈ st.td_message_rate_window ++ msgs.map Prod.fst,
        m.1 - t' < 1)
    (hcap : st.td_message_rate_window.length + msgs.length
        ≤ cfg.max_messages_per_second) :
    (processTdMessages cfg msgs st).2.1
      = List.replicate msgs.length HandleOutcome.accepted ∧
    (processTdMessages cfg msgs st).1.td_dropped_count = st.td_dropped_count ∧
    (processTdMessages cfg msgs st).1.td_message_rate_window
      = st.td_message_rate_window ++ msgs.map Prod.fst ∧
    (processTdMessages cfg msgs st).2.2.flatten ++
        (processTdMessages cfg msgs st).1.td_batch
      = st.td_batch ++ msgs.filterMap (fun m => parse_td_message m.2) ∧
    (processTdMessages cfg msgs st).1.berth_state
      = (((processTdMessages cfg msgs st).2.2.flatten).filter isBerthOp).foldl
          BerthState.update st.berth_state := by
  induction msgs generalizing st with
  | nil => simp [processTdMessages]
  | cons m rest ih =>
      obtain ⟨t, w⟩ := m
      obtain ⟨p, hp⟩ := parse_of_reaches cfg w (hpass (t, w) (by simp))
      have hwin : st.td_message_rate_window.filter (fun x => decide (t - x < 1))
          = st.td_message_rate_window := by
        rw [List.filter_eq_self]
        intro a ha
        exact decide_eq_true
          (hclose (t, w) (by simp) a (List.mem_append_left _ ha))
      have hlt : st.td_message_rate_window.length <
          cfg.max_messages_per_second := by
        simp only [List.length_cons] at hcap
        omega
      have hh := handle_td_message_accepted cfg t w st p hp
        (hpass (t, w) (by simp)) hwin hlt
      have hstep : processTdMessages cfg ((t, w) :: rest) st =
          (let r1 := handle_td_message cfg t w st
           let r2 := processTdMessages cfg rest r1.1
           (r2.1, r1.2.1 :: r2.2.1, r1.2.2 ++ r2.2.2)) := rfl
      rw [hstep]
      simp only [hh]
      by_cases hd : cfg.max_batch_size ≤ (st.td_batch ++ [p]).length ∨
          cfg.update_interval ≤ t - st.td_last_dispatch_time
      · rw [if_pos hd]
        set st2 := { st with
            td_message_rate_window := st.td_message_rate_window ++ [t]
            td_batch := ([] : List ParsedTd)
            td_last_dispatch_time := t } with hst2
        set st1 := updateTdBatchState st2 (st.td_batch ++ [p]) with hst1
        obtain ⟨pb, pd, pw, pc, pberth⟩ := updateTdBatchState_proj st2
          (st.td_batch ++ [p])
        rw [← hst1] at pb pd pw pc pberth
        have hclose' : ∀ m' ∈ rest, ∀ t' ∈ st1.td_message_rate_window ++
            rest.map Prod.fst, m'.1 - t' < 1 := by
          intro m' hm' t' ht'
          rw [pw] at ht'
          simp only [hst2, List.append_assoc, List.mem_append,
            List.mem_singleton, List.mem_map] at ht'
          apply hclose m' (by simp [hm'])
          simp only [List.map_cons, List.mem_append, List.mem_cons, List.mem_map]
          rcases ht' with h | h | h
          · exact Or.inl h
          · exact Or.inr (Or.inl h)
          · exact Or.inr (Or.inr (by
              obtain ⟨x, hx1, hx2⟩ := h
              exact ⟨x, hx1, hx2⟩))
        have hcap' : st1.td_message_rate_window.length + rest.length ≤
            cfg.max_messages_per_second := by
          rw [pw]
          simp only [hst2, List.length_append, List.length_singleton]
          simp only [List.length_cons] at hcap
          omega
        obtain ⟨i1, i2, i3, i4, i5⟩ := ih st1 (fun m' hm' => hpass m' (by simp [hm']))
          hclose' hcap'
        refine ⟨?_, ?_, ?_, ?_, ?_⟩
        · simp [i1, List.replicate_succ]
        · rw [i2, pc]
        · rw [i3, pw]; simp [hst2, List.append_assoc]
        · rw [List.singleton_append, List.flatten_cons, List.append_assoc, i4, pb]
          simp [hst2, hp, List.filterMap_cons, List.append_assoc]
        · rw [List.singleton_append, List.flatten_cons, i5, pberth]
          simp only [hst2]
          simp only [List.filter_append, List.foldl_append]
      · rw [if_neg hd]
        set st1 := { st with
            td_message_rate_window := st.td_message_rate_window ++ [t]
            td_batch := st.td_batch ++ [p] } with hst1
        have hclose' : ∀ m' ∈ rest, ∀ t' ∈ st1.td_message_rate_window ++
            rest.map Prod.fst, m'.1 - t' < 1 := by
          intro m' hm' t' ht'
          simp only [hst1, List.append_assoc, List.mem_append,
            List.mem_singleton, List.mem_map] at ht'
          apply hclose m' (by simp [hm'])
          simp only [List.map_cons, List.mem_append, List.mem_cons, List.mem_map]
          rcases ht' with h | h | h
          · exact Or.inl h
          · exact Or.inr (Or.inl h)
          · exact Or.inr (Or.inr (by
              obtain ⟨x, hx1, hx2⟩ := h
              exact ⟨x, hx1, hx2⟩))
        have hcap' : st1.td_message_rate_window.length + rest.length ≤
            cfg.max_messages_per_second := by
          simp only [hst1, List.length_append, List.length_singleton]
          simp only [List.length_cons] at hcap
          omega
        obtain ⟨i1, i2, i3, i4, i5⟩ := ih st1 (fun m' hm' => hpass m' (by simp [hm']))
          hclose' hcap'
        refine ⟨?_, ?_, ?_, ?_, ?_⟩
        · simp [i1, List.replicate_succ]
        · rw [i2]
        · rw [i3]; simp [hst1, List.append_assoc]
        · simp only [List.nil_append, List.join]
          rw [i4]
          simp [hst1, hp, List.filterMap_cons, List.append_assoc]
        · simp only [List.nil_append, List.join]
          rw [i5]

theorem run_all_dropped (cfg : TdConfig) (msgs : List (ℚ × TdWire))
    (st : TdHubState)
    (hpass : ∀ m ∈ msgs, reachesRateLimiter cfg m.2 = true)
    (hclose : ∀ m ∈ msgs, ∀ t' ∈ st.td_message_rate_window, m.1 - t' < 1)
    (hfull : cfg.max_messages_per_second ≤ st.td_message_rate_window.length) :
    processTdMessages cfg msgs st =
      ({ st with td_dropped_count := st.td_dropped_count + msgs.length },
       List.replicate msgs.length HandleOutcome.dropped, []) := by
  induction msgs generalizing st with
  | nil => simp [processTdMessages]
  | cons m rest ih =>
      obtain ⟨t, w⟩ := m
      obtain ⟨p, hp⟩ := parse_of_reaches cfg w (hpass (t, w) (by simp))
      have hreach := hpass (t, w) (by simp)
      unfold reachesRateLimiter at hreach
      rw [hp, Bool.and_eq_true] at hreach
      obtain ⟨hearly, hfilters⟩ := hreach
      have hwin : st.td_message_rate_window.filter (fun x => decide (t - x < 1))
          = st.td_message_rate_window := by
        rw [List.filter_eq_self]
        intro a ha
        exact decide_eq_true (hclose (t, w) (by simp) a ha)
      have hnotearly : ¬ (cfg.td_areas ≠ [] ∧
          earlyAreaMatch cfg.td_areas w = false) := by
        rw [Bool.or_eq_true] at hearly
        rcases hearly with h | h
        · intro hc; exact hc.1 (List.isEmpty_iff.mp h)
        · intro hc; rw [h] at hc; exact Bool.noConfusion hc.2
      have hfilters2 : apply_td_filters p
          (if cfg.td_areas.isEmpty then none else some cfg.td_areas) none
            = true := hfilters
      have hh : handle_td_message cfg t w st =
          ({ st with
              td_message_rate_window := st.td_message_rate_window
              td_dropped_count := st.td_dropped_count + 1 }, .dropped, []) := by
        unfold handle_td_message
        rw [if_neg hnotearly, hp]
        simp only
        rw [if_neg (by rw [hfilters2]; simp), hwin, if_pos hfull]
      have hstep : processTdMessages cfg ((t, w) :: rest) st =
          (let r1 := handle_td_message cfg t w st
           let r2 := processTdMessages cfg rest r1.1
           (r2.1, r1.2.1 :: r2.2.1, r1.2.2 ++ r2.2.2)) := rfl
      rw [hstep]
      simp only [hh]
      rw [ih { st with td_dropped_count := st.td_dropped_count + 1 }
        (fun m' hm' => hpass m' (by simp [hm']))
        (fun m' hm' t' ht' => hclose m' (by simp [hm']) t' ht') hfull]
      have harith : st.td_dropped_count + 1 + rest.length
          = st.td_dropped_count + (rest.length + 1) := by omega
      simp [harith, List.replicate_succ]

theorem processTdMessages_append (cfg : TdConfig) (l1 l2 : List (ℚ × TdWire))
    (st : TdHubState) :
    processTdMessages cfg (l1 ++ l2) st =
      ((processTdMessages cfg l2 (processTdMessages cfg l1 st).1).1,
       (processTdMessages cfg l1 st).2.1 ++
         (processTdMessages cfg l2 (processTdMessages cfg l1 st).1).2.1,
       (processTdMessages cfg l1 st).2.2 ++
         (processTdMessages cfg l2 (processTdMessages cfg l1 st).1).2.2) := by
  induction l1 generalizing st with
  | nil => simp [processTdMessages]
  | cons m rest ih =>
      obtain ⟨t, w⟩ := m
      simp only [List.cons_append, processTdMessages, List.append_eq]
      rw [ih]
      simp [List.append_assoc]

theorem length_filterMap_parse (msgs : List (ℚ × TdWire))
    (hpass : ∀ m ∈ msgs, ∃ p, parse_td_message m.2 = some p) :
    (msgs.filterMap (fun m => parse_td_message m.2)).length = msgs.length := by
  induction msgs with
  | nil => rfl
  | cons m rest ih =>
      obtain ⟨p, hp⟩ := hpass m (by simp)
      rw [List.filterMap_cons, hp]
      simp only [List.length_cons]
      rw [ih (fun m' hm' => hpass m' (by simp [hm']))]

theorem run_accepted_no_dispatch (cfg : TdConfig) (msgs : List (ℚ × TdWire))
    (st : TdHubState)
    (hpass : ∀ m ∈ msgs, reachesRateLimiter cfg m.2 = true)
    (hclose : ∀ m ∈ msgs, ∀ t' ∈ st.td_message_rate_window ++ msgs.map Prod.fst,
        m.1 - t' < 1)
    (hcap : st.td_message_rate_window.length + msgs.length
        ≤ cfg.max_messages_per_second)
    (hbcap : st.td_batch.length + msgs.length < cfg.max_batch_size)
    (htime : ∀ m ∈ msgs, m.1 - st.td_last_dispatch_time < cfg.update_interval) :
    processTdMessages cfg msgs st =
      ({ st with
          td_message_rate_window :=
            st.td_message_rate_window ++ msgs.map Prod.fst
          td_batch :=
            st.td_batch ++ msgs.filterMap (fun m => parse_td_message m.2) },
       List.replicate msgs.length HandleOutcome.accepted, []) := by
  induction msgs generalizing st with
  | nil => simp [processTdMessages]
  | cons m rest ih =>
      obtain ⟨t, w⟩ := m
      obtain ⟨p, hp⟩ := parse_of_reaches cfg w (hpass (t, w) (by simp))
      have hwin : st.td_message_rate_window.filter (fun x => decide (t - x < 1))
          = st.td_message_rate_window := by
        rw [List.filter_eq_self]
        intro a ha
        exact decide_eq_true
          (hclose (t, w) (by simp) a (List.mem_append_left _ ha))
      have hlt : st.td_message_rate_window.length <
          cfg.max_messages_per_second := by
        simp only [List.length_cons] at hcap
        omega
      have hh := handle_td_message_accepted cfg t w st p hp
        (hpass (t, w) (by simp)) hwin hlt
      have hnd : ¬ (cfg.max_batch_size ≤ (st.td_batch ++ [p]).length ∨
          cfg.update_interval ≤ t - st.td_last_dispatch_time) := by
        rintro (h | h)
        · simp only [List.length_append, List.length_singleton,
            List.length_cons, List.length_nil] at h hbcap
          omega
        · exact absurd (htime (t, w) (by simp)) (by
            intro hc
            exact absurd h (not_le.mpr hc))
      rw [if_neg hnd] at hh
      have hstep : processTdMessages cfg ((t, w) :: rest) st =
          (let r1 := handle_td_message cfg t w st
           let r2 := processTdMessages cfg rest r1.1
           (r2.1, r1.2.1 :: r2.2.1, r1.2.2 ++ r2.2.2)) := rfl
      rw [hstep]
      simp only [hh]
      set st1 := { st with
          td_message_rate_window := st.td_message_rate_window ++ [t]
          td_batch := st.td_batch ++ [p] } with hst1
      have hclose' : ∀ m' ∈ rest, ∀ t' ∈ st1.td_message_rate_window ++
          rest.map Prod.fst, m'.1 - t' < 1 := by
        intro m' hm' t' ht'
        simp only [hst1, List.append_assoc, List.mem_append,
          List.mem_singleton, List.mem_map] at ht'
        apply hclose m' (by simp [hm'])
        simp only [List.map_cons, List.mem_append, List.mem_cons, List.mem_map]
        rcases ht' with h | h | h
        · exact Or.inl h
        · exact Or.inr (Or.inl h)
        · exact Or.inr (Or.inr (by
            obtain ⟨x, hx1, hx2⟩ := h
            exact ⟨x, hx1, hx2⟩))
      have hcap' : st1.td_message_rate_window.length + rest.length ≤
          cfg.max_messages_per_second := by
        simp only [hst1, List.length_append, List.length_singleton]
        simp only [List.length_cons] at hcap
        omega
      have hbcap' : st1.td_batch.length + rest.length < cfg.max_batch_size := by
        simp only [hst1, List.length_append, List.length_singleton]
        simp only [List.length_cons] at hbcap
        omega
      have htime' : ∀ m' ∈ rest,
          m'.1 - st1.td_last_dispatch_time < cfg.update_interval := by
        intro m' hm'
        exact htime m' (by simp [hm'])
      rw [ih st1 (fun m' hm' => hpass m' (by simp [hm'])) hclose' hcap'
        hbcap' htime']
      simp [hst1, Prod.mk.injEq, TdHubState.mk.injEq, hp, List.filterMap_cons,
        List.append_assoc, List.replicate_succ]

/-- C2: if, with `maxMessagesPerSecond = N`, `N + k` raw TD messages that all
parse and pass the area filter are handled with an initially empty rate
window and all timestamps within one second of each other, then the first
`N` are accepted and appended (in order) and the remaining `k` are dropped:
the dropped-message counter grows by exactly `k`, the dropped messages never
enter the pending batch or any dispatched batch, and the berth state is the
fold of the dispatched (hence accepted) events only. -/
theorem C2_rate_limiter (cfg : TdConfig) (st : TdHubState)
    (msgs : List (ℚ × TdWire)) (k : Nat)
    (hwin : st.td_message_rate_window = [])
    (hbatch : st.td_batch = [])
    (hlen : msgs.length = cfg.max_messages_per_second + k)
    (hpass : ∀ m ∈ msgs, reachesRateLimiter cfg m.2 = true)
    (hclose : ∀ m ∈ msgs, ∀ m' ∈ msgs, m.1 - m'.1 < 1) :
    (processTdMessages cfg msgs st).2.1
      = List.replicate cfg.max_messages_per_second HandleOutcome.accepted
        ++ List.replicate k HandleOutcome.dropped ∧
    (processTdMessages cfg msgs st).1.td_dropped_count
      = st.td_dropped_count + k ∧
    (processTdMessages cfg msgs st).2.2.flatten ++
        (processTdMessages cfg msgs st).1.td_batch
      = (msgs.take cfg.max_messages_per_second).filterMap
          (fun m => parse_td_message m.2) ∧
    (processTdMessages cfg msgs st).1.berth_state
      = (((processTdMessages cfg msgs st).2.2.flatten).filter isBerthOp).foldl
          BerthState.update st.berth_state := by
  obtain ⟨l1, l2, hms, hlen1, hlen2⟩ :
      ∃ l1 l2, msgs = l1 ++ l2 ∧ l1.length = cfg.max_messages_per_second ∧
        l2.length = k := by
    refine ⟨msgs.take cfg.max_messages_per_second,
      msgs.drop cfg.max_messages_per_second,
      (List.take_append_drop _ _).symm, ?_, ?_⟩
    · rw [List.length_take]; omega
    · rw [List.length_drop]; omega
  subst hms
  have htake : (l1 ++ l2).take cfg.max_messages_per_second = l1 := by
    rw [← hlen1]
    exact List.take_left l1 l2
  obtain ⟨a1, a2, a3, a4, a5⟩ := run_all_accepted cfg l1 st
    (fun m hm => hpass m (List.mem_append_left _ hm))
    (by
      intro m hm t' ht'
      rw [hwin, List.nil_append] at ht'
      obtain ⟨x, hx1, hx2⟩ := List.mem_map.mp ht'
      have := hclose m (List.mem_append_left _ hm) x (List.mem_append_left _ hx1)
      rw [hx2] at this
      exact this)
    (by rw [hwin]; simp [hlen1])
  set stA := (processTdMessages cfg l1 st).1 with hstA
  have hfullA : cfg.max_messages_per_second ≤
      stA.td_message_rate_window.length := by
    rw [a3, hwin, List.nil_append, List.length_map, hlen1]
  have hdrop := run_all_dropped cfg l2 stA
    (fun m hm => hpass m (List.mem_append_right _ hm))
    (by
      intro m hm t' ht'
      rw [a3, hwin, List.nil_append] at ht'
      obtain ⟨x, hx1, hx2⟩ := List.mem_map.mp ht'
      have := hclose m (List.mem_append_right _ hm) x (List.mem_append_left _ hx1)
      rw [hx2] at this
      exact this)
    hfullA
  have happ := processTdMessages_append cfg l1 l2 st
  rw [happ, ← hstA, hdrop, htake]
  refine ⟨?_, ?_, ?_, ?_⟩
  · rw [a1, hlen1, hlen2]
  · rw [a2, hlen2]
  · simp only [List.append_nil]
    rw [a4, hbatch, List.nil_append]
  · simp only [List.append_nil]
    exact a5

/-- C3: with `maxBatchSize = B ≤ maxMessagesPerSecond`, feeding exactly `B`
accepted TD events, all within one second, with an empty initial batch and
rate window, and with the elapsed-time trigger never firing (every timestamp
stays within `updateInterval` of the last dispatch time), produces exactly
one dispatched batch, that batch holds all `B` parsed events in arrival
order, and the pending batch is empty immediately afterwards. -/
theorem C3_batch_dispatch (cfg : TdConfig) (st : TdHubState)
    (msgs : List (ℚ × TdWire))
    (hwin : st.td_message_rate_window = [])
    (hbatch : st.td_batch = [])
    (hB1 : 1 ≤ cfg.max_batch_size)
    (hBN : cfg.max_batch_size ≤ cfg.max_messages_per_second)
    (hlen : msgs.length = cfg.max_batch_size)
    (hpass : ∀ m ∈ msgs, reachesRateLimiter cfg m.2 = true)
    (hclose : ∀ m ∈ msgs, ∀ m' ∈ msgs, m.1 - m'.1 < 1)
    (htime : ∀ m ∈ msgs, m.1 - st.td_last_dispatch_time < cfg.update_interval) :
    (processTdMessages cfg msgs st).2.2
      = [msgs.filterMap (fun m => parse_td_message m.2)] ∧
    (processTdMessages cfg msgs st).1.td_batch = [] ∧
    (processTdMessages cfg msgs st).2.1
      = List.replicate cfg.max_batch_size HandleOutcome.accepted := by
  rcases List.eq_nil_or_concat msgs with hnil | ⟨l1, mB, hms⟩
  · rw [hnil] at hlen
    simp at hlen
    omega
  rw [List.concat_eq_append] at hms
  subst hms
  have hlen1 : l1.length = cfg.max_batch_size - 1 := by
    simp only [List.length_append, List.length_singleton] at hlen
    omega
  have hrun := run_accepted_no_dispatch cfg l1 st
    (fun m hm => hpass m (List.mem_append_left _ hm))
    (by
      intro m hm t' ht'
      rw [hwin, List.nil_append] at ht'
      obtain ⟨x, hx1, hx2⟩ := List.mem_map.mp ht'
      have := hclose m (List.mem_append_left _ hm) x (List.mem_append_left _ hx1)
      rw [hx2] at this
      exact this)
    (by rw [hwin]; simp only [List.length_nil, Nat.zero_add, hlen1]; omega)
    (by rw [hbatch]; simp only [List.length_nil, Nat.zero_add, hlen1]; omega)
    (fun m hm => htime m (List.mem_append_left _ hm))
  obtain ⟨pB, hpB⟩ := parse_of_reaches cfg mB.2 (hpass mB (by simp))
  set stA : TdHubState := { st with
      td_message_rate_window := st.td_message_rate_window ++ l1.map Prod.fst
      td_batch := st.td_batch ++ l1.filterMap (fun m => parse_td_message m.2) }
    with hstA
  have hfmlen : (l1.filterMap (fun m => parse_td_message m.2)).length
      = l1.length := by
    apply length_filterMap_parse
    intro m hm
    exact parse_of_reaches cfg m.2 (hpass m (List.mem_append_left _ hm))
  have hwinA : stA.td_message_rate_window.filter
      (fun x => decide (mB.1 - x < 1)) = stA.td_message_rate_window := by
    rw [List.filter_eq_self]
    intro a ha
    simp only [hstA, hwin, List.nil_append] at ha
    obtain ⟨x, hx1, hx2⟩ := List.mem_map.mp ha
    refine decide_eq_true ?_
    have := hclose mB (by simp) x (List.mem_append_left _ hx1)
    rw [hx2] at this
    exact this
  have hltA : stA.td_message_rate_window.length <
      cfg.max_messages_per_second := by
    simp only [hstA, hwin, List.nil_append, List.length_map, hlen1]
    omega
  have hhB := handle_td_message_accepted cfg mB.1 mB.2 stA pB hpB
    (hpass mB (by simp)) hwinA hltA
  have hdisp : cfg.max_batch_size ≤ (stA.td_batch ++ [pB]).length ∨
      cfg.update_interval ≤ mB.1 - stA.td_last_dispatch_time := by
    left
    simp only [hstA, hbatch, List.nil_append, List.length_append,
      List.length_singleton, hfmlen, hlen1]
    omega
  rw [if_pos hdisp] at hhB
  have happ := processTdMessages_append cfg l1 [mB] st
  have hsingle : processTdMessages cfg [mB] stA =
      ((handle_td_message cfg mB.1 mB.2 stA).1,
       [(handle_td_message cfg mB.1 mB.2 stA).2.1],
       (handle_td_message cfg mB.1 mB.2 stA).2.2) := by
    cases mB
    simp [processTdMessages]
  rw [happ, hrun]
  dsimp only
  rw [hsingle, hhB]
  obtain ⟨qb, qd, qw, qc, qberth⟩ := updateTdBatchState_proj
    { stA with
      td_message_rate_window := stA.td_message_rate_window ++ [mB.1]
      td_batch := []
      td_last_dispatch_time := mB.1 } (stA.td_batch ++ [pB])
  refine ⟨?_, ?_, ?_⟩
  · simp only [List.nil_append]
    simp only [hstA, hbatch, List.nil_append]
    rw [List.filterMap_append]
    cases mB
    simp only [List.filterMap_cons, List.filterMap_nil] at hpB ⊢
    rw [hpB]
  · simp only [List.nil_append]
    rw [qb]
  · simp only [List.nil_append]
    rw [← List.replicate_succ']
    congr 1
    omega

/-- A concrete CA wire message (time, area, from, to, description). -/
def caWire (tm a f t d : String) : TdWire :=
  [("CA_MSG", ⟨some "CA", some tm, some a, some f, some t, some d, none, none, none⟩)]

/-- A fresh hub TD state: empty batch and rate window, zero counters. -/
def st0 : TdHubState := ⟨[], 0, [], 0, BerthState.init 10, none, 0⟩

/-- C2 witness configuration: no area filter, 1 message/second. -/
def c2cfg : TdConfig := ⟨[], 1, 10, 10⟩

/-- C2 witness messages: two messages in the same instant. -/
def c2msgs : List (ℚ × TdWire) :=
  [(0, caWire "100" "SK" "101" "102" "1A23"),
   (0, caWire "101" "SK" "102" "103" "1A23")]

/-- C2 witness: with `maxMessagesPerSecond = 1`, two messages in the same
second give one accepted, one dropped. -/
theorem C2_rate_limiter_witness :
    (processTdMessages c2cfg c2msgs st0).2.1
      = List.replicate 1 HandleOutcome.accepted
        ++ List.replicate 1 HandleOutcome.dropped ∧
    (processTdMessages c2cfg c2msgs st0).1.td_dropped_count
      = st0.td_dropped_count + 1 ∧
    (processTdMessages c2cfg c2msgs st0).2.2.flatten ++
        (processTdMessages c2cfg c2msgs st0).1.td_batch
      = (c2msgs.take 1).filterMap (fun m => parse_td_message m.2) ∧
    (processTdMessages c2cfg c2msgs st0).1.berth_state
      = (((processTdMessages c2cfg c2msgs st0).2.2.flatten).filter
          isBerthOp).foldl BerthState.update st0.berth_state :=
  C2_rate_limiter c2cfg st0 c2msgs 1 rfl rfl rfl (by decide)
    (by simp [c2msgs])

/-- C3 witness configuration: batch size 2, generous rate and interval. -/
def c3cfg : TdConfig := ⟨[], 10, 2, 100⟩

/-- C3 witness messages: exactly two messages in the same instant. -/
def c3msgs : List (ℚ × TdWire) :=
  [(0, caWire "100" "SK" "101" "102" "1A23"),
   (0, caWire "101" "SK" "102" "103" "1A23")]

/-- C3 witness: with `maxBatchSize = 2`, two accepted messages trigger exactly
one dispatch holding both, leaving the pending batch empty. -/
theorem C3_batch_dispatch_witness :
    (processTdMessages c3cfg c3msgs st0).2.2
      = [c3msgs.filterMap (fun m => parse_td_message m.2)] ∧
    (processTdMessages c3cfg c3msgs st0).1.td_batch = [] ∧
    (processTdMessages c3cfg c3msgs st0).2.1
      = List.replicate 2 HandleOutcome.accepted :=
  C3_batch_dispatch c3cfg st0 c3msgs rfl rfl (by decide) (by decide) rfl
    (by decide) (by simp [c3msgs]) (by simp [c3msgs, st0, c3cfg])

/-! ## Hub: movement-record filtering (`hub.py`, `_Listener.on_message`)

The movement path of `on_message` (lines 262-310) filters a JSON-array batch
and publishes the result via `_update_movement` (lines 481-490).  Per the wire
shape (spec §6) the `body` fields are strings when present; `str(...)` on a
string is the identity. -/

/-- Python `str.strip()` whitespace (ASCII subset). -/
def isPyWs (c : Char) : Bool :=
  decide (c = ' ') || decide (c = '\t') || decide (c = '\n') ||
  decide (c = '\r') || decide (c = '\x0b') || decide (c = '\x0c')

/-- Python `s.strip()`. -/
def pyStrip (s : String) : String :=
  String.mk (((s.data.dropWhile isPyWs).reverse.dropWhile isPyWs).reverse)

structure MvHeader where
  msg_type : Option String
  deriving DecidableEq

structure MvBody where
  loc_stanox : Option String
  toc_id : Option String
  event_type : Option String
  deriving DecidableEq

/-- One element of a movement batch: `{header: {...}, body: {...}}`. -/
structure MvItem where
  header : Option MvHeader
  body : Option MvBody
  deriving DecidableEq

/-- The configuration options read by the movement path: the legacy single
STANOX filter, the configured stations' `stanox` fields, the TOC filter, and
the event-type filter. -/
structure MovementConfig where
  stanox_filter : String
  stations : List String
  toc_filter : String
  event_types : List String

/-- The tracked-STANOX set of `on_message` (lines 268-275): the stripped
legacy filter when non-blank, plus every station's stripped non-blank
`stanox` code.  A Python `set` is modelled by a list up to membership. -/
def trackedStanox (cfg : MovementConfig) : List String :=
  (if pyStrip cfg.stanox_filter ≠ "" then [pyStrip cfg.stanox_filter] else [])
    ++ (cfg.stations.map pyStrip).filter (fun c => c ≠ "")

/-- `str(mv.get("loc_stanox", ""))` with `mv = item.get("body") or {}`. -/
def movementLoc (it : MvItem) : String :=
  match it.body with
  | some b => b.loc_stanox.getD ""
  | none => ""

/-- `str(mv.get("toc_id", ""))`. -/
def movementToc (it : MvItem) : String :=
  match it.body with
  | some b => b.toc_id.getD ""
  | none => ""

/-- `str(mv.get("event_type", ""))`. -/
def movementEv (it : MvItem) : String :=
  match it.body with
  | some b => b.event_type.getD ""
  | none => ""

/-- The loop body of the movement filter (lines 281-303): does this item
survive every `continue`? -/
def acceptMovement (cfg : MovementConfig) (it : MvItem) : Bool :=
  let headerType : Option String :=
    match it.header with
    | some h => h.msg_type
    | none => none
  if headerType ≠ some "0003" then false
  else if trackedStanox cfg ≠ [] ∧ movementLoc it ∉ trackedStanox cfg then false
  else if pyStrip cfg.toc_filter ≠ "" ∧ movementToc it ≠ pyStrip cfg.toc_filter
    then false
  else if cfg.event_types ≠ [] ∧ movementEv it ∉ cfg.event_types then false
  else true

structure MvLoopState where
  kept : Nat
  last : Option MvItem
  station_movements : List (String × MvItem)

/-- One iteration of the movement loop on an accepted or rejected item. -/
def movementStep (cfg : MovementConfig) (s : MvLoopState) (it : MvItem) :
    MvLoopState :=
  if acceptMovement cfg it then
    let s1 : MvLoopState := { s with kept := s.kept + 1, last := some it }
    if movementLoc it ≠ "" then
      let sm := alSet s1.station_movements (movementLoc it) it
      { s1 with station_movements := sm }
    else s1
  else s

/-- The whole movement loop over a batch. -/
def processMovementList (cfg : MovementConfig) (payload : List MvItem) :
    MvLoopState :=
  payload.foldl (movementStep cfg) ⟨0, none, []⟩

/-- The dispatcher channels signalled for a batch (`_update_movement`):
nothing when no movement was kept; otherwise the global channel plus one
channel per distinct tracked station in the batch. -/
def movementDispatches (cfg : MovementConfig) (payload : List MvItem) :
    List String :=
  let r := processMovementList cfg payload
  match r.last with
  | none => []
  | some _ =>
      "movement" :: r.station_movements.map (fun kv => "movement_" ++ kv.1)

/-- Membership in the tracked set, phrased as the claim words it: the union
of the legacy single-STANOX filter and the stations' codes. -/
def inClaimTrackedSet (cfg : MovementConfig) (x : String) : Prop :=
  (pyStrip cfg.stanox_filter ≠ "" ∧ x = pyStrip cfg.stanox_filter) ∨
  (∃ s ∈ cfg.stations, pyStrip s ≠ "" ∧ x = pyStrip s)

/-- Emptiness of the claim's tracked set. -/
def claimTrackedSetEmpty (cfg : MovementConfig) : Prop :=
  pyStrip cfg.stanox_filter = "" ∧ ∀ s ∈ cfg.stations, pyStrip s = ""

theorem mem_trackedStanox (cfg : MovementConfig) (x : String) :
    x ∈ trackedStanox cfg ↔ inClaimTrackedSet cfg x := by
  simp only [trackedStanox, inClaimTrackedSet, List.mem_append,
    List.mem_filter, List.mem_map]
  constructor
  · rintro (h | ⟨⟨s, hs, rfl⟩, hne⟩)
    · by_cases hsf : pyStrip cfg.stanox_filter = ""
      · rw [hsf] at h; simp at h
      · rw [if_pos hsf] at h
        simp only [List.mem_singleton] at h
        exact Or.inl ⟨hsf, h⟩
    · exact Or.inr ⟨s, hs, by simpa using hne, rfl⟩
  · rintro (⟨hne, rfl⟩ | ⟨s, hs, hne, rfl⟩)
    · rw [if_pos hne]; simp
    · exact Or.inr ⟨⟨s, hs, rfl⟩, by simpa using hne⟩

theorem trackedStanox_eq_nil (cfg : MovementConfig) :
    trackedStanox cfg = [] ↔ claimTrackedSetEmpty cfg := by
  simp only [trackedStanox, claimTrackedSetEmpty, List.append_eq_nil,
    List.filter_eq_nil_iff]
  constructor
  · rintro ⟨h1, h2⟩
    constructor
    · by_cases hsf : pyStrip cfg.stanox_filter = ""
      · exact hsf
      · rw [if_pos hsf] at h1; exact absurd h1 (by simp)
    · intro s hs
      have := h2 (pyStrip s) (List.mem_map.mpr ⟨s, hs, rfl⟩)
      simpa using this
  · rintro ⟨h1, h2⟩
    refine ⟨by rw [h1]; simp, ?_⟩
    intro c hc
    obtain ⟨s, hs, rfl⟩ := List.mem_map.mp hc
    simp [h2 s hs]

theorem mem_keys_alSet {α : Type} (l : List (String × α)) (k k' : String)
    (v : α) (h : k' ∈ l.map Prod.fst) :
    k' ∈ (alSet l k v).map Prod.fst := by
  induction l with
  | nil => simp [alSet] at h
  | cons hd tl ih =>
      obtain ⟨k0, v0⟩ := hd
      by_cases h0 : k0 = k
      · subst h0; simpa [alSet] using h
      · simp only [alSet, if_neg h0, List.map_cons, List.mem_cons] at h ⊢
        rcases h with h | h
        · exact Or.inl h
        · exact Or.inr (ih h)

theorem mem_keys_alSet_self {α : Type} (l : List (String × α)) (k : String)
    (v : α) : k ∈ (alSet l k v).map Prod.fst := by
  induction l with
  | nil => simp [alSet]
  | cons hd tl ih =>
      obtain ⟨k0, v0⟩ := hd
      by_cases h0 : k0 = k
      · subst h0; simp [alSet]
      · simp only [alSet, if_neg h0, List.map_cons, List.mem_cons]
        exact Or.inr ih

theorem movementFold_last_isSome (cfg : MovementConfig) (payload : List MvItem)
    (s : MvLoopState) (h : s.last.isSome) :
    ((payload.foldl (movementStep cfg) s).last).isSome := by
  induction payload generalizing s with
  | nil => exact h
  | cons it rest ih =>
      refine ih (movementStep cfg s it) ?_
      unfold movementStep
      split_ifs <;> simp_all

theorem movementFold_key_mem (cfg : MovementConfig) (payload : List MvItem)
    (s : MvLoopState) (k : String)
    (h : k ∈ s.station_movements.map Prod.fst) :
    k ∈ ((payload.foldl (movementStep cfg) s).station_movements).map
      Prod.fst := by
  induction payload generalizing s with
  | nil => exact h
  | cons it rest ih =>
      refine ih (movementStep cfg s it) ?_
      simp only [movementStep]
      split_ifs
      · exact mem_keys_alSet _ _ _ _ h
      · exact h
      · exact h

theorem movementFold_reached (cfg : MovementConfig) (payload : List MvItem)
    (s : MvLoopState) (it : MvItem) (hmem : it ∈ payload)
    (hacc : acceptMovement cfg it = true) (hloc : movementLoc it ≠ "") :
    ((payload.foldl (movementStep cfg) s).last).isSome ∧
    movementLoc it ∈
      ((payload.foldl (movementStep cfg) s).station_movements).map Prod.fst := by
  induction payload generalizing s with
  | nil => simp at hmem
  | cons hd rest ih =>
      rcases List.mem_cons.mp hmem with heq | htl
      · subst heq
        have hstep : (movementStep cfg s it).last.isSome ∧
            movementLoc it ∈
              (movementStep cfg s it).station_movements.map Prod.fst := by
          unfold movementStep
          rw [if_pos hacc, if_pos hloc]
          exact ⟨by simp, mem_keys_alSet_self _ _ _⟩
        exact ⟨movementFold_last_isSome cfg rest _ hstep.1,
          movementFold_key_mem cfg rest _ _ hstep.2⟩
      · exact ih (movementStep cfg s hd) htl

/-- C9: a movement record is accepted by the batch filter iff its header
`msg_type` is `"0003"`, its location is tracked or the tracked set (the union
of the legacy single-STANOX filter and the configured stations' codes) is
empty, the TOC filter is empty or matched, and the event-type filter is empty
or matched; and every accepted movement with a non-blank location is
published both on the global movement channel and on its station-specific
channel. -/
theorem C9_movement_filter (cfg : MovementConfig) (payload : List MvItem)
    (it : MvItem) :
    (acceptMovement cfg it = true ↔
      ((match it.header with | some h => h.msg_type | none => none)
          = some "0003" ∧
       (claimTrackedSetEmpty cfg ∨ inClaimTrackedSet cfg (movementLoc it)) ∧
       (pyStrip cfg.toc_filter = "" ∨
         movementToc it = pyStrip cfg.toc_filter) ∧
       (cfg.event_types = [] ∨ movementEv it ∈ cfg.event_types))) ∧
    (it ∈ payload → acceptMovement cfg it = true → movementLoc it ≠ "" →
      "movement" ∈ movementDispatches cfg payload ∧
      ("movement_" ++ movementLoc it) ∈ movementDispatches cfg payload) := by
  constructor
  · unfold acceptMovement
    rw [← mem_trackedStanox, ← trackedStanox_eq_nil]
    split_ifs with h1 h2 h3 h4 <;>
      simp_all <;>
      tauto
  · intro hmem hacc hloc
    obtain ⟨hsome, hkey⟩ := movementFold_reached cfg payload ⟨0, none, []⟩
      it hmem hacc hloc
    have hfold : processMovementList cfg payload
        = payload.foldl (movementStep cfg) ⟨0, none, []⟩ := rfl
    obtain ⟨lastIt, hlast⟩ := Option.isSome_iff_exists.mp hsome
    simp only [movementDispatches]
    rw [hfold, hlast]
    refine ⟨by simp, ?_⟩
    obtain ⟨kv, hkv, hfst⟩ := List.mem_map.mp hkey
    simp only [List.mem_cons, List.mem_map]
    exact Or.inr ⟨kv, hkv, by rw [hfst]⟩

/-- C9 witness configuration and payload: the spec §8 scenario. -/
def c9cfg : MovementConfig := ⟨"", ["88487"], "", []⟩

/-- The single movement record of the spec §8 scenario. -/
def c9item : MvItem :=
  ⟨some ⟨some "0003"⟩, some ⟨some "88487", some "88", some "ARRIVAL"⟩⟩

/-- C9 witness: the scenario movement is accepted and published globally and
on the `88487` channel. -/
theorem C9_movement_filter_witness :
    "movement" ∈ movementDispatches c9cfg [c9item] ∧
    ("movement_" ++ movementLoc c9item) ∈ movementDispatches c9cfg [c9item] :=
  (C9_movement_filter c9cfg [c9item] c9item).2 (by simp) (by decide) (by decide)

/-! ## Claim C5: aliasing of query results (reference-level model)

The value-level `BerthState` above cannot express Python object identity, so
C5 — every read query returns an independent copy — is examined on a
reference-level re-translation of the same class (`td_parser.py` lines
172-430), in which each berth-occupant record, platform record and history
record is an object at a heap address and the internal dicts map keys to
addresses.  `get_berth` executes `return self._berths.get(key)`: it hands out
the stored address itself, so the caller holds the very record the class
reads; `get_all_berths` executes `return self._berths.copy()`: a fresh
key→address table whose values are the shared addresses (a shallow copy);
likewise `get_platform_state` / `get_all_platform_states` /
`get_event_history`.  Address allocation order is immaterial to the claims. -/

def nalGet {α : Type} : List (Nat × α) → Nat → Option α
  | [], _ => none
  | (k, v) :: rest, key => if k = key then some v else nalGet rest key

def nalSet {α : Type} : List (Nat × α) → Nat → α → List (Nat × α)
  | [], key, v => [(key, v)]
  | (k, w) :: rest, key, v =>
      if k = key then (k, v) :: rest else (k, w) :: nalSet rest key v

theorem nalGet_nalSet_self {α : Type} (l : List (Nat × α)) (k : Nat) (v : α) :
    nalGet (nalSet l k v) k = some v := by
  induction l with
  | nil => simp [nalSet, nalGet]
  | cons hd tl ih =>
      obtain ⟨k', v'⟩ := hd
      by_cases h : k' = k <;> simp [nalSet, nalGet, h, ih]

/-- The object heap: berth-occupant records, platform records and
event-history records, each at a numeric address. -/
structure RefHeap where
  occs : List (Nat × Occ)
  plats : List (Nat × PlatformRec)
  events : List (Nat × EventRecord)
  next : Nat
  deriving DecidableEq

/-- Reference-level `BerthState`: the internal dicts hold addresses. -/
structure BerthStateRef where
  heap : RefHeap
  berths : List (String × Nat)
  platform_state : List (String × Nat)
  event_history : List Nat
  event_history_size : Nat
  berth_to_platform : List (String × String)
  deriving DecidableEq

def BerthStateRef.init (size : Nat) : BerthStateRef :=
  ⟨⟨[], [], [], 0⟩, [], [], [], validate_history_size size, []⟩

/-- Allocate a fresh berth-occupant record (a dict literal in the source). -/
def allocOcc (st : BerthStateRef) (o : Occ) : BerthStateRef × Nat :=
  ({ st with heap := { st.heap with
      occs := st.heap.occs ++ [(st.heap.next, o)]
      next := st.heap.next + 1 } }, st.heap.next)

/-- Allocate a fresh platform record. -/
def allocPlat (st : BerthStateRef) (r : PlatformRec) : BerthStateRef × Nat :=
  ({ st with heap := { st.heap with
      plats := st.heap.plats ++ [(st.heap.next, r)]
      next := st.heap.next + 1 } }, st.heap.next)

/-- Allocate a fresh event-history record. -/
def allocEvent (st : BerthStateRef) (e : EventRecord) : BerthStateRef × Nat :=
  ({ st with heap := { st.heap with
      events := st.heap.events ++ [(st.heap.next, e)]
      next := st.heap.next + 1 } }, st.heap.next)

/-- `_update_platform_idle` at reference level: on a truthy platform id,
build a fresh record dict and store its address. -/
def updatePlatformIdleRef (st : BerthStateRef) (platform_id : Option String)
    (timestamp : Option String) : BerthStateRef :=
  match platform_id with
  | some pid =>
      if pid = "" then st
      else
        let (st1, addr) := allocPlat st ⟨pid, none, none, timestamp, "idle"⟩
        { st1 with platform_state := alSet st1.platform_state pid addr }
  | none => st

/-- `_update_platform_active` at reference level. -/
def updatePlatformActiveRef (st : BerthStateRef) (platform_id : Option String)
    (train_id : Option String) (event_type : String)
    (timestamp : Option String) : BerthStateRef :=
  match platform_id with
  | some pid =>
      if pid = "" then st
      else
        let (st1, addr) := allocPlat st
          ⟨pid, train_id, some event_type, timestamp, "active"⟩
        { st1 with platform_state := alSet st1.platform_state pid addr }
  | none => st

/-- Bounded append of a history-record address (`deque(maxlen=size)`). -/
def historyAppendRef (size : Nat) (hist : List Nat) (addr : Nat) : List Nat :=
  let h := hist ++ [addr]
  h.drop (h.length - size)

/-- `BerthState.update` at reference level.  The event record is built once
and, for berth operations, its address is appended to the history. -/
def BerthStateRef.update (st : BerthStateRef) (p : ParsedTd) : BerthStateRef :=
  let (st0, recAddr) := allocEvent st (eventRecordOf st.berth_to_platform p)
  let st1 : BerthStateRef :=
    if p.msg_type = "CA" then
      let from_key := pyFmt p.area_id ++ ":" ++ pyFmt p.from_berth
      let to_key := pyFmt p.area_id ++ ":" ++ pyFmt p.to_berth
      let from_platform := alGet st0.berth_to_platform from_key
      let to_platform := alGet st0.berth_to_platform to_key
      let stA := { st0 with berths := alErase st0.berths from_key }
      let stB := updatePlatformIdleRef stA from_platform p.time
      let (stC, occAddr) := allocOcc stB ⟨p.description, p.time⟩
      let stD := { stC with berths := alSet stC.berths to_key occAddr }
      updatePlatformActiveRef stD to_platform p.description "arrive" p.time
    else if p.msg_type = "CB" then
      let from_key := pyFmt p.area_id ++ ":" ++ pyFmt p.from_berth
      let from_platform := alGet st0.berth_to_platform from_key
      let stA := { st0 with berths := alErase st0.berths from_key }
      updatePlatformIdleRef stA from_platform p.time
    else if p.msg_type = "CC" then
      let to_key := pyFmt p.area_id ++ ":" ++ pyFmt p.to_berth
      let to_platform := alGet st0.berth_to_platform to_key
      let (stC, occAddr) := allocOcc st0 ⟨p.description, p.time⟩
      let stD := { stC with berths := alSet stC.berths to_key occAddr }
      updatePlatformActiveRef stD to_platform p.description "interpose" p.time
    else st0
  if p.msg_type = "CA" ∨ p.msg_type = "CB" ∨ p.msg_type = "CC" then
    let hist1 := historyAppendRef st.event_history_size st1.event_history recAddr
    { st1 with event_history := hist1 }
  else st1

/-- `get_berth` at reference level: the address stored internally. -/
def getBerthRef (st : BerthStateRef) (area_id berth_id : String) : Option Nat :=
  alGet st.berths (area_id ++ ":" ++ berth_id)

/-- `get_all_berths` at reference level: `self._berths.copy()`, a fresh
top-level table carrying the same shared addresses. -/
def getAllBerthsRef (st : BerthStateRef) : List (String × Nat) := st.berths

/-- `get_platform_state` at reference level. -/
def getPlatformRef (st : BerthStateRef) (platform_id : String) : Option Nat :=
  alGet st.platform_state platform_id

/-- `get_all_platform_states` at reference level. -/
def getAllPlatformsRef (st : BerthStateRef) : List (String × Nat) :=
  st.platform_state

/-- `get_event_history` at reference level: `list(...)` of the deque, a fresh
list of the same shared addresses. -/
def getEventHistoryRef (st : BerthStateRef) : List Nat := st.event_history

/-- A caller-side mutation of a berth record it was handed
(e.g. `rec["description"] = ...`): updates the object at that address. -/
def writeOccAt (st : BerthStateRef) (addr : Nat) (o : Occ) : BerthStateRef :=
  { st with heap := { st.heap with occs := nalSet st.heap.occs addr o } }

/-- A caller-side mutation of a platform record it was handed. -/
def writePlatAt (st : BerthStateRef) (addr : Nat) (r : PlatformRec) :
    BerthStateRef :=
  { st with heap := { st.heap with plats := nalSet st.heap.plats addr r } }

/-- The berth record the class itself observes for a key: follow the stored
address into the heap. -/
def readBerthRef (st : BerthStateRef) (area_id berth_id : String) : Option Occ :=
  (getBerthRef st area_id berth_id).bind (nalGet st.heap.occs)

/-- The platform record the class itself observes for a platform id. -/
def readPlatformRef (st : BerthStateRef) (platform_id : String) :
    Option PlatformRec :=
  (getPlatformRef st platform_id).bind (nalGet st.heap.plats)

/-- The concrete state for the C5 counterexample: one interpose applied to a
fresh reference-level state. -/
def c5state : BerthStateRef :=
  (BerthStateRef.init 10).update
    ⟨"CC", some "160", some "G1", none, some "0001", some "2J01", none, none, none⟩

/-- C5 counterexample: after an interpose of `2J01` into berth `G1:0001`,
`get_berth` hands the caller the internal record itself; writing through the
returned reference changes the record that subsequent internal reads observe
(from the `2J01` record to the `9X99` record) — so `get_berth` does not
return an independent copy, contradicting the claim. -/
theorem C5_counterexample :
    readBerthRef c5state "G1" "0001" = some ⟨some "2J01", some "160"⟩ ∧
    (getBerthRef c5state "G1" "0001").isSome = true ∧
    readBerthRef
        (writeOccAt c5state ((getBerthRef c5state "G1" "0001").getD 0)
          ⟨some "9X99", some "160"⟩) "G1" "0001"
      = some ⟨some "9X99", some "160"⟩ := by
  refine ⟨?_, ?_, ?_⟩ <;> rfl

/-- C5 (amended): the top-level containers returned by `get_all_berths`,
`get_all_platform_states` and `get_event_history` are fresh copies, but they
carry the internal record objects themselves (shared addresses), and
`get_berth` / `get_platform_state` return live references to the internal
records: a caller that mutates a returned record changes the record observed
by every subsequent internal read of that key. -/
theorem C5_queries_alias_internal_records (st : BerthStateRef)
    (a b : String) (addr : Nat) (o' : Occ)
    (h : getBerthRef st a b = some addr) :
    readBerthRef (writeOccAt st addr o') a b = some o' ∧
    getAllBerthsRef st = st.berths ∧
    getAllPlatformsRef st = st.platform_state ∧
    getEventHistoryRef st = st.event_history ∧
    (∀ (pid : String) (addr2 : Nat) (r' : PlatformRec),
      getPlatformRef st pid = some addr2 →
      readPlatformRef (writePlatAt st addr2 r') pid = some r') := by
  refine ⟨?_, rfl, rfl, rfl, ?_⟩
  · have h' : getBerthRef (writeOccAt st addr o') a b = some addr := h
    unfold readBerthRef
    rw [h']
    simp [writeOccAt, nalGet_nalSet_self]
  · intro pid addr2 r' h2
    have h2' : getPlatformRef (writePlatAt st addr2 r') pid = some addr2 := h2
    unfold readPlatformRef
    rw [h2']
    simp [writePlatAt, nalGet_nalSet_self]

/-- C5 witness: the amended statement at the concrete interpose state. -/
theorem C5_queries_alias_witness :
    readBerthRef
        (writeOccAt c5state ((getBerthRef c5state "G1" "0001").getD 0)
          ⟨some "9X99", some "161"⟩) "G1" "0001"
      = some ⟨some "9X99", some "161"⟩ ∧
    getAllBerthsRef c5state = c5state.berths ∧
    getAllPlatformsRef c5state = c5state.platform_state ∧
    getEventHistoryRef c5state = c5state.event_history ∧
    (∀ (pid : String) (addr2 : Nat) (r' : PlatformRec),
      getPlatformRef c5state pid = some addr2 →
      readPlatformRef (writePlatAt c5state addr2 r') pid = some r') :=
  C5_queries_alias_internal_records c5state "G1" "0001"
    ((getBerthRef c5state "G1" "0001").getD 0)
    ⟨some "9X99", some "161"⟩ (by rfl)

/-! ## JSON values, rendering and parsing

`smart_data.py` decodes the SMART reference data with `json.loads`.  The
embedding models JSON values as the inductive `Json` (numbers restricted to
integers — float literals are outside the model and never occur in the
claims), `json.loads` as a recursive-descent parser over character lists, and
a JSON rendering as the compact serializer `render`.  Object member lists keep
duplicates; `jLookup` reads the last binding, as a Python dict built from
parsed pairs would. -/

inductive Json where
  | null
  | bool (b : Bool)
  | num (n : Int)
  | str (s : String)
  | arr (xs : List Json)
  | obj (fields : List (String × Json))

/-- Python-dict lookup on a parsed member list: the last binding wins. -/
def jLookup (fs : List (String × Json)) (k : String) : Option Json :=
  fs.foldl (fun acc p => if p.1 = k then some p.2 else acc) none

mutual

/-- Fuel measure of a JSON value, for the parser round-trip. -/
def sizeJ : Json → Nat
  | .null => 1
  | .bool _ => 1
  | .num _ => 1
  | .str _ => 1
  | .arr xs => sizeArr xs + 2
  | .obj fs => sizeObj fs + 2

def sizeArr : List Json → Nat
  | [] => 1
  | x :: xs => sizeJ x + sizeArr xs + 1

def sizeObj : List (String × Json) → Nat
  | [] => 1
  | f :: fs => sizeJ f.2 + sizeObj fs + 1

end

/-- Lower-case hex digit for a value below 16. -/
def hexDigitChar (n : Nat) : Char :=
  if n < 10 then Char.ofNat ('0'.toNat + n) else Char.ofNat ('a'.toNat + n - 10)

/-- Serialize one string character, escaping `"` and `\` and control
characters (the latter as `\u00XX`), as `json.dumps` does. -/
def escChar (c : Char) : List Char :=
  if c = '"' then ['\\', '"']
  else if c = '\\' then ['\\', '\\']
  else if c.toNat < 0x20 then
    ['\\', 'u', '0', '0', hexDigitChar (c.toNat / 16), hexDigitChar (c.toNat % 16)]
  else [c]

/-- Serialize a string body (without the surrounding quotes). -/
def renderStrChars (s : List Char) : List Char := (s.map escChar).flatten

/-- Decimal digits of a natural number, most significant first. -/
def natCharsAux : Nat → Nat → List Char → List Char
  | 0, _, acc => acc
  | fuel + 1, n, acc =>
      let acc' := Char.ofNat ('0'.toNat + n % 10) :: acc
      if n < 10 then acc' else natCharsAux fuel (n / 10) acc'

def natChars (n : Nat) : List Char := natCharsAux (n + 1) n []

/-- Decimal rendering of an integer. -/
def intChars (i : Int) : List Char :=
  if i < 0 then '-' :: natChars i.natAbs else natChars i.natAbs

mutual

/-- Compact JSON rendering (separators `,` and `:`, no added whitespace). -/
def render : Json → List Char
  | .null => "null".data
  | .bool true => "true".data
  | .bool false => "false".data
  | .num i => intChars i
  | .str s => '"' :: renderStrChars s.data ++ ['"']
  | .arr [] => ['[', ']']
  | .arr (x :: xs) => '[' :: render x ++ renderArrTail xs ++ [']']
  | .obj [] => ['\x7b', '\x7d']
  | .obj (f :: fs) => '\x7b' :: renderMember f ++ renderObjTail fs ++ ['\x7d']

def renderMember : String × Json → List Char
  | (k, v) => '"' :: renderStrChars k.data ++ ['"', ':'] ++ render v

def renderArrTail : List Json → List Char
  | [] => []
  | x :: xs => ',' :: render x ++ renderArrTail xs

def renderObjTail : List (String × Json) → List Char
  | [] => []
  | f :: fs => ',' :: renderMember f ++ renderObjTail fs

end

/-- JSON whitespace accepted between tokens by `json.loads`. -/
def isWsJson (c : Char) : Bool :=
  decide (c = ' ') || decide (c = '\t') || decide (c = '\n') || decide (c = '\r')

/-- Hex-digit value of a character. -/
def hexVal (c : Char) : Option Nat :=
  if '0' ≤ c ∧ c ≤ '9' then some (c.toNat - '0'.toNat)
  else if 'a' ≤ c ∧ c ≤ 'f' then some (c.toNat - 'a'.toNat + 10)
  else if 'A' ≤ c ∧ c ≤ 'F' then some (c.toNat - 'A'.toNat + 10)
  else none

/-- Parse a JSON string body up to (and consuming) the closing quote.
Raw control characters are rejected, as by `json.loads` in strict mode. -/
def parseStrBody : List Char → Option (List Char × List Char)
  | [] => none
  | c :: rest =>
      if c = '"' then some ([], rest)
      else if c = '\\' then
        match rest with
        | [] => none
        | e :: rest2 =>
            if e = 'u' then
              match rest2 with
              | h1 :: h2 :: h3 :: h4 :: rest3 =>
                  match hexVal h1, hexVal h2, hexVal h3, hexVal h4 with
                  | some v1, some v2, some v3, some v4 =>
                      match parseStrBody rest3 with
                      | some (acc, fin) =>
                          some (Char.ofNat (((v1 * 16 + v2) * 16 + v3) * 16 + v4)
                            :: acc, fin)
                      | none => none
                  | _, _, _, _ => none
              | _ => none
            else
              let decoded : Option Char :=
                if e = '"' then some '"'
                else if e = '\\' then some '\\'
                else if e = '/' then some '/'
                else if e = 'b' then some '\x08'
                else if e = 'f' then some '\x0c'
                else if e = 'n' then some '\n'
                else if e = 'r' then some '\r'
                else if e = 't' then some '\t'
                else none
              match decoded with
              | some d =>
                  match parseStrBody rest2 with
                  | some (acc, fin) => some (d :: acc, fin)
                  | none => none
              | none => none
      else if c.toNat < 0x20 then none
      else
        match parseStrBody rest with
        | some (acc, fin) => some (c :: acc, fin)
        | none => none

/-- Is this a decimal digit? -/
def isDigitChar (c : Char) : Bool := decide ('0' ≤ c) && decide (c ≤ '9')

/-- Longest digit run at the head. -/
def spanDigits : List Char → List Char × List Char
  | [] => ([], [])
  | c :: rest =>
      if isDigitChar c then
        let (ds, r) := spanDigits rest
        (c :: ds, r)
      else ([], c :: rest)

/-- Value of a digit run. -/
def digitsVal (ds : List Char) : Nat :=
  ds.foldl (fun a c => a * 10 + (c.toNat - '0'.toNat)) 0

/-- Parse an integer literal (optional minus, digit run). -/
def parseNumFrom (cs : List Char) : Option (Json × List Char) :=
  if cs.head? = some '-' then
    let (ds, r) := spanDigits cs.tail
    if ds.isEmpty then none else some (.num (-(digitsVal ds : Int)), r)
  else
    let (ds, r) := spanDigits cs
    if ds.isEmpty then none else some (.num (digitsVal ds), r)

mutual

/-- Recursive-descent JSON value parser; the fuel bounds the size of the
parsed value. -/
def parseVal : Nat → List Char → Option (Json × List Char)
  | 0, _ => none
  | fuel + 1, cs0 =>
      let cs := cs0.dropWhile isWsJson
      match cs with
      | [] => none
      | c :: rest =>
          if c = '\x7b' then
            let cs2 := rest.dropWhile isWsJson
            if cs2.head? = some '\x7d' then some (.obj [], cs2.tail)
            else
              match parseMembers fuel cs2 with
              | some (fs, r) => some (.obj fs, r)
              | none => none
          else if c = '[' then
            let cs2 := rest.dropWhile isWsJson
            if cs2.head? = some ']' then some (.arr [], cs2.tail)
            else
              match parseElems fuel cs2 with
              | some (xs, r) => some (.arr xs, r)
              | none => none
          else if c = '"' then
            match parseStrBody rest with
            | some (chars, r) => some (.str (String.mk chars), r)
            | none => none
          else if c = 't' then
            if listStartsWith ['r', 'u', 'e'] rest
            then some (.bool true, rest.drop 3) else none
          else if c = 'f' then
            if listStartsWith ['a', 'l', 's', 'e'] rest
            then some (.bool false, rest.drop 4) else none
          else if c = 'n' then
            if listStartsWith ['u', 'l', 'l'] rest
            then some (.null, rest.drop 3) else none
          else parseNumFrom (c :: rest)

/-- Parse `value (',' value)* ']'` (the content of a non-empty array). -/
def parseElems : Nat → List Char → Option (List Json × List Char)
  | 0, _ => none
  | fuel + 1, cs =>
      match parseVal fuel cs with
      | none => none
      | some (v, r) =>
          let r2 := r.dropWhile isWsJson
          if r2.head? = some ',' then
            match parseElems fuel r2.tail with
            | some (xs, rr) => some (v :: xs, rr)
            | none => none
          else if r2.head? = some ']' then some ([v], r2.tail)
          else none

/-- Parse `string ':' value (',' ...)* '}'` (a non-empty member list). -/
def parseMembers : Nat → List Char → Option (List (String × Json) × List Char)
  | 0, _ => none
  | fuel + 1, cs =>
      if cs.head? = some '"' then
        match parseStrBody cs.tail with
        | none => none
        | some (kchars, r) =>
            let r2 := r.dropWhile isWsJson
            if r2.head? = some ':' then
              match parseVal fuel r2.tail with
              | none => none
              | some (v, r4) =>
                  let r5 := r4.dropWhile isWsJson
                  if r5.head? = some ',' then
                    match parseMembers fuel (r5.tail.dropWhile isWsJson) with
                    | some (fs, rr) => some ((String.mk kchars, v) :: fs, rr)
                    | none => none
                  else if r5.head? = some '\x7d' then
                    some ([(String.mk kchars, v)], r5.tail)
                  else none
            else none
      else none

end

/-- `json.loads`: parse one document and require only whitespace after it. -/
def jsonParse (s : String) : Option Json :=
  let cs := s.data.dropWhile isWsJson
  match parseVal (cs.length + 1) cs with
  | some (v, rest) =>
      if (rest.dropWhile isWsJson).isEmpty then some v else none
  | none => none


end NRail
namespace NRail

def headDigitFree (rest : List Char) : Prop :=
  ∀ c, rest.head? = some c → isDigitChar c = false

theorem charZero_toNat : ('0').toNat = 48 := rfl

theorem char_digit_val (k : Nat) (h : k < 10) :
    (Char.ofNat (48 + k)).toNat = 48 + k := by
  interval_cases k <;> decide

theorem isDigit_digitChar (k : Nat) (h : k < 10) :
    isDigitChar (Char.ofNat (48 + k)) = true := by
  interval_cases k <;> decide

example : parseStrBody ('"' :: ['a']) = some ([], ['a']) := rfl

theorem parseStrBody_quote (rest : List Char) :
    parseStrBody ('"' :: rest) = some ([], rest) := by
  unfold parseStrBody
  rw [if_pos rfl]

end NRail
namespace NRail
theorem hexVal_hexDigitChar (m : Nat) (h : m < 16) :
    hexVal (hexDigitChar m) = some m := by
  interval_cases m <;> decide

theorem char_ofNat_toNat_small (c : Char) (h : c.toNat < 0xD800) :
    Char.ofNat c.toNat = c := by
  unfold Char.ofNat
  rw [dif_pos (by unfold Nat.isValidChar; omega)]
  rfl

theorem parseStrBody_roundtrip : ∀ (s rest : List Char),
    parseStrBody (renderStrChars s ++ '"' :: rest) = some (s, rest) := by
  intro s
  induction s with
  | nil =>
      intro rest
      simp only [renderStrChars, List.map_nil, List.flatten_nil, List.nil_append]
      exact parseStrBody_quote rest
  | cons c cs ih =>
      intro rest
      have hr : renderStrChars (c :: cs) = escChar c ++ renderStrChars cs := by
        simp [renderStrChars]
      rw [hr, List.append_assoc]
      by_cases h1 : c = '"'
      · subst h1
        show parseStrBody ('\\' :: '"' :: (renderStrChars cs ++ '"' :: rest))
          = some ('"' :: cs, rest)
        unfold parseStrBody
        rw [if_neg (by decide : ¬ ('\\' : Char) = '"'), if_pos rfl]
        simp only [if_neg (by decide : ¬ ('"' : Char) = 'u'), ih]
        rfl
      · by_cases h2 : c = '\\'
        · subst h2
          show parseStrBody
              ('\\' :: '\\' :: (renderStrChars cs ++ '"' :: rest))
            = some ('\\' :: cs, rest)
          unfold parseStrBody
          rw [if_neg (by decide : ¬ ('\\' : Char) = '"'), if_pos rfl]
          simp only [if_neg (by decide : ¬ ('\\' : Char) = 'u'), ih]
          rfl
        · by_cases h3 : c.toNat < 0x20
          · have hesc : escChar c = ['\\', 'u', '0', '0',
                hexDigitChar (c.toNat / 16), hexDigitChar (c.toNat % 16)] := by
              simp [escChar, h1, h2, h3]
            rw [hesc]
            show parseStrBody ('\\' :: 'u' :: '0' :: '0' ::
                hexDigitChar (c.toNat / 16) :: hexDigitChar (c.toNat % 16) ::
                (renderStrChars cs ++ '"' :: rest))
              = some (c :: cs, rest)
            unfold parseStrBody
            rw [if_neg (by decide : ¬ ('\\' : Char) = '"'), if_pos rfl]
            have hv1 : hexVal '0' = some 0 := by decide
            have hv2 : hexVal (hexDigitChar (c.toNat / 16))
                = some (c.toNat / 16) := hexVal_hexDigitChar _ (by omega)
            have hv3 : hexVal (hexDigitChar (c.toNat % 16))
                = some (c.toNat % 16) := hexVal_hexDigitChar _ (by omega)
            simp only [if_pos rfl, hv1, hv2, hv3, ih]
            have harith : ((0 * 16 + 0) * 16 + c.toNat / 16) * 16 + c.toNat % 16
                = c.toNat := by omega
            rw [harith, char_ofNat_toNat_small c (by omega)]
            simp
          · have hesc : escChar c = [c] := by
              simp [escChar, h1, h2, h3]
            rw [hesc]
            show parseStrBody (c :: (renderStrChars cs ++ '"' :: rest))
              = some (c :: cs, rest)
            unfold parseStrBody
            rw [if_neg h1, if_neg h2, if_neg h3]
            simp only [ih]
end NRail
namespace NRail

theorem natCharsAux_acc (fuel : Nat) : ∀ (n : Nat) (acc : List Char),
    natCharsAux fuel n acc = natCharsAux fuel n [] ++ acc := by
  induction fuel with
  | zero => intro n acc; simp [natCharsAux]
  | succ fuel ih =>
      intro n acc
      simp only [natCharsAux]
      by_cases h : n < 10
      · simp [h]
      · simp only [if_neg h]
        rw [ih (n / 10) ([Char.ofNat ('0'.toNat + n % 10)] : List Char),
          ih (n / 10) (Char.ofNat ('0'.toNat + n % 10) :: acc)]
        simp [List.append_assoc]

theorem natCharsAux_extra : ∀ (n fuel1 fuel2 : Nat), n < fuel1 → n < fuel2 →
    ∀ acc, natCharsAux fuel1 n acc = natCharsAux fuel2 n acc := by
  intro n
  induction n using Nat.strong_induction_on with
  | _ n ih =>
      intro fuel1 fuel2 h1 h2 acc
      cases fuel1 with
      | zero => omega
      | succ f1 =>
          cases fuel2 with
          | zero => omega
          | succ f2 =>
              simp only [natCharsAux]
              by_cases h : n < 10
              · simp [h]
              · simp only [if_neg h]
                exact ih (n / 10) (by omega) f1 f2 (by omega) (by omega) _

theorem natChars_small (n : Nat) (h : n < 10) :
    natChars n = [Char.ofNat ('0'.toNat + n)] := by
  simp [natChars, natCharsAux, h, Nat.mod_eq_of_lt h]

theorem natChars_step (n : Nat) (h : 10 ≤ n) :
    natChars n = natChars (n / 10) ++ [Char.ofNat ('0'.toNat + n % 10)] := by
  have h1 : natChars n
      = natCharsAux n (n / 10) [Char.ofNat ('0'.toNat + n % 10)] := by
    simp only [natChars, natCharsAux, if_neg (by omega : ¬ n < 10)]
  rw [h1, natCharsAux_acc]
  congr 1
  exact natCharsAux_extra (n / 10) n (n / 10 + 1) (by omega) (by omega) []

theorem digitsVal_append (l : List Char) (c : Char) :
    digitsVal (l ++ [c]) = digitsVal l * 10 + (c.toNat - '0'.toNat) := by
  simp [digitsVal, List.foldl_append]

theorem digitsVal_natChars : ∀ n, digitsVal (natChars n) = n := by
  intro n
  induction n using Nat.strong_induction_on with
  | _ n ih =>
      by_cases h : n < 10
      · rw [natChars_small n h]
        simp only [digitsVal, List.foldl_cons, List.foldl_nil]
        rw [charZero_toNat, char_digit_val n h]
        omega
      · rw [natChars_step n (by omega), digitsVal_append, ih (n / 10) (by omega)]
        rw [charZero_toNat, char_digit_val (n % 10) (by omega)]
        omega

theorem natChars_all_digits : ∀ n, ∀ c ∈ natChars n, isDigitChar c = true := by
  intro n
  induction n using Nat.strong_induction_on with
  | _ n ih =>
      intro c hc
      by_cases h : n < 10
      · rw [natChars_small n h] at hc
        simp only [List.mem_singleton] at hc
        subst hc
        rw [charZero_toNat]
        exact isDigit_digitChar n h
      · rw [natChars_step n (by omega)] at hc
        rcases List.mem_append.mp hc with h2 | h2
        · exact ih (n / 10) (by omega) c h2
        · simp only [List.mem_singleton] at h2
          subst h2
          rw [charZero_toNat]
          exact isDigit_digitChar (n % 10) (by omega)

theorem natChars_ne_nil (n : Nat) : natChars n ≠ [] := by
  by_cases h : n < 10
  · rw [natChars_small n h]; simp
  · rw [natChars_step n (by omega)]; simp

theorem spanDigits_exact (ds rest : List Char)
    (hds : ∀ c ∈ ds, isDigitChar c = true) (hrest : headDigitFree rest) :
    spanDigits (ds ++ rest) = (ds, rest) := by
  induction ds with
  | nil =>
      simp only [List.nil_append]
      cases rest with
      | nil => rfl
      | cons c r =>
          have hcr := hrest c rfl
          simp [spanDigits, hcr]
  | cons c ds ih =>
      have hc := hds c (by simp)
      have hsp : spanDigits (ds.append rest) = (ds, rest) :=
        ih (fun x hx => hds x (List.mem_cons_of_mem _ hx))
      simp only [List.cons_append, spanDigits, hc, if_true, hsp]

theorem digit_ne_minus (c : Char) (h : isDigitChar c = true) : c ≠ '-' := by
  intro he
  subst he
  simp [isDigitChar] at h

theorem parseNumFrom_intChars (i : Int) (rest : List Char)
    (hrest : headDigitFree rest) :
    parseNumFrom (intChars i ++ rest) = some (.num i, rest) := by
  by_cases h : i < 0
  · simp only [intChars, if_pos h, List.cons_append]
    unfold parseNumFrom
    rw [if_pos (by simp)]
    simp only [List.tail_cons]
    have hspan : spanDigits (natChars i.natAbs ++ rest)
        = (natChars i.natAbs, rest) :=
      spanDigits_exact _ _ (fun c hc => natChars_all_digits _ c hc) hrest
    have hne : (natChars i.natAbs).isEmpty = false := by
      cases hna : natChars i.natAbs with
      | nil => exact absurd hna (natChars_ne_nil _)
      | cons a l => rfl
    simp only [hspan, hne, Bool.false_eq_true, if_false, digitsVal_natChars]
    have hval : (-(i.natAbs : Int)) = i := by omega
    rw [hval]
  · rcases hna : natChars i.natAbs with _ | ⟨c, l⟩
    · exact absurd hna (natChars_ne_nil _)
    · have hcd : isDigitChar c = true :=
        natChars_all_digits i.natAbs c (by rw [hna]; simp)
      simp only [intChars, if_neg h, hna, List.cons_append]
      unfold parseNumFrom
      rw [if_neg (by
        simp only [List.head?_cons, Option.some.injEq]
        exact digit_ne_minus c hcd)]
      have hspan : spanDigits (c :: (l ++ rest)) = (c :: l, rest) := by
        have h2 : spanDigits ((c :: l) ++ rest) = (c :: l, rest) := by
          rw [← hna]
          exact spanDigits_exact _ _ (fun x hx => natChars_all_digits _ x hx)
            hrest
        simpa using h2
      simp only [hspan, List.isEmpty_cons, Bool.false_eq_true, if_false]
      have hval : ((digitsVal (c :: l) : Nat) : Int) = i := by
        rw [← hna, digitsVal_natChars]
        omega
      rw [hval]

end NRail
namespace NRail

theorem isDigitChar_toNat (c : Char) :
    isDigitChar c = true ↔ 48 ≤ c.toNat ∧ c.toNat ≤ 57 := by
  simp only [isDigitChar, Bool.and_eq_true, decide_eq_true_eq]
  constructor
  · rintro ⟨h1, h2⟩
    exact ⟨h1, h2⟩
  · rintro ⟨h1, h2⟩
    exact ⟨h1, h2⟩

theorem sizeJ_pos : ∀ j, 1 ≤ sizeJ j := by
  intro j
  cases j <;> simp [sizeJ] <;> omega

theorem sizeArr_pos : ∀ xs, 1 ≤ sizeArr xs := by
  intro xs
  cases xs <;> simp [sizeArr] <;> omega

theorem sizeObj_pos : ∀ fs, 1 ≤ sizeObj fs := by
  intro fs
  cases fs <;> simp [sizeObj] <;> omega

theorem listStartsWith_self_append (p r : List Char) :
    listStartsWith p (p ++ r) = true := by
  induction p with
  | nil => rfl
  | cons c t ih => simp [listStartsWith, ih]

/-- Every rendering is non-empty and begins with a distinctive character. -/
theorem render_head : ∀ j : Json, ∃ c t, render j = c :: t ∧
    (c = 'n' ∨ c = 't' ∨ c = 'f' ∨ c = '"' ∨ c = '[' ∨ c = '\x7b' ∨
     c = '-' ∨ isDigitChar c = true) := by
  intro j
  cases j with
  | null => exact ⟨'n', _, rfl, by tauto⟩
  | bool b =>
      cases b with
      | true => exact ⟨'t', _, rfl, by tauto⟩
      | false => exact ⟨'f', _, rfl, by tauto⟩
  | num n =>
      by_cases h : n < 0
      · refine ⟨'-', natChars n.natAbs, ?_, by tauto⟩
        simp [render, intChars, h]
      · rcases hna : natChars n.natAbs with _ | ⟨c, l⟩
        · exact absurd hna (natChars_ne_nil _)
        · refine ⟨c, l, ?_, ?_⟩
          · simp [render, intChars, h, hna]
          · have := natChars_all_digits n.natAbs c (by rw [hna]; simp)
            tauto
  | str s => exact ⟨'"', _, rfl, by tauto⟩
  | arr xs =>
      cases xs with
      | nil => exact ⟨'[', _, rfl, by tauto⟩
      | cons x xs => exact ⟨'[', _, rfl, by tauto⟩
  | obj fs =>
      cases fs with
      | nil => exact ⟨'\x7b', _, rfl, by tauto⟩
      | cons f fs => exact ⟨'\x7b', _, rfl, by tauto⟩

/-- The head of a rendering is not whitespace and is none of the list/object
closers or separators. -/
theorem render_head_props (c : Char)
    (h : c = 'n' ∨ c = 't' ∨ c = 'f' ∨ c = '"' ∨ c = '[' ∨ c = '\x7b' ∨
     c = '-' ∨ isDigitChar c = true) :
    isWsJson c = false ∧ c ≠ ']' ∧ c ≠ '\x7d' ∧ c ≠ ',' ∧
    isDigitChar c = false ∨
    (isWsJson c = false ∧ c ≠ ']' ∧ c ≠ '\x7d' ∧ c ≠ ',' ∧
     isDigitChar c = true) := by
  rcases h with rfl | rfl | rfl | rfl | rfl | rfl | rfl | hd
  · left; exact ⟨by decide, by decide, by decide, by decide, by decide⟩
  · left; exact ⟨by decide, by decide, by decide, by decide, by decide⟩
  · left; exact ⟨by decide, by decide, by decide, by decide, by decide⟩
  · left; exact ⟨by decide, by decide, by decide, by decide, by decide⟩
  · left; exact ⟨by decide, by decide, by decide, by decide, by decide⟩
  · left; exact ⟨by decide, by decide, by decide, by decide, by decide⟩
  · left; exact ⟨by decide, by decide, by decide, by decide, by decide⟩
  · right
    obtain ⟨h1, h2⟩ := (isDigitChar_toNat c).mp hd
    refine ⟨?_, ?_, ?_, ?_, hd⟩
    · by_contra hws
      simp only [Bool.not_eq_false] at hws
      simp only [isWsJson, Bool.or_eq_true, decide_eq_true_eq] at hws
      rcases hws with ((rfl | rfl) | rfl) | rfl <;> simp_all
    · intro he; subst he; simp_all
    · intro he; subst he; simp_all
    · intro he; subst he; simp_all

theorem render_head_not_ws (j : Json) :
    (render j ++ (r : List Char)).dropWhile isWsJson = render j ++ r := by
  obtain ⟨c, t, hct, hp⟩ := render_head j
  rcases render_head_props c hp with ⟨hws, -⟩ | ⟨hws, -⟩ <;>
    · rw [hct]
      simp [List.dropWhile_cons, hws]

end NRail
namespace NRail

theorem headDigitFree_closer (c : Char) (h : isDigitChar c = false)
    (r : List Char) : headDigitFree (c :: r) := by
  intro x hx
  simp only [List.head?_cons, Option.some.injEq] at hx
  subst hx
  exact h

theorem headDigitFree_tail (xs : List Json) (rest : List Char)
    (h : headDigitFree rest) :
    headDigitFree (renderArrTail xs ++ ']' :: rest) := by
  cases xs with
  | nil => exact headDigitFree_closer _ (by decide) _
  | cons y ys =>
      simp only [renderArrTail, List.cons_append]
      exact headDigitFree_closer _ (by decide) _

theorem headDigitFree_objtail (fs : List (String × Json)) (rest : List Char) :
    headDigitFree (renderObjTail fs ++ '\x7d' :: rest) := by
  cases fs with
  | nil => exact headDigitFree_closer _ (by decide) _
  | cons g gs =>
      simp only [renderObjTail, List.cons_append]
      exact headDigitFree_closer _ (by decide) _


theorem pv_null (fuel : Nat) (rest : List Char) :
    parseVal (fuel+1) ('n' :: 'u' :: 'l' :: 'l' :: rest) = some (.null, rest) := rfl

theorem pv_true (fuel : Nat) (rest : List Char) :
    parseVal (fuel+1) ('t' :: 'r' :: 'u' :: 'e' :: rest) = some (.bool true, rest) := rfl

theorem pv_false (fuel : Nat) (rest : List Char) :
    parseVal (fuel+1) ('f' :: 'a' :: 'l' :: 's' :: 'e' :: rest) = some (.bool false, rest) := rfl

theorem pv_arrnil (fuel : Nat) (rest : List Char) :
    parseVal (fuel+1) ('[' :: ']' :: rest) = some (.arr [], rest) := rfl

theorem pv_objnil (fuel : Nat) (rest : List Char) :
    parseVal (fuel+1) ('\x7b' :: '\x7d' :: rest) = some (.obj [], rest) := rfl

theorem pv_quote (fuel : Nat) (rest : List Char) :
    parseVal (fuel+1) ('"' :: rest) =
      (match parseStrBody rest with
       | some (chars, r) => some (.str (String.mk chars), r)
       | none => none) := rfl

theorem pv_lbracket (fuel : Nat) (rest : List Char) :
    parseVal (fuel+1) ('[' :: rest) =
      (if (rest.dropWhile isWsJson).head? = some ']' then
        some (.arr [], (rest.dropWhile isWsJson).tail)
       else
         match parseElems fuel (rest.dropWhile isWsJson) with
         | some (xs, r) => some (.arr xs, r)
         | none => none) := rfl

theorem pv_lbrace (fuel : Nat) (rest : List Char) :
    parseVal (fuel+1) ('\x7b' :: rest) =
      (if (rest.dropWhile isWsJson).head? = some '\x7d' then
        some (.obj [], (rest.dropWhile isWsJson).tail)
       else
         match parseMembers fuel (rest.dropWhile isWsJson) with
         | some (fs, r) => some (.obj fs, r)
         | none => none) := rfl

theorem pv_other (fuel : Nat) (c : Char) (rest : List Char)
    (h1 : c ≠ '\x7b') (h2 : c ≠ '[') (h3 : c ≠ '"') (h4 : c ≠ 't')
    (h5 : c ≠ 'f') (h6 : c ≠ 'n') (hws : isWsJson c = false) :
    parseVal (fuel+1) (c :: rest) = parseNumFrom (c :: rest) := by
  unfold parseVal
  rw [show (c :: rest).dropWhile isWsJson = c :: rest by
    simp [List.dropWhile_cons, hws]]
  simp only [if_neg h1, if_neg h2, if_neg h3, if_neg h4, if_neg h5, if_neg h6]

theorem digit_not_special (c : Char) (h : isDigitChar c = true) :
    c ≠ '\x7b' ∧ c ≠ '[' ∧ c ≠ '"' ∧ c ≠ 't' ∧ c ≠ 'f' ∧ c ≠ 'n' := by
  obtain ⟨h1, h2⟩ := (isDigitChar_toNat c).mp h
  refine ⟨?_, ?_, ?_, ?_, ?_, ?_⟩ <;>
    · intro he
      subst he
      revert h1 h2
      decide

theorem dropWhile_cons_false (c : Char) (h : isWsJson c = false) (l : List Char) :
    (c :: l).dropWhile isWsJson = c :: l := by
  simp [List.dropWhile_cons, h]

theorem renderMember_head_not_ws (k : String) (v : Json) (r : List Char) :
    (renderMember (k, v) ++ r).dropWhile isWsJson = renderMember (k, v) ++ r := by
  simp [renderMember, List.cons_append, List.dropWhile_cons, isWsJson]

example : render (Json.arr []) = ['[', ']'] := rfl
example : render (Json.arr [Json.null]) = ['[', 'n', 'u', 'l', 'l', ']'] := rfl

mutual

/-- Fuel needed by `parseVal` to parse the rendering of a value. -/
def needV : Json → Nat
  | .null => 1
  | .bool _ => 1
  | .num _ => 1
  | .str _ => 1
  | .arr [] => 1
  | .arr (x :: xs) => needE (x :: xs) + 1
  | .obj [] => 1
  | .obj (f :: fs) => needM (f :: fs) + 1

/-- Fuel needed by `parseElems` on a rendered element list. -/
def needE : List Json → Nat
  | [] => 1
  | x :: xs => max (needV x) (needE xs) + 1

/-- Fuel needed by `parseMembers` on a rendered member list. -/
def needM : List (String × Json) → Nat
  | [] => 1
  | f :: fs => max (needV f.2) (needM fs) + 1

end

theorem needV_pos : ∀ j, 1 ≤ needV j := by
  intro j
  cases j with
  | arr xs => cases xs <;> simp [needV]
  | obj fs => cases fs <;> simp [needV]
  | _ => simp [needV]

theorem needE_pos : ∀ xs, 1 ≤ needE xs := by
  intro xs
  cases xs <;> simp [needE]

theorem needM_pos : ∀ fs, 1 ≤ needM fs := by
  intro fs
  cases fs <;> simp [needM]

theorem headDigitFree_nil : headDigitFree [] := by
  intro c hc
  simp at hc

theorem parse_render_all : ∀ fuel : Nat,
    (∀ (j : Json) (rest : List Char), needV j ≤ fuel → headDigitFree rest →
      parseVal fuel (render j ++ rest) = some (j, rest)) ∧
    (∀ (x : Json) (xs : List Json) (rest : List Char),
      needE (x :: xs) ≤ fuel → headDigitFree rest →
      parseElems fuel (render x ++ (renderArrTail xs ++ ']' :: rest))
        = some (x :: xs, rest)) ∧
    (∀ (k : String) (v : Json) (fs : List (String × Json)) (rest : List Char),
      needM ((k, v) :: fs) ≤ fuel → headDigitFree rest →
      parseMembers fuel
          (renderMember (k, v) ++ (renderObjTail fs ++ '\x7d' :: rest))
        = some ((k, v) :: fs, rest)) := by
  intro fuel
  induction fuel with
  | zero =>
      refine ⟨?_, ?_, ?_⟩
      · intro j rest hsz _
        have := needV_pos j
        omega
      · intro x xs rest hsz _
        have := needE_pos (x :: xs)
        omega
      · intro k v fs rest hsz _
        have := needM_pos ((k, v) :: fs)
        omega
  | succ fuel ih =>
      obtain ⟨ihV, ihE, ihM⟩ := ih
      refine ⟨?_, ?_, ?_⟩
      · intro j rest hsz hrest
        cases j with
        | null =>
            simp only [render, List.cons_append]
            exact pv_null fuel rest
        | bool b =>
            cases b with
            | true =>
                simp only [render, List.cons_append]
                exact pv_true fuel rest
            | false =>
                simp only [render, List.cons_append]
                exact pv_false fuel rest
        | str s =>
            simp only [render, List.cons_append, List.append_assoc,
              List.singleton_append, List.nil_append]
            rw [pv_quote, parseStrBody_roundtrip]
        | num n =>
            have hren : render (Json.num n) = intChars n := rfl
            by_cases hneg : n < 0
            · have hI : intChars n = '-' :: natChars n.natAbs := by
                simp only [intChars, if_pos hneg]
              rw [hren, hI, List.cons_append,
                pv_other fuel '-' _ (by decide) (by decide) (by decide)
                  (by decide) (by decide) (by decide) (by decide),
                ← List.cons_append, ← hI]
              exact parseNumFrom_intChars n rest hrest
            · have hI : intChars n = natChars n.natAbs := by
                simp only [intChars, if_neg hneg]
              rcases hna : natChars n.natAbs with _ | ⟨c, l⟩
              · exact absurd hna (natChars_ne_nil _)
              · have hcd : isDigitChar c = true :=
                  natChars_all_digits n.natAbs c (by rw [hna]; simp)
                obtain ⟨g1, g2, g3, g4, g5, g6⟩ := digit_not_special c hcd
                have hws : isWsJson c = false := by
                  rcases render_head_props c (by tauto) with ⟨hw, -⟩ | ⟨hw, -⟩ <;>
                    exact hw
                rw [hren, hI, hna, List.cons_append,
                  pv_other fuel c _ g1 g2 g3 g4 g5 g6 hws,
                  ← List.cons_append, ← hna, ← hI]
                exact parseNumFrom_intChars n rest hrest
        | arr xs =>
            cases xs with
            | nil =>
                simp only [render, List.cons_append, List.singleton_append]
                exact pv_arrnil fuel rest
            | cons x xs =>
                have hsz' : needE (x :: xs) ≤ fuel := by
                  simp only [needV] at hsz
                  omega
                obtain ⟨c, t, hct, hp⟩ := render_head x
                have hc : c ≠ ']' := by
                  rcases render_head_props c hp with ⟨-, h, -⟩ | ⟨-, h, -⟩ <;>
                    exact h
                simp only [render, List.cons_append, List.append_assoc,
                  List.singleton_append, List.nil_append]
                rw [pv_lbracket, render_head_not_ws x]
                rw [if_neg (by
                  rw [hct, List.cons_append]
                  simp [hc])]
                rw [ihE x xs rest hsz' hrest]
        | obj fs =>
            cases fs with
            | nil =>
                simp only [render, List.cons_append, List.singleton_append]
                exact pv_objnil fuel rest
            | cons f fs =>
                obtain ⟨k, v⟩ := f
                have hsz' : needM ((k, v) :: fs) ≤ fuel := by
                  simp only [needV] at hsz
                  omega
                simp only [render, List.cons_append, List.append_assoc,
                  List.singleton_append, List.nil_append]
                rw [pv_lbrace, renderMember_head_not_ws]
                rw [if_neg (by simp [renderMember])]
                rw [ihM k v fs rest hsz' hrest]
      · intro x xs rest hsz hrest
        have hszx : needV x ≤ fuel := by
          have h1 : needE (x :: xs) = max (needV x) (needE xs) + 1 := rfl
          omega
        cases xs with
        | nil =>
            simp only [renderArrTail, List.nil_append]
            have hv := ihV x (']' :: rest) hszx
              (headDigitFree_closer ']' (by decide) rest)
            unfold parseElems
            simp only [hv]
            rfl
        | cons y ys =>
            have hsz' : needE (y :: ys) ≤ fuel := by
              have h1 : needE (x :: y :: ys)
                  = max (needV x) (needE (y :: ys)) + 1 := rfl
              omega
            simp only [renderArrTail, List.cons_append, List.append_assoc]
            have hv := ihV x
              (',' :: (render y ++ (renderArrTail ys ++ ']' :: rest))) hszx
              (headDigitFree_closer ',' (by decide) _)
            unfold parseElems
            simp only [hv, dropWhile_cons_false ',' (by decide),
              List.head?_cons, List.tail_cons]
            rw [if_pos trivial, ihE y ys rest hsz' hrest]
      · intro k v fs rest hsz hrest
        have hszv : needV v ≤ fuel := by
          have h1 : needM ((k, v) :: fs)
              = max (needV v) (needM fs) + 1 := rfl
          omega
        have hv := ihV v (renderObjTail fs ++ '\x7d' :: rest) hszv
          (headDigitFree_objtail fs rest)
        unfold parseMembers
        simp only [renderMember, List.cons_append, List.append_assoc,
          List.nil_append, List.head?_cons, List.tail_cons]
        rw [if_pos trivial]
        rw [show renderStrChars k.data ++ '"' :: ':'
              :: (render v ++ (renderObjTail fs ++ '\x7d' :: rest))
            = renderStrChars k.data ++ '"' :: (':'
              :: (render v ++ (renderObjTail fs ++ '\x7d' :: rest))) from rfl]
        rw [parseStrBody_roundtrip]
        simp only [dropWhile_cons_false ':' (by decide), List.head?_cons,
          List.tail_cons]
        rw [if_pos trivial]
        simp only [hv]
        cases fs with
        | nil =>
            simp only [renderObjTail, List.nil_append,
              dropWhile_cons_false '\x7d' (by decide), List.head?_cons,
              List.tail_cons]
            rw [if_neg (by decide), if_pos trivial]
        | cons g gs =>
            obtain ⟨gk, gv⟩ := g
            have hsz' : needM ((gk, gv) :: gs) ≤ fuel := by
              have h1 : needM ((k, v) :: (gk, gv) :: gs)
                  = max (needV v) (needM ((gk, gv) :: gs)) + 1 := rfl
              omega
            have hM := ihM gk gv gs rest hsz' hrest
            simp only [renderObjTail, List.cons_append, List.append_assoc,
              dropWhile_cons_false ',' (by decide), List.head?_cons,
              List.tail_cons]
            rw [if_pos trivial]
            rw [show ((renderMember (gk, gv)
                  ++ (renderObjTail gs ++ '\x7d' :: rest)).dropWhile isWsJson)
                = renderMember (gk, gv) ++ (renderObjTail gs ++ '\x7d' :: rest)
              from renderMember_head_not_ws gk gv _]
            rw [hM]

theorem render_len_pos (j : Json) : 1 ≤ (render j).length := by
  obtain ⟨c, t, hct, -⟩ := render_head j
  rw [hct]
  simp

theorem need_le_len_all : ∀ n : Nat,
    (∀ j, sizeJ j ≤ n → needV j ≤ (render j).length) ∧
    (∀ (x : Json) (xs : List Json), sizeJ x + sizeArr xs ≤ n →
      needE (x :: xs)
        ≤ (render x).length + (renderArrTail xs).length + 1) ∧
    (∀ (k : String) (v : Json) (fs : List (String × Json)),
      sizeJ v + sizeObj fs ≤ n →
      needM ((k, v) :: fs)
        ≤ (renderMember (k, v)).length + (renderObjTail fs).length + 1) := by
  intro n
  induction n with
  | zero =>
      refine ⟨?_, ?_, ?_⟩
      · intro j h
        have := sizeJ_pos j
        omega
      · intro x xs h
        have := sizeJ_pos x
        have := sizeArr_pos xs
        omega
      · intro k v fs h
        have := sizeJ_pos v
        have := sizeObj_pos fs
        omega
  | succ n ih =>
      obtain ⟨ihA, ihB, ihC⟩ := ih
      refine ⟨?_, ?_, ?_⟩
      · intro j hsz
        cases j with
        | null => simp [needV, render]
        | bool b => cases b <;> simp [needV, render]
        | num n =>
            have h1 : needV (Json.num n) = 1 := rfl
            have := render_len_pos (Json.num n)
            omega
        | str s =>
            have h1 : needV (Json.str s) = 1 := rfl
            have := render_len_pos (Json.str s)
            omega
        | arr xs =>
            cases xs with
            | nil => simp [needV, render]
            | cons x xs =>
                have hn : needV (Json.arr (x :: xs)) = needE (x :: xs) + 1 := rfl
                have hsz' : sizeJ x + sizeArr xs ≤ n := by
                  have h2 : sizeJ (Json.arr (x :: xs))
                      = sizeJ x + sizeArr xs + 3 := rfl
                  omega
                have hb := ihB x xs hsz'
                have hl : (render (Json.arr (x :: xs))).length
                    = (render x).length + (renderArrTail xs).length + 2 := by
                  simp [render]
                  omega
                omega
        | obj fs =>
            cases fs with
            | nil => simp [needV, render]
            | cons f fs =>
                obtain ⟨k, v⟩ := f
                have hn : needV (Json.obj ((k, v) :: fs))
                    = needM ((k, v) :: fs) + 1 := rfl
                have hsz' : sizeJ v + sizeObj fs ≤ n := by
                  have h2 : sizeJ (Json.obj ((k, v) :: fs))
                      = sizeJ v + sizeObj fs + 3 := rfl
                  omega
                have hc := ihC k v fs hsz'
                have hl : (render (Json.obj ((k, v) :: fs))).length
                    = (renderMember (k, v)).length
                      + (renderObjTail fs).length + 2 := by
                  simp [render]
                  omega
                omega
      · intro x xs hsz
        have hszx : sizeJ x ≤ n := by
          have := sizeArr_pos xs
          omega
        have ha := ihA x hszx
        have hxp := render_len_pos x
        cases xs with
        | nil =>
            have hn : needE [x] = max (needV x) 1 + 1 := rfl
            have hl : (renderArrTail ([] : List Json)).length = 0 := rfl
            omega
        | cons y ys =>
            have hn : needE (x :: y :: ys)
                = max (needV x) (needE (y :: ys)) + 1 := rfl
            have hsz' : sizeJ y + sizeArr ys ≤ n := by
              have h2 : sizeArr (y :: ys) = sizeJ y + sizeArr ys + 1 := rfl
              have := sizeJ_pos x
              omega
            have hb := ihB y ys hsz'
            have hl : (renderArrTail (y :: ys)).length
                = (render y).length + (renderArrTail ys).length + 1 := by
              simp [renderArrTail]
              try omega
            omega
      · intro k v fs hsz
        have hszv : sizeJ v ≤ n := by
          have := sizeObj_pos fs
          omega
        have ha := ihA v hszv
        have hvp := render_len_pos v
        have hm : (renderMember (k, v)).length
            = (renderStrChars k.data).length + (render v).length + 3 := by
          simp [renderMember]
          omega
        cases fs with
        | nil =>
            have hn : needM [(k, v)] = max (needV v) 1 + 1 := rfl
            have hl : (renderObjTail ([] : List (String × Json))).length = 0 := rfl
            omega
        | cons g gs =>
            obtain ⟨gk, gv⟩ := g
            have hn : needM ((k, v) :: (gk, gv) :: gs)
                = max (needV v) (needM ((gk, gv) :: gs)) + 1 := rfl
            have hsz' : sizeJ gv + sizeObj gs ≤ n := by
              have h2 : sizeObj ((gk, gv) :: gs)
                  = sizeJ gv + sizeObj gs + 1 := rfl
              have := sizeJ_pos v
              omega
            have hc := ihC gk gv gs hsz'
            have hl : (renderObjTail ((gk, gv) :: gs)).length
                = (renderMember (gk, gv)).length
                  + (renderObjTail gs).length + 1 := by
              simp [renderObjTail]
              try omega
            omega

theorem need_le_len (j : Json) : needV j ≤ (render j).length :=
  (need_le_len_all (sizeJ j)).1 j (Nat.le_refl _)

theorem render_dropWs (j : Json) :
    (render j).dropWhile isWsJson = render j := by
  obtain ⟨c, t, hct, hp⟩ := render_head j
  have hws : isWsJson c = false := by
    rcases render_head_props c hp with ⟨hw, -⟩ | ⟨hw, -⟩ <;> exact hw
  rw [hct]
  exact dropWhile_cons_false c hws t

/-- `json.loads` inverts the compact rendering. -/
theorem jsonParse_render (j : Json) :
    jsonParse (String.mk (render j)) = some j := by
  have hpv := (parse_render_all ((render j).length + 1)).1 j []
    (by have := need_le_len j; omega) headDigitFree_nil
  rw [List.append_nil] at hpv
  unfold jsonParse
  simp only [render_dropWs, hpv]
  rfl


/-! ## SMART reference data (`smart_data.py`)

`_parse_smart_data` decodes the downloaded SMART payload: a successful
`json.loads` of the whole content is inspected (list / `BERTHDATA` wrapper /
single object), and only a decode failure (or a non-list, non-dict document)
falls through to the newline-delimited phase. -/

/-- Python `s.split('\n')`: split on every newline, keeping empty segments. -/
def splitNlAux (l : List Char) (cur : List Char) : List String :=
  match l with
  | [] => [String.mk cur.reverse]
  | c :: cs =>
      if c = '\n' then String.mk cur.reverse :: splitNlAux cs []
      else splitNlAux cs (c :: cur)

def splitNl (s : String) : List String := splitNlAux s.data []

/-- The newline-delimited phase of `_parse_smart_data`: blank lines are
skipped, every remaining line must decode (`return False` on the first
`json.JSONDecodeError`), and only dict lines are collected. -/
def ndjsonFold (lines : List String) (acc : List Json) : Option (List Json) :=
  match lines with
  | [] => some acc
  | l :: ls =>
      let l2 := pyStrip l
      if l2.data.isEmpty then ndjsonFold ls acc
      else
        match jsonParse l2 with
        | none => none
        | some (.obj fs) => ndjsonFold ls (acc ++ [Json.obj fs])
        | some _ => ndjsonFold ls acc

/-- The newline-delimited attempt succeeds only when it collected at least
one object record. -/
def ndjsonPhase (content : String) : Option (List Json) :=
  match ndjsonFold (splitNl (pyStrip content)) [] with
  | none => none
  | some acc => if acc.isEmpty then none else some acc

/-- `SmartDataManager._parse_smart_data` (`some records` = `return True` with
`self._data = records`, `none` = `return False`).  A JSON list is accepted
even when empty; a dict with an empty `BERTHDATA` list aborts immediately;
any other dict is wrapped as a single record; only a decode failure or a
non-list/non-dict document reaches the newline-delimited phase. -/
def parseSmartData (content : String) : Option (List Json) :=
  match jsonParse content with
  | some (.arr xs) => some xs
  | some (.obj fs) =>
      match jLookup fs "BERTHDATA" with
      | some (.arr bs) => if bs.isEmpty then none else some bs
      | _ => some [Json.obj fs]
  | some _ => ndjsonPhase content
  | none => ndjsonPhase content

/-- One entry of a `"from"`/`"to"` connection list in the SMART graph. -/
structure Conn where
  berth : String
  td_area : String
  line : String
  steptype : String
  deriving DecidableEq

/-- The `{"from": [...], "to": [...]}` record held per berth key. -/
structure ConnPair where
  fromC : List Conn
  toC : List Conn
  deriving DecidableEq

/-- One entry of a `stanox_to_berths` list. -/
structure BerthInfo where
  td_area : String
  from_berth : String
  to_berth : String
  stanme : String
  platform : String
  event : String
  steptype : String
  deriving DecidableEq

/-- The graph structure built by `SmartDataManager._build_graph`. -/
structure Graph where
  berth_to_connections : List (String × ConnPair)
  stanox_to_berths : List (String × List BerthInfo)
  berth_to_stanox : List (String × String)
  deriving DecidableEq

def emptyGraph : Graph := ⟨[], [], []⟩

def connInit : ConnPair := ⟨[], []⟩

/-- `record.get(k, "").strip()`: `none` models the `AttributeError` raised
when the stored value is not a string. -/
def jStrField (fs : List (String × Json)) (k : String) : Option String :=
  match jLookup fs k with
  | none => some ""
  | some (.str s) => some (pyStrip s)
  | some _ => none

/-- The pure part of one `_build_graph` loop iteration, applied once all ten
fields have been read and stripped. -/
def applyGraphRecord (g : Graph) (td_area from_berth to_berth stanox stanme
    steptype event platform from_line to_line : String) : Graph :=
  let g1 :=
    if td_area ≠ "" ∧ from_berth ≠ "" ∧ to_berth ≠ "" then
      let from_key := td_area ++ ":" ++ from_berth
      let to_key := td_area ++ ":" ++ to_berth
      let conns := g.berth_to_connections
      let conns :=
        match alGet conns from_key with
        | none => alSet conns from_key connInit
        | some _ => conns
      let cpF := (alGet conns from_key).getD connInit
      let conns := alSet conns from_key
        { cpF with toC := cpF.toC ++ [⟨to_berth, td_area, to_line, steptype⟩] }
      let conns :=
        match alGet conns to_key with
        | none => alSet conns to_key connInit
        | some _ => conns
      let cpT := (alGet conns to_key).getD connInit
      let conns := alSet conns to_key
        { cpT with fromC := cpT.fromC ++ [⟨from_berth, td_area, from_line, steptype⟩] }
      { g with berth_to_connections := conns }
    else g
  if stanox ≠ "" then
    let s2b := g1.stanox_to_berths
    let s2b :=
      match alGet s2b stanox with
      | none => alSet s2b stanox []
      | some _ => s2b
    let lst := (alGet s2b stanox).getD []
    let binfo : BerthInfo :=
      ⟨td_area, from_berth, to_berth, stanme, platform, event, steptype⟩
    let s2b := alSet s2b stanox (lst ++ [binfo])
    let b2s := g1.berth_to_stanox
    let b2s :=
      if from_berth ≠ "" ∧ td_area ≠ "" then
        alSet b2s (td_area ++ ":" ++ from_berth) stanox
      else b2s
    let b2s :=
      if to_berth ≠ "" ∧ td_area ≠ "" then
        alSet b2s (td_area ++ ":" ++ to_berth) stanox
      else b2s
    { g1 with
        stanox_to_berths := s2b
        berth_to_stanox := b2s }
  else g1

/-- One `_build_graph` loop iteration: reads the ten fields of the record in
source order (`none` models the `AttributeError` on a non-dict record or a
non-string field value). -/
def buildGraphRecord (g : Graph) (r : Json) : Option Graph :=
  match r with
  | .obj fs =>
      (jStrField fs "TD").bind fun td_area =>
      (jStrField fs "FROMBERTH").bind fun from_berth =>
      (jStrField fs "TOBERTH").bind fun to_berth =>
      (jStrField fs "STANOX").bind fun stanox =>
      (jStrField fs "STANME").bind fun stanme =>
      (jStrField fs "STEPTYPE").bind fun steptype =>
      (jStrField fs "EVENT").bind fun event =>
      (jStrField fs "PLATFORM").bind fun platform =>
      (jStrField fs "FROMLINE").bind fun from_line =>
      (jStrField fs "TOLINE").bind fun to_line =>
      some (applyGraphRecord g td_area from_berth to_berth stanox stanme
        steptype event platform from_line to_line)
  | _ => none

def buildGraphFold (rcs : List Json) (g : Graph) : Option Graph :=
  match rcs with
  | [] => some g
  | r :: rs =>
      match buildGraphRecord g r with
      | none => none
      | some g2 => buildGraphFold rs g2

/-- `SmartDataManager._build_graph` over a parsed record list. -/
def buildGraph (rs : List Json) : Option Graph :=
  buildGraphFold rs emptyGraph


/-! ## C6: the four parse attempts of the specification -/

/-- Specification reading, attempt 1: a JSON array yielding at least one
record. -/
def specAttemptArray (content : String) : Option (List Json) :=
  match jsonParse content with
  | some (.arr xs) => if xs.isEmpty then none else some xs
  | _ => none

/-- Specification reading, attempt 2: a JSON object with a `BERTHDATA` array
field yielding at least one record. -/
def specAttemptWrapper (content : String) : Option (List Json) :=
  match jsonParse content with
  | some (.obj fs) =>
      match jLookup fs "BERTHDATA" with
      | some (.arr bs) => if bs.isEmpty then none else some bs
      | _ => none
  | _ => none

/-- Specification reading, attempt 3: a single JSON object as one record. -/
def specAttemptSingle (content : String) : Option (List Json) :=
  match jsonParse content with
  | some (.obj fs) => some [Json.obj fs]
  | _ => none

/-- The specification's parse: the four attempts in their fixed order, first
success (at least one record) winning; failure only if all four fail. -/
def specFourAttempts (content : String) : Option (List Json) :=
  match specAttemptArray content with
  | some r => some r
  | none =>
      match specAttemptWrapper content with
      | some r => some r
      | none =>
          match specAttemptSingle content with
          | some r => some r
          | none => ndjsonPhase content

/-- C6, counterexample.  On `"[]"` the code succeeds with zero records while
none of the specification's four attempts yields a record, and on
`{"BERTHDATA":[]}` the code fails although the specification's third attempt
(single JSON object) yields one record — both directions of the claimed
"fails iff no attempt yields at least one record" equivalence are violated. -/
theorem C6_counterexample :
    parseSmartData "[]" = some [] ∧
    specFourAttempts "[]" = none ∧
    parseSmartData "\x7b\"BERTHDATA\":[]\x7d" = none ∧
    specFourAttempts "\x7b\"BERTHDATA\":[]\x7d"
      = some [Json.obj [("BERTHDATA", Json.arr [])]] :=
  ⟨rfl, rfl, rfl, rfl⟩

/-- C6 (amended): actual behaviour of `_parse_smart_data` on a decodable
JSON document: an array is accepted even when empty; a dict with a non-empty
`BERTHDATA` list yields that list; a dict with an empty `BERTHDATA` list
fails outright (no fallback to the single-object or newline-delimited
attempts); any other dict is wrapped as a single record. -/
theorem C6_parse_order_and_failure :
    (∀ xs : List Json,
      parseSmartData (String.mk (render (Json.arr xs))) = some xs) ∧
    (∀ (fs : List (String × Json)) (bs : List Json),
      jLookup fs "BERTHDATA" = some (Json.arr bs) → bs ≠ [] →
      parseSmartData (String.mk (render (Json.obj fs))) = some bs) ∧
    (∀ fs : List (String × Json),
      jLookup fs "BERTHDATA" = some (Json.arr []) →
      parseSmartData (String.mk (render (Json.obj fs))) = none) ∧
    (∀ fs : List (String × Json),
      (∀ bs, jLookup fs "BERTHDATA" ≠ some (Json.arr bs)) →
      parseSmartData (String.mk (render (Json.obj fs))) = some [Json.obj fs]) := by
  refine ⟨?_, ?_, ?_, ?_⟩
  · intro xs
    simp only [parseSmartData, jsonParse_render]
  · intro fs bs h hne
    simp only [parseSmartData, jsonParse_render, h]
    cases bs with
    | nil => exact absurd rfl hne
    | cons b bs => rfl
  · intro fs h
    simp only [parseSmartData, jsonParse_render, h]
    rfl
  · intro fs h
    simp only [parseSmartData, jsonParse_render]

/-- Witness for C6: the four amended statements at concrete inputs. -/
theorem C6_parse_order_witness :
    parseSmartData (String.mk (render (Json.arr [Json.null])))
      = some [Json.null] ∧
    parseSmartData
        (String.mk (render (Json.obj [("BERTHDATA", Json.arr [Json.null])])))
      = some [Json.null] ∧
    parseSmartData (String.mk (render (Json.obj [("BERTHDATA", Json.arr [])])))
      = none ∧
    parseSmartData (String.mk (render (Json.obj [("A", Json.null)])))
      = some [Json.obj [("A", Json.null)]] :=
  ⟨C6_parse_order_and_failure.1 [Json.null],
   C6_parse_order_and_failure.2.1 [("BERTHDATA", Json.arr [Json.null])]
     [Json.null] rfl (by simp),
   C6_parse_order_and_failure.2.2.1 [("BERTHDATA", Json.arr [])] rfl,
   C6_parse_order_and_failure.2.2.2 [("A", Json.null)]
     (fun bs h => Option.noConfusion h)⟩


/-! ## C8 rendering pipelines -/

/-- Join rendered lines with newlines (the NDJSON rendering of a record
list). -/
def ndJoin : List (List Char) → List Char
  | [] => []
  | [l] => l
  | l :: ls => l ++ '\n' :: ndJoin ls

def arrRender (rs : List Json) : String := String.mk (render (Json.arr rs))

def wrapRender (rs : List Json) : String :=
  String.mk (render (Json.obj [("BERTHDATA", Json.arr rs)]))

def ndRender (rs : List Json) : String := String.mk (ndJoin (rs.map render))

theorem hexDigitChar_no_nl (m : Nat) (h : m < 16) : hexDigitChar m ≠ '\n' := by
  interval_cases m <;> decide

theorem escChar_no_nl (c : Char) : '\n' ∉ escChar c := by
  unfold escChar
  by_cases h1 : c = '"'
  · simp [h1]
  · rw [if_neg h1]
    by_cases h2 : c = '\\'
    · simp [h2]
    · rw [if_neg h2]
      by_cases h3 : c.toNat < 0x20
      · rw [if_pos h3]
        have hd1 : hexDigitChar (c.toNat / 16) ≠ '\n' :=
          hexDigitChar_no_nl _ (by omega)
        have hd2 : hexDigitChar (c.toNat % 16) ≠ '\n' :=
          hexDigitChar_no_nl _ (by omega)
        intro hm
        simp only [List.mem_cons, List.not_mem_nil, or_false] at hm
        rcases hm with h | h | h | h | h | h
        · exact absurd h (by decide)
        · exact absurd h (by decide)
        · exact absurd h (by decide)
        · exact absurd h (by decide)
        · exact hd1 h.symm
        · exact hd2 h.symm
      · rw [if_neg h3]
        intro hm
        simp only [List.mem_cons, List.not_mem_nil, or_false] at hm
        subst hm
        exact h3 (by decide)

theorem renderStrChars_no_nl (s : List Char) : '\n' ∉ renderStrChars s := by
  intro hm
  simp only [renderStrChars, List.mem_flatten, List.mem_map] at hm
  obtain ⟨l, ⟨c, -, rfl⟩, hml⟩ := hm
  exact escChar_no_nl c hml

theorem intChars_chars (i : Int) :
    ∀ c ∈ intChars i, c = '-' ∨ isDigitChar c = true := by
  intro c hc
  unfold intChars at hc
  by_cases h : i < 0
  · rw [if_pos h] at hc
    rcases List.mem_cons.mp hc with rfl | hc2
    · left; rfl
    · right; exact natChars_all_digits _ _ hc2
  · rw [if_neg h] at hc
    right; exact natChars_all_digits _ _ hc

theorem intChars_no_nl (i : Int) : '\n' ∉ intChars i := by
  intro hm
  rcases intChars_chars i _ hm with h | h
  · exact absurd h (by decide)
  · exact absurd h (by decide)

theorem render_no_nl_all : ∀ n : Nat,
    (∀ j, sizeJ j ≤ n → '\n' ∉ render j) ∧
    (∀ xs, sizeArr xs ≤ n → '\n' ∉ renderArrTail xs) ∧
    (∀ fs, sizeObj fs ≤ n → '\n' ∉ renderObjTail fs) := by
  intro n
  induction n with
  | zero =>
      refine ⟨?_, ?_, ?_⟩
      · intro j h; have := sizeJ_pos j; omega
      · intro xs h; have := sizeArr_pos xs; omega
      · intro fs h; have := sizeObj_pos fs; omega
  | succ n ih =>
      obtain ⟨ihA, ihB, ihC⟩ := ih
      refine ⟨?_, ?_, ?_⟩
      · intro j hsz
        cases j with
        | null => decide
        | bool b => cases b <;> decide
        | num m => exact intChars_no_nl m
        | str s =>
            simp [render, renderStrChars_no_nl s.data]
        | arr xs =>
            cases xs with
            | nil => decide
            | cons x xs =>
                have h1 : sizeJ x ≤ n := by
                  have h2 : sizeJ (Json.arr (x :: xs))
                      = sizeJ x + sizeArr xs + 3 := rfl
                  have := sizeArr_pos xs
                  omega
                have h2 : sizeArr xs ≤ n := by
                  have h2 : sizeJ (Json.arr (x :: xs))
                      = sizeJ x + sizeArr xs + 3 := rfl
                  have := sizeJ_pos x
                  omega
                simp [render, ihA x h1, ihB xs h2]
        | obj fs =>
            cases fs with
            | nil => decide
            | cons f fs =>
                obtain ⟨k, v⟩ := f
                have h1 : sizeJ v ≤ n := by
                  have h2 : sizeJ (Json.obj ((k, v) :: fs))
                      = sizeJ v + sizeObj fs + 3 := rfl
                  have := sizeObj_pos fs
                  omega
                have h2 : sizeObj fs ≤ n := by
                  have h2 : sizeJ (Json.obj ((k, v) :: fs))
                      = sizeJ v + sizeObj fs + 3 := rfl
                  have := sizeJ_pos v
                  omega
                simp [render, renderMember, renderStrChars_no_nl k.data,
                  ihA v h1, ihC fs h2]
      · intro xs hsz
        cases xs with
        | nil => decide
        | cons x xs =>
            have h0 : sizeArr (x :: xs) = sizeJ x + sizeArr xs + 1 := rfl
            have h1 : sizeJ x ≤ n := by have := sizeArr_pos xs; omega
            have h2 : sizeArr xs ≤ n := by have := sizeJ_pos x; omega
            simp [renderArrTail, ihA x h1, ihB xs h2]
      · intro fs hsz
        cases fs with
        | nil => decide
        | cons f fs =>
            obtain ⟨k, v⟩ := f
            have h0 : sizeObj ((k, v) :: fs) = sizeJ v + sizeObj fs + 1 := rfl
            have h1 : sizeJ v ≤ n := by have := sizeObj_pos fs; omega
            have h2 : sizeObj fs ≤ n := by have := sizeJ_pos v; omega
            simp [renderObjTail, renderMember, renderStrChars_no_nl k.data,
              ihA v h1, ihC fs h2]

theorem render_no_nl (j : Json) : '\n' ∉ render j :=
  (render_no_nl_all (sizeJ j)).1 j (Nat.le_refl _)


theorem mem_of_getLast {α : Type} (l : List α) (a : α) (h : l.getLast? = some a) :
    a ∈ l := by
  induction l with
  | nil => simp at h
  | cons b t ih =>
      cases t with
      | nil =>
          simp at h
          simp [h]
      | cons c u =>
          rw [List.getLast?_cons_cons] at h
          exact List.mem_cons_of_mem _ (ih h)

theorem getLast_concat {α : Type} (l : List α) (a : α) :
    (l ++ [a]).getLast? = some a := by
  rw [List.getLast?_append]
  rfl

theorem render_head_not_pyws (j : Json) (c : Char)
    (h : (render j).head? = some c) : isPyWs c = false := by
  obtain ⟨c2, t, hct, hp⟩ := render_head j
  rw [hct] at h
  simp only [List.head?_cons, Option.some.injEq] at h
  subst h
  rcases hp with rfl | rfl | rfl | rfl | rfl | rfl | rfl | hd
  · decide
  · decide
  · decide
  · decide
  · decide
  · decide
  · decide
  · obtain ⟨h1, h2⟩ := (isDigitChar_toNat c2).mp hd
    by_contra hws
    simp only [Bool.not_eq_false] at hws
    simp only [isPyWs, Bool.or_eq_true, decide_eq_true_eq] at hws
    rcases hws with ((((rfl | rfl) | rfl) | rfl) | rfl) | rfl <;> simp_all

theorem render_last_not_pyws (j : Json) (c : Char)
    (h : (render j).getLast? = some c) : isPyWs c = false := by
  cases j with
  | null =>
      rw [show (render Json.null).getLast? = some 'l' from rfl] at h
      simp at h
      subst h
      decide
  | bool b =>
      cases b with
      | true =>
          rw [show (render (Json.bool true)).getLast? = some 'e' from rfl] at h
          simp at h
          subst h
          decide
      | false =>
          rw [show (render (Json.bool false)).getLast? = some 'e' from rfl] at h
          simp at h
          subst h
          decide
  | num n =>
      have hm : c ∈ intChars n := mem_of_getLast _ _ h
      rcases intChars_chars n c hm with rfl | hd
      · decide
      · obtain ⟨h1, h2⟩ := (isDigitChar_toNat c).mp hd
        by_contra hws
        simp only [Bool.not_eq_false] at hws
        simp only [isPyWs, Bool.or_eq_true, decide_eq_true_eq] at hws
        rcases hws with ((((rfl | rfl) | rfl) | rfl) | rfl) | rfl <;> simp_all
  | str s =>
      rw [show render (Json.str s)
          = ('"' :: renderStrChars s.data) ++ ['"'] by simp [render],
        getLast_concat] at h
      simp at h
      subst h
      decide
  | arr xs =>
      cases xs with
      | nil =>
          rw [show (render (Json.arr [])).getLast? = some ']' from rfl] at h
          simp at h
          subst h
          decide
      | cons x xs =>
          rw [show render (Json.arr (x :: xs))
              = ('[' :: (render x ++ renderArrTail xs)) ++ [']'] by
                simp [render],
            getLast_concat] at h
          simp at h
          subst h
          decide
  | obj fs =>
      cases fs with
      | nil =>
          rw [show (render (Json.obj [])).getLast? = some '\x7d' from rfl] at h
          simp at h
          subst h
          decide
      | cons f fs =>
          rw [show render (Json.obj (f :: fs))
              = ('\x7b' :: (renderMember f ++ renderObjTail fs)) ++ ['\x7d'] by
                simp [render],
            getLast_concat] at h
          simp at h
          subst h
          decide


/-- `s.strip()` is the identity when neither end is Python whitespace. -/
theorem pyStrip_noop (l : List Char)
    (h1 : ∀ c, l.head? = some c → isPyWs c = false)
    (h2 : ∀ c, l.getLast? = some c → isPyWs c = false) :
    pyStrip (String.mk l) = String.mk l := by
  unfold pyStrip
  have hd : l.dropWhile isPyWs = l := by
    cases hl : l with
    | nil => rfl
    | cons c t =>
        rw [List.dropWhile_cons, h1 c (by rw [hl]; rfl)]
        simp
  show String.mk (((l.dropWhile isPyWs).reverse.dropWhile isPyWs).reverse)
      = String.mk l
  rw [hd]
  have hrev : l.reverse.dropWhile isPyWs = l.reverse := by
    cases hl : l.reverse with
    | nil => rfl
    | cons c t =>
        rw [List.dropWhile_cons]
        have hc : l.getLast? = some c := by
          rw [← List.head?_reverse, hl]
          rfl
        rw [h2 c hc]
        simp
  rw [hrev, List.reverse_reverse]

theorem splitNlAux_cons_ne (c : Char) (h : ¬ c = '\n') (cs cur : List Char) :
    splitNlAux (c :: cs) cur = splitNlAux cs (c :: cur) := by
  rw [show splitNlAux (c :: cs) cur
      = if c = '\n' then String.mk cur.reverse :: splitNlAux cs []
        else splitNlAux cs (c :: cur) from rfl,
    if_neg h]

theorem splitNlAux_cons_nl (cs cur : List Char) :
    splitNlAux ('\n' :: cs) cur = String.mk cur.reverse :: splitNlAux cs [] := rfl

theorem splitNlAux_free : ∀ (l cur rest : List Char),
    (∀ c ∈ l, c ≠ '\n') →
    splitNlAux (l ++ rest) cur = splitNlAux rest (l.reverse ++ cur) := by
  intro l
  induction l with
  | nil =>
      intro cur rest h
      simp
  | cons c t ih =>
      intro cur rest h
      rw [List.cons_append,
        splitNlAux_cons_ne c (h c (List.mem_cons_self c t)),
        ih (c :: cur) rest (fun x hx => h x (List.mem_cons_of_mem c hx)),
        show (c :: t).reverse ++ cur = t.reverse ++ (c :: cur) by simp]

theorem ndJoin_shape (l : List Char) (ls : List (List Char)) :
    ndJoin (l :: ls) = l ∨
    ∃ T, ndJoin (l :: ls) = l ++ '\n' :: T ∧ T = ndJoin ls := by
  cases ls with
  | nil => left; rfl
  | cons l2 ls2 => right; exact ⟨_, rfl, rfl⟩

theorem splitNl_ndJoin : ∀ ls : List (List Char), ls ≠ [] →
    (∀ l ∈ ls, ∀ c ∈ l, c ≠ '\n') →
    splitNl (String.mk (ndJoin ls)) = ls.map String.mk := by
  intro ls
  induction ls with
  | nil => intro h; exact absurd rfl h
  | cons l ls ih =>
      intro _ hfree
      show splitNlAux (ndJoin (l :: ls)) [] = _
      cases ls with
      | nil =>
          show splitNlAux (ndJoin [l]) [] = [String.mk l]
          rw [show ndJoin [l] = l ++ [] by simp [ndJoin]]
          rw [splitNlAux_free l [] [] (hfree l (List.mem_cons_self l []))]
          simp [splitNlAux]
      | cons l2 ls2 =>
          show splitNlAux (l ++ '\n' :: ndJoin (l2 :: ls2)) [] = _
          rw [splitNlAux_free l [] _ (hfree l (List.mem_cons_self l _))]
          show splitNlAux ('\n' :: ndJoin (l2 :: ls2)) (l.reverse ++ []) = _
          have ih2 : splitNlAux (ndJoin (l2 :: ls2)) []
              = List.map String.mk (l2 :: ls2) :=
            ih (by simp) (fun x hx => hfree x (List.mem_cons_of_mem l hx))
          rw [splitNlAux_cons_nl, ih2]
          simp


theorem render_data_not_empty (r : Json) :
    (String.mk (render r)).data.isEmpty = false := by
  obtain ⟨c, t, hct, -⟩ := render_head r
  show (render r).isEmpty = false
  rw [hct]
  rfl

theorem pyStrip_render (r : Json) :
    pyStrip (String.mk (render r)) = String.mk (render r) :=
  pyStrip_noop (render r) (fun c h => render_head_not_pyws r c h)
    (fun c h => render_last_not_pyws r c h)

theorem ndjsonFold_renders : ∀ (rs : List Json) (acc : List Json),
    (∀ r ∈ rs, ∃ fs, r = Json.obj fs) →
    ndjsonFold (rs.map (fun r => String.mk (render r))) acc = some (acc ++ rs) := by
  intro rs
  induction rs with
  | nil =>
      intro acc h
      simp [ndjsonFold]
  | cons r rs ih =>
      intro acc h
      obtain ⟨fs, rfl⟩ := h r (List.mem_cons_self r rs)
      show ndjsonFold (String.mk (render (Json.obj fs))
          :: rs.map (fun r => String.mk (render r))) acc = _
      unfold ndjsonFold
      rw [pyStrip_render]
      simp only [render_data_not_empty, Bool.false_eq_true, if_false,
        jsonParse_render]
      rw [ih (acc ++ [Json.obj fs])
        (fun x hx => h x (List.mem_cons_of_mem _ hx))]
      rw [show (render (Json.obj fs)).isEmpty = false from by
        obtain ⟨c, t, hct, -⟩ := render_head (Json.obj fs)
        rw [hct]
        rfl]
      simp


theorem ndJoin_cons_eq (l : List Char) (ls : List (List Char)) :
    ∃ R, ndJoin (l :: ls) = l ++ R := by
  cases ls with
  | nil => exact ⟨[], by simp [ndJoin]⟩
  | cons l2 ls2 => exact ⟨'\n' :: ndJoin (l2 :: ls2), rfl⟩

theorem ndJoin_render_ne_nil (r : Json) (rs : List Json) :
    ndJoin ((r :: rs).map render) ≠ [] := by
  obtain ⟨R, hR⟩ := ndJoin_cons_eq (render r) (rs.map render)
  rw [List.map_cons, hR]
  obtain ⟨c, t, hct, -⟩ := render_head r
  rw [hct]
  simp

theorem getLast?_cons_of_ne_nil {α : Type} (a : α) (l : List α) (h : l ≠ []) :
    (a :: l).getLast? = l.getLast? := by
  cases l with
  | nil => exact absurd rfl h
  | cons b t => rw [List.getLast?_cons_cons]

theorem ndJoin_head_not_pyws (r : Json) (rs : List Json) (c : Char)
    (h : (ndJoin ((r :: rs).map render)).head? = some c) : isPyWs c = false := by
  obtain ⟨R, hR⟩ := ndJoin_cons_eq (render r) (rs.map render)
  rw [List.map_cons, hR] at h
  obtain ⟨c2, t, hct, -⟩ := render_head r
  rw [hct] at h
  simp only [List.cons_append, List.head?_cons, Option.some.injEq] at h
  subst h
  exact render_head_not_pyws r c2 (by rw [hct]; rfl)

theorem ndJoin_last_not_pyws : ∀ (rs : List Json) (r : Json) (c : Char),
    (ndJoin ((r :: rs).map render)).getLast? = some c → isPyWs c = false := by
  intro rs
  induction rs with
  | nil =>
      intro r c h
      exact render_last_not_pyws r c h
  | cons r2 rs2 ih =>
      intro r c h
      have hsh : ndJoin ((r :: r2 :: rs2).map render)
          = render r ++ '\n' :: ndJoin ((r2 :: rs2).map render) := rfl
      rw [hsh, List.getLast?_append,
        getLast?_cons_of_ne_nil '\n' _ (ndJoin_render_ne_nil r2 rs2)] at h
      cases hT : (ndJoin ((r2 :: rs2).map render)).getLast? with
      | none =>
          rw [List.getLast?_eq_none_iff] at hT
          exact absurd hT (ndJoin_render_ne_nil r2 rs2)
      | some c2 =>
          rw [hT] at h
          simp only [Option.or_some, Option.some.injEq] at h
          subst h
          exact ih r2 c2 hT


theorem pyStrip_ndRender (r : Json) (rs : List Json) :
    pyStrip (ndRender (r :: rs)) = ndRender (r :: rs) :=
  pyStrip_noop (ndJoin ((r :: rs).map render))
    (fun c h => ndJoin_head_not_pyws r rs c h)
    (fun c h => ndJoin_last_not_pyws rs r c h)

theorem jsonParse_ndRender_multi (r1 r2 : Json) (rs : List Json) :
    jsonParse (ndRender (r1 :: r2 :: rs)) = none := by
  have hsh : ndJoin ((r1 :: r2 :: rs).map render)
      = render r1 ++ '\n' :: ndJoin ((r2 :: rs).map render) := rfl
  show (match parseVal (((ndRender (r1 :: r2 :: rs)).data.dropWhile
        isWsJson).length + 1)
      ((ndRender (r1 :: r2 :: rs)).data.dropWhile isWsJson) with
    | some (v, rest) =>
        if (rest.dropWhile isWsJson).isEmpty then some v else none
    | none => none) = none
  have hdata : (ndRender (r1 :: r2 :: rs)).data
      = render r1 ++ '\n' :: ndJoin ((r2 :: rs).map render) := hsh
  rw [hdata, render_head_not_ws r1]
  set T := ndJoin ((r2 :: rs).map render) with hT
  have hfuel : needV r1 ≤ (render r1 ++ '\n' :: T).length + 1 := by
    have h1 := need_le_len r1
    have h2 : (render r1 ++ '\n' :: T).length
        = (render r1).length + T.length + 1 := by
      simp
      omega
    omega
  have hpv := (parse_render_all ((render r1 ++ '\n' :: T).length + 1)).1 r1
    ('\n' :: T) hfuel (headDigitFree_closer '\n' (by decide) T)
  rw [hpv]
  have hTsh : T.dropWhile isWsJson = T := by
    obtain ⟨R, hR⟩ := ndJoin_cons_eq (render r2) (rs.map render)
    rw [hT, List.map_cons, hR]
    exact render_head_not_ws r2
  have hdw : ('\n' :: T).dropWhile isWsJson = T := by
    rw [List.dropWhile_cons]
    simp only [show isWsJson '\n' = true from rfl, if_true]
    exact hTsh
  have hTne : T.isEmpty = false := by
    rw [hT]
    cases hc : ndJoin ((r2 :: rs).map render) with
    | nil => exact absurd hc (ndJoin_render_ne_nil r2 rs)
    | cons a l => rfl
  simp only [hdw, hTne, Bool.false_eq_true, if_false]

theorem parseSmartData_ndRender_multi (r1 r2 : Json) (rs : List Json)
    (h : ∀ r ∈ r1 :: r2 :: rs, ∃ fs, r = Json.obj fs) :
    parseSmartData (ndRender (r1 :: r2 :: rs)) = some (r1 :: r2 :: rs) := by
  unfold parseSmartData
  rw [jsonParse_ndRender_multi]
  unfold ndjsonPhase
  rw [pyStrip_ndRender]
  have hlines : splitNl (ndRender (r1 :: r2 :: rs))
      = ((r1 :: r2 :: rs).map render).map String.mk := by
    apply splitNl_ndJoin
    · simp
    · intro l hl c hc
      simp only [List.mem_map] at hl
      obtain ⟨r, -, rfl⟩ := hl
      intro he
      subst he
      exact render_no_nl r hc
  rw [hlines, List.map_map]
  have hfold := ndjsonFold_renders (r1 :: r2 :: rs) [] h
  rw [show ((r1 :: r2 :: rs).map fun r => String.mk (render r))
      = (r1 :: r2 :: rs).map (String.mk ∘ render) from rfl] at hfold
  rw [hfold]
  rfl

theorem parseSmartData_ndRender_single (fs : List (String × Json))
    (h : ∀ bs, jLookup fs "BERTHDATA" ≠ some (Json.arr bs)) :
    parseSmartData (ndRender [Json.obj fs]) = some [Json.obj fs] := by
  have hsh : ndRender [Json.obj fs] = String.mk (render (Json.obj fs)) := rfl
  rw [hsh]
  simp only [parseSmartData, jsonParse_render]


/-- C8, counterexample.  For the single record `{"BERTHDATA": []}` the array
and wrapper renderings parse to the record itself, but the newline-delimited
rendering is itself a decodable JSON object with an empty `BERTHDATA` list,
so `_parse_smart_data` fails on it and the pipelines do not agree. -/
theorem C8_counterexample :
    parseSmartData (arrRender [Json.obj [("BERTHDATA", Json.arr [])]])
      = some [Json.obj [("BERTHDATA", Json.arr [])]] ∧
    parseSmartData (wrapRender [Json.obj [("BERTHDATA", Json.arr [])]])
      = some [Json.obj [("BERTHDATA", Json.arr [])]] ∧
    parseSmartData (ndRender [Json.obj [("BERTHDATA", Json.arr [])]])
      = none ∧
    (parseSmartData (ndRender [Json.obj [("BERTHDATA", Json.arr [])]])).bind
        buildGraph
      ≠ (parseSmartData (arrRender [Json.obj [("BERTHDATA", Json.arr [])]])).bind
        buildGraph :=
  ⟨rfl, rfl, rfl, by decide⟩

/-- C8 (amended): for a non-empty list of JSON-object records that either has
at least two records or whose single record carries no `BERTHDATA` list
field, the three renderings (JSON array, `BERTHDATA` wrapper,
newline-delimited) all parse back to the same record list, so the built
graphs of the three pipelines coincide. -/
theorem C8_pipeline_agreement :
    ∀ rs : List Json,
    (∀ r ∈ rs, ∃ fs, r = Json.obj fs) →
    rs ≠ [] →
    (2 ≤ rs.length ∨
      ∃ fs, rs = [Json.obj fs] ∧
        ∀ bs, jLookup fs "BERTHDATA" ≠ some (Json.arr bs)) →
    parseSmartData (arrRender rs) = some rs ∧
    parseSmartData (wrapRender rs) = some rs ∧
    parseSmartData (ndRender rs) = some rs ∧
    (parseSmartData (arrRender rs)).bind buildGraph
      = (parseSmartData (ndRender rs)).bind buildGraph ∧
    (parseSmartData (wrapRender rs)).bind buildGraph
      = (parseSmartData (ndRender rs)).bind buildGraph := by
  intro rs hobj hne hcase
  have harr : parseSmartData (arrRender rs) = some rs := by
    simp only [arrRender, parseSmartData, jsonParse_render]
  have hwrap : parseSmartData (wrapRender rs) = some rs := by
    cases rs with
    | nil => exact absurd rfl hne
    | cons r rs2 =>
        simp only [wrapRender, parseSmartData, jsonParse_render]
        rw [show jLookup [("BERTHDATA", Json.arr (r :: rs2))] "BERTHDATA"
            = some (Json.arr (r :: rs2)) from rfl]
        rfl
  have hnd : parseSmartData (ndRender rs) = some rs := by
    rcases hcase with h2 | ⟨fs, rfl, hNB⟩
    · cases rs with
      | nil => exact absurd rfl hne
      | cons r1 rs1 =>
          cases rs1 with
          | nil => simp at h2
          | cons r2 rs2 => exact parseSmartData_ndRender_multi r1 r2 rs2 hobj
    · exact parseSmartData_ndRender_single fs hNB
  refine ⟨harr, hwrap, hnd, ?_, ?_⟩
  · rw [harr, hnd]
  · rw [hwrap, hnd]

/-- Witness for C8: the pipeline agreement at a concrete two-record list. -/
theorem C8_pipeline_witness :
    parseSmartData (arrRender [Json.obj [], Json.obj [("X", Json.num 1)]])
      = some [Json.obj [], Json.obj [("X", Json.num 1)]] ∧
    parseSmartData (wrapRender [Json.obj [], Json.obj [("X", Json.num 1)]])
      = some [Json.obj [], Json.obj [("X", Json.num 1)]] ∧
    parseSmartData (ndRender [Json.obj [], Json.obj [("X", Json.num 1)]])
      = some [Json.obj [], Json.obj [("X", Json.num 1)]] := by
  have H := C8_pipeline_agreement [Json.obj [], Json.obj [("X", Json.num 1)]]
    (by
      intro r hr
      rcases List.mem_cons.mp hr with rfl | hr2
      · exact ⟨[], rfl⟩
      · rcases List.mem_cons.mp hr2 with rfl | hr3
        · exact ⟨[("X", Json.num 1)], rfl⟩
        · simp at hr3)
    (by simp)
    (Or.inl (by simp))
  exact ⟨H.1, H.2.1, H.2.2.1⟩


/-! ## C7: `find_adjacent_stations_multihop` (`smart_utils.py`)

The function runs a FIFO breadth-first search over berth keys, marking
berths visited on enqueue, recording a station the first (or any closer)
time one of its berths is scanned as a neighbour, and refusing to expand
entries whose distance has reached `max_hops`. -/

def connKey (c : Conn) : String := c.td_area ++ ":" ++ c.berth

/-- The connection entries scanned for a dequeued berth: the `"from"` list
then the `"to"` list (an unknown berth has none). -/
def connsAll (g : Graph) (b : String) : List Conn :=
  match alGet g.berth_to_connections b with
  | some cp => cp.fromC ++ cp.toC
  | none => []

structure BfsState where
  adjacent : List (String × Nat)
  visited : List String
  queue : List (String × Nat)

/-- `adjacent_stations[s] = d` under the guard
`s not in adjacent_stations or d < adjacent_stations[s]`. -/
def recordStation (adj : List (String × Nat)) (s : String) (d : Nat) :
    List (String × Nat) :=
  match alGet adj s with
  | none => alSet adj s d
  | some v => if d < v then alSet adj s d else adj

/-- Processing of one connection entry of the dequeued berth (distance `d`):
skip if either field is falsy, else record its station (when truthy and not
the center) and enqueue the berth if unvisited. -/
def bfsConnStep (g : Graph) (center : String) (d : Nat)
    (st : BfsState) (c : Conn) : BfsState :=
  if c.td_area = "" ∨ c.berth = "" then st
  else
    let key := connKey c
    let st1 :=
      match alGet g.berth_to_stanox key with
      | some s =>
          if s ≠ "" ∧ s ≠ center then
            { st with adjacent := recordStation st.adjacent s (d + 1) }
          else st
      | none => st
    if key ∈ st1.visited then st1
    else
      { st1 with
          visited := st1.visited ++ [key]
          queue := st1.queue ++ [(key, d + 1)] }

/-- The `while queue:` loop; the fuel only bounds the iteration count and is
chosen large enough that the queue always empties first. -/
def bfsLoop (g : Graph) (center : String) (maxHops : Nat) (fuel : Nat)
    (st : BfsState) : BfsState :=
  match fuel with
  | 0 => st
  | fuel + 1 =>
      match st.queue with
      | [] => st
      | (b, d) :: q =>
          let st2 := { st with queue := q }
          if maxHops ≤ d then bfsLoop g center maxHops fuel st2
          else
            bfsLoop g center maxHops fuel
              ((connsAll g b).foldl (bfsConnStep g center d) st2)

/-- All berth keys that any connection entry of the graph can produce. -/
def allConnKeys (g : Graph) : List String :=
  (g.berth_to_connections.map
    (fun p => (p.2.fromC ++ p.2.toC).map connKey)).flatten

def find_adjacent_stations_multihop (g : Graph) (seeds : List String)
    (center : String) (maxHops : Nat) : List (String × Nat) :=
  (bfsLoop g center maxHops (seeds.length + (allConnKeys g).length + 1)
    { adjacent := []
      visited := seeds
      queue := seeds.map (fun b => (b, 0)) }).adjacent

/-- The berth keys one traversal step away from `b` (both connection
directions, falsy entries skipped), as the specification's edge relation. -/
def neighborsOf (g : Graph) (b : String) : List String :=
  (connsAll g b).filterMap fun c =>
    if c.td_area = "" ∨ c.berth = "" then none else some (connKey c)

/-- Berths reachable from the seed set in at most `n` traversal steps. -/
def reachSet (g : Graph) (seeds : List String) : Nat → List String
  | 0 => seeds
  | n + 1 =>
      reachSet g seeds n
        ++ ((reachSet g seeds n).map (neighborsOf g)).flatten

/-- Ghost-instrumented BFS state: `labels` replaces the visited set, keeping
the distance at which each berth was enqueued. -/
structure BfsStateG where
  adjacent : List (String × Nat)
  labels : List (String × Nat)
  queue : List (String × Nat)

def eraseG (st : BfsStateG) : BfsState :=
  ⟨st.adjacent, st.labels.map Prod.fst, st.queue⟩

def bfsConnStepG (g : Graph) (center : String) (d : Nat)
    (st : BfsStateG) (c : Conn) : BfsStateG :=
  if c.td_area = "" ∨ c.berth = "" then st
  else
    let key := connKey c
    let st1 :=
      match alGet g.berth_to_stanox key with
      | some s =>
          if s ≠ "" ∧ s ≠ center then
            { st with adjacent := recordStation st.adjacent s (d + 1) }
          else st
      | none => st
    if key ∈ st1.labels.map Prod.fst then st1
    else
      { st1 with
          labels := st1.labels ++ [(key, d + 1)]
          queue := st1.queue ++ [(key, d + 1)] }

def bfsLoopG (g : Graph) (center : String) (maxHops : Nat) (fuel : Nat)
    (st : BfsStateG) : BfsStateG :=
  match fuel with
  | 0 => st
  | fuel + 1 =>
      match st.queue with
      | [] => st
      | (b, d) :: q =>
          let st2 :=
            { st with queue := q }
          if maxHops ≤ d then bfsLoopG g center maxHops fuel st2
          else
            bfsLoopG g center maxHops fuel
              ((connsAll g b).foldl (bfsConnStepG g center d) st2)

theorem bfsConnStep_erase (g : Graph) (center : String) (d : Nat)
    (st : BfsStateG) (c : Conn) :
    bfsConnStep g center d (eraseG st) c = eraseG (bfsConnStepG g center d st c) := by
  by_cases h1 : c.td_area = "" ∨ c.berth = ""
  · unfold bfsConnStep bfsConnStepG
    rw [if_pos h1, if_pos h1]
  · cases h2 : alGet g.berth_to_stanox (connKey c) with
    | none =>
        by_cases h3 : connKey c ∈ st.labels.map Prod.fst
        · unfold bfsConnStep bfsConnStepG
          simp only [eraseG, if_neg h1, h2]
          simp [h3]
        · unfold bfsConnStep bfsConnStepG
          simp only [eraseG, if_neg h1, h2]
          simp [h3, eraseG]
    | some s =>
        by_cases h4 : s ≠ "" ∧ s ≠ center
        all_goals
          by_cases h3 : connKey c ∈ st.labels.map Prod.fst
          all_goals
            unfold bfsConnStep bfsConnStepG
            simp only [eraseG, if_neg h1, h2]
            simp [h3, h4, eraseG]

theorem foldl_conn_erase (g : Graph) (center : String) (d : Nat) :
    ∀ (cs : List Conn) (st : BfsStateG),
    cs.foldl (bfsConnStep g center d) (eraseG st)
      = eraseG (cs.foldl (bfsConnStepG g center d) st) := by
  intro cs
  induction cs with
  | nil => intro st; rfl
  | cons c cs ih =>
      intro st
      show List.foldl _ (bfsConnStep g center d (eraseG st) c) cs = _
      rw [bfsConnStep_erase]
      exact ih _

theorem bfsLoop_erase (g : Graph) (center : String) (maxHops : Nat) :
    ∀ (fuel : Nat) (st : BfsStateG),
    bfsLoop g center maxHops fuel (eraseG st)
      = eraseG (bfsLoopG g center maxHops fuel st) := by
  intro fuel
  induction fuel with
  | zero => intro st; rfl
  | succ fuel ih =>
      intro st
      show bfsLoop g center maxHops (fuel + 1) (eraseG st) = _
      unfold bfsLoop bfsLoopG
      cases hq : st.queue with
      | nil =>
          simp only [eraseG, hq]
      | cons p q =>
          obtain ⟨b, d⟩ := p
          simp only [eraseG, hq]
          by_cases hd : maxHops ≤ d
          · rw [if_pos hd, if_pos hd]
            have h2 : (⟨st.adjacent, st.labels.map Prod.fst, q⟩ : BfsState)
                = eraseG ⟨st.adjacent, st.labels, q⟩ := rfl
            rw [h2, ih]
            rfl
          · rw [if_neg hd, if_neg hd]
            have h2 : (⟨st.adjacent, st.labels.map Prod.fst, q⟩ : BfsState)
                = eraseG ⟨st.adjacent, st.labels, q⟩ := rfl
            rw [h2, foldl_conn_erase, ih]
            rfl

theorem find_adjacent_eq_ghost (g : Graph) (seeds : List String)
    (center : String) (maxHops : Nat) :
    find_adjacent_stations_multihop g seeds center maxHops
      = (bfsLoopG g center maxHops (seeds.length + (allConnKeys g).length + 1)
          ⟨[], seeds.map (fun b => (b, 0)), seeds.map (fun b => (b, 0))⟩).adjacent := by
  unfold find_adjacent_stations_multihop
  have h0 : (⟨[], seeds, seeds.map (fun b => (b, 0))⟩ : BfsState)
      = eraseG ⟨[], seeds.map (fun b => (b, 0)), seeds.map (fun b => (b, 0))⟩ := by
    simp only [eraseG, List.map_map, BfsState.mk.injEq]
    refine ⟨trivial, ?_, trivial⟩
    induction seeds with
    | nil => rfl
    | cons a l ih =>
        simp only [List.map_cons, Function.comp]
        rw [← ih]
  rw [h0, bfsLoop_erase]
  rfl


theorem alGet_mem {α : Type} : ∀ (l : List (String × α)) (k : String) (v : α),
    alGet l k = some v → (k, v) ∈ l := by
  intro l
  induction l with
  | nil => intro k v h; simp [alGet] at h
  | cons p t ih =>
      intro k v h
      obtain ⟨k2, v2⟩ := p
      unfold alGet at h
      by_cases he : k2 = k
      · rw [if_pos he] at h
        subst he
        simp only [Option.some.injEq] at h
        subst h
        exact List.mem_cons_self _ _
      · rw [if_neg he] at h
        exact List.mem_cons_of_mem _ (ih k v h)

theorem mem_keys_of_alGet {α : Type} (l : List (String × α)) (k : String)
    (v : α) (h : alGet l k = some v) : k ∈ l.map Prod.fst := by
  have := alGet_mem l k v h
  exact List.mem_map.mpr ⟨(k, v), this, rfl⟩

theorem alGet_append_left {α : Type} :
    ∀ (l e : List (String × α)) (k : String) (v : α),
    alGet l k = some v → alGet (l ++ e) k = some v := by
  intro l
  induction l with
  | nil => intro e k v h; simp [alGet] at h
  | cons p t ih =>
      intro e k v h
      obtain ⟨k2, v2⟩ := p
      rw [List.cons_append]
      show (if k2 = k then some v2 else alGet (t ++ e) k) = some v
      have h2 : (if k2 = k then some v2 else alGet t k) = some v := h
      by_cases he : k2 = k
      · rwa [if_pos he] at h2 ⊢
      · rw [if_neg he] at h2 ⊢
        exact ih e k v h2

theorem alGet_append_right {α : Type} :
    ∀ (l e : List (String × α)) (k : String),
    k ∉ l.map Prod.fst → alGet (l ++ e) k = alGet e k := by
  intro l
  induction l with
  | nil => intro e k h; rfl
  | cons p t ih =>
      intro e k h
      obtain ⟨k2, v2⟩ := p
      simp only [List.map_cons, List.mem_cons, not_or] at h
      show (if k2 = k then some v2 else alGet (t ++ e) k) = alGet e k
      rw [if_neg (fun he => h.1 he.symm)]
      exact ih e k h.2

theorem mem_alGet_nodup {α : Type} :
    ∀ (l : List (String × α)) (k : String) (v : α),
    (l.map Prod.fst).Nodup → (k, v) ∈ l → alGet l k = some v := by
  intro l
  induction l with
  | nil => intro k v _ h; simp at h
  | cons p t ih =>
      intro k v hnd h
      obtain ⟨k2, v2⟩ := p
      simp only [List.map_cons, List.nodup_cons] at hnd
      show (if k2 = k then some v2 else alGet t k) = some v
      rcases List.mem_cons.mp h with he | hm
      · injection he with he1 he2
        subst he1
        subst he2
        rw [if_pos rfl]
      · by_cases he : k2 = k
        · subst he
          exact absurd (List.mem_map.mpr ⟨(k2, v), hm, rfl⟩) hnd.1
        · rw [if_neg he]
          exact ih k v hnd.2 hm

theorem alGet_map_pair (seeds : List String) (b : String) (h : b ∈ seeds) :
    alGet (seeds.map (fun x => (x, (0 : Nat)))) b = some 0 := by
  induction seeds with
  | nil => simp at h
  | cons a t ih =>
      rcases List.mem_cons.mp h with rfl | hm
      · show alGet ((b, 0) :: t.map (fun x => (x, 0))) b = some 0
        unfold alGet
        rw [if_pos rfl]
      · show alGet ((a, 0) :: t.map (fun x => (x, 0))) b = some 0
        unfold alGet
        by_cases he : a = b
        · rw [if_pos he]
        · rw [if_neg he]
          exact ih hm

theorem nodup_subset_length (l L : List String) (hnd : l.Nodup)
    (hsub : ∀ x ∈ l, x ∈ L) : l.length ≤ L.length := by
  have h1 : l.toFinset.card = l.length := List.toFinset_card_of_nodup hnd
  have h2 : l.toFinset ⊆ L.toFinset := by
    intro x hx
    rw [List.mem_toFinset] at hx ⊢
    exact hsub x hx
  have h3 := Finset.card_le_card h2
  have h4 := L.toFinset_card_le
  omega


theorem recordStation_lookup (adj : List (String × Nat)) (s : String) (d : Nat)
    (s2 : String) (v2 : Nat)
    (h : alGet (recordStation adj s d) s2 = some v2) :
    alGet adj s2 = some v2 ∨ (s2 = s ∧ v2 = d) := by
  unfold recordStation at h
  cases h0 : alGet adj s with
  | none =>
      simp only [h0] at h
      by_cases he : s2 = s
      · subst he
        rw [alGet_alSet_self] at h
        right
        exact ⟨rfl, (Option.some.injEq .. ▸ h).symm⟩
      · left
        rwa [alGet_alSet_ne _ _ _ _ (fun hh => he hh.symm)] at h
  | some v =>
      simp only [h0] at h
      by_cases hlt : d < v
      · rw [if_pos hlt] at h
        by_cases he : s2 = s
        · subst he
          rw [alGet_alSet_self] at h
          right
          exact ⟨rfl, (Option.some.injEq .. ▸ h).symm⟩
        · left
          rwa [alGet_alSet_ne _ _ _ _ (fun hh => he hh.symm)] at h
      · rw [if_neg hlt] at h
        left
        exact h

theorem recordStation_self (adj : List (String × Nat)) (s : String) (d : Nat) :
    ∃ v ≤ d, alGet (recordStation adj s d) s = some v := by
  unfold recordStation
  cases h0 : alGet adj s with
  | none =>
      simp only [h0]
      exact ⟨d, Nat.le_refl d, alGet_alSet_self adj s d⟩
  | some v =>
      simp only [h0]
      by_cases hlt : d < v
      · rw [if_pos hlt]
        exact ⟨d, Nat.le_refl d, alGet_alSet_self adj s d⟩
      · rw [if_neg hlt]
        exact ⟨v, by omega, h0⟩

theorem recordStation_mono (adj : List (String × Nat)) (s : String) (d : Nat)
    (s2 : String) (v : Nat) (h : alGet adj s2 = some v) :
    ∃ v2 ≤ v, alGet (recordStation adj s d) s2 = some v2 := by
  unfold recordStation
  cases h0 : alGet adj s with
  | none =>
      simp only [h0]
      by_cases he : s2 = s
      · subst he
        rw [h0] at h
        cases h
      · exact ⟨v, Nat.le_refl v,
          by rw [alGet_alSet_ne _ _ _ _ (fun hh => he hh.symm)]; exact h⟩
  | some w =>
      simp only [h0]
      by_cases hlt : d < w
      · rw [if_pos hlt]
        by_cases he : s2 = s
        · subst he
          rw [h0] at h
          have hv : v = w := by
            injection h with hh
            exact hh.symm
          subst hv
          exact ⟨d, by omega, alGet_alSet_self adj s2 d⟩
        · exact ⟨v, Nat.le_refl v,
            by rw [alGet_alSet_ne _ _ _ _ (fun hh => he hh.symm)]; exact h⟩
      · rw [if_neg hlt]
        exact ⟨v, Nat.le_refl v, h⟩

theorem reach_mono_succ (g : Graph) (seeds : List String) (n : Nat)
    (b : String) (h : b ∈ reachSet g seeds n) : b ∈ reachSet g seeds (n + 1) := by
  show b ∈ reachSet g seeds n ++ _
  exact List.mem_append_left _ h

theorem reach_step (g : Graph) (seeds : List String) (n : Nat)
    (u y : String) (hu : u ∈ reachSet g seeds n) (hy : y ∈ neighborsOf g u) :
    y ∈ reachSet g seeds (n + 1) := by
  show y ∈ reachSet g seeds n ++ _
  refine List.mem_append_right _ ?_
  rw [List.mem_flatten]
  exact ⟨neighborsOf g u, List.mem_map.mpr ⟨u, hu, rfl⟩, hy⟩

theorem connKey_mem_neighbors (g : Graph) (b : String) (c : Conn)
    (hc : c ∈ connsAll g b) (hv : ¬(c.td_area = "" ∨ c.berth = "")) :
    connKey c ∈ neighborsOf g b := by
  unfold neighborsOf
  rw [List.mem_filterMap]
  exact ⟨c, hc, by rw [if_neg hv]⟩

theorem neighbors_to_conn (g : Graph) (b y : String)
    (hy : y ∈ neighborsOf g b) :
    ∃ c ∈ connsAll g b, ¬(c.td_area = "" ∨ c.berth = "") ∧ y = connKey c := by
  unfold neighborsOf at hy
  rw [List.mem_filterMap] at hy
  obtain ⟨c, hc, heq⟩ := hy
  by_cases hv : c.td_area = "" ∨ c.berth = ""
  · rw [if_pos hv] at heq
    cases heq
  · rw [if_neg hv] at heq
    simp only [Option.some.injEq] at heq
    exact ⟨c, hc, hv, heq.symm⟩

theorem connKey_mem_allConnKeys (g : Graph) (b : String) (c : Conn)
    (hc : c ∈ connsAll g b) : connKey c ∈ allConnKeys g := by
  unfold connsAll at hc
  cases h0 : alGet g.berth_to_connections b with
  | none =>
      rw [h0] at hc
      simp at hc
  | some cp =>
      rw [h0] at hc
      have hm := alGet_mem _ _ _ h0
      unfold allConnKeys
      rw [List.mem_flatten]
      refine ⟨(cp.fromC ++ cp.toC).map connKey, ?_, ?_⟩
      · rw [List.mem_map]
        exact ⟨(b, cp), hm, rfl⟩
      · exact List.mem_map.mpr ⟨c, hc, rfl⟩


/-- The station-recording phase of one connection step, as a function of the
adjacency map. -/
def recordPhase (g : Graph) (center : String) (d : Nat)
    (adj : List (String × Nat)) (key : String) : List (String × Nat) :=
  match alGet g.berth_to_stanox key with
  | some s => if s ≠ "" ∧ s ≠ center then recordStation adj s (d + 1) else adj
  | none => adj

theorem bfsConnStepG_valid (g : Graph) (center : String) (d : Nat)
    (t : BfsStateG) (c : Conn) (h1 : ¬(c.td_area = "" ∨ c.berth = "")) :
    bfsConnStepG g center d t c =
      if connKey c ∈ t.labels.map Prod.fst then
        ⟨recordPhase g center d t.adjacent (connKey c), t.labels, t.queue⟩
      else
        ⟨recordPhase g center d t.adjacent (connKey c),
          t.labels ++ [(connKey c, d + 1)],
          t.queue ++ [(connKey c, d + 1)]⟩ := by
  cases h2 : alGet g.berth_to_stanox (connKey c) with
  | none =>
      unfold bfsConnStepG recordPhase
      simp only [if_neg h1, h2]
  | some s =>
      unfold bfsConnStepG recordPhase
      simp only [if_neg h1, h2]
      by_cases h4 : s ≠ "" ∧ s ≠ center
      · rw [if_pos h4]
        simp only [show (if ¬s = "" ∧ ¬s = center then
            recordStation t.adjacent s (d + 1) else t.adjacent)
          = recordStation t.adjacent s (d + 1) from if_pos h4]
      · rw [if_neg h4]
        simp only [show (if ¬s = "" ∧ ¬s = center then
            recordStation t.adjacent s (d + 1) else t.adjacent)
          = t.adjacent from if_neg h4]

theorem recordPhase_lookup (g : Graph) (center : String) (d : Nat)
    (adj : List (String × Nat)) (key : String) (s2 : String) (v2 : Nat)
    (h : alGet (recordPhase g center d adj key) s2 = some v2) :
    alGet adj s2 = some v2 ∨
    (v2 = d + 1 ∧ ¬(s2 = "") ∧ ¬(s2 = center) ∧
      alGet g.berth_to_stanox key = some s2) := by
  unfold recordPhase at h
  cases h2 : alGet g.berth_to_stanox key with
  | none =>
      simp only [h2] at h
      exact Or.inl h
  | some s =>
      simp only [h2] at h
      by_cases h4 : s ≠ "" ∧ s ≠ center
      · rw [if_pos h4] at h
        rcases recordStation_lookup adj s (d + 1) s2 v2 h with h5 | ⟨he, hv⟩
        · exact Or.inl h5
        · subst he
          subst hv
          exact Or.inr ⟨rfl, h4.1, h4.2, rfl⟩
      · rw [if_neg h4] at h
        exact Or.inl h

theorem recordPhase_mono (g : Graph) (center : String) (d : Nat)
    (adj : List (String × Nat)) (key : String) (s2 : String) (v : Nat)
    (h : alGet adj s2 = some v) :
    ∃ v2 ≤ v, alGet (recordPhase g center d adj key) s2 = some v2 := by
  unfold recordPhase
  cases h2 : alGet g.berth_to_stanox key with
  | none =>
      simp only [h2]
      exact ⟨v, Nat.le_refl v, h⟩
  | some s =>
      simp only [h2]
      by_cases h4 : s ≠ "" ∧ s ≠ center
      · rw [if_pos h4]
        exact recordStation_mono adj s (d + 1) s2 v h
      · rw [if_neg h4]
        exact ⟨v, Nat.le_refl v, h⟩

theorem recordPhase_progress (g : Graph) (center : String) (d : Nat)
    (adj : List (String × Nat)) (key : String) (s : String)
    (hs : alGet g.berth_to_stanox key = some s) (hs1 : ¬(s = ""))
    (hs2 : ¬(s = center)) :
    ∃ v ≤ d + 1, alGet (recordPhase g center d adj key) s = some v := by
  unfold recordPhase
  simp only [hs]
  rw [if_pos ⟨hs1, hs2⟩]
  exact recordStation_self adj s (d + 1)


theorem alGet_isSome_of_mem_keys {α : Type} :
    ∀ (l : List (String × α)) (k : String), k ∈ l.map Prod.fst →
    ∃ v, alGet l k = some v := by
  intro l
  induction l with
  | nil => intro k h; simp at h
  | cons p t ih =>
      intro k h
      obtain ⟨k2, v2⟩ := p
      show ∃ v, (if k2 = k then some v2 else alGet t k) = some v
      by_cases he : k2 = k
      · exact ⟨v2, by rw [if_pos he]⟩
      · simp only [List.map_cons, List.mem_cons] at h
        rcases h with h | h
        · exact absurd h.symm he
        · obtain ⟨v, hv⟩ := ih k h
          exact ⟨v, by rw [if_neg he]; exact hv⟩

theorem bfsConnStepG_skip (g : Graph) (center : String) (d : Nat)
    (t : BfsStateG) (c : Conn) (h1 : c.td_area = "" ∨ c.berth = "") :
    bfsConnStepG g center d t c = t := by
  unfold bfsConnStepG
  rw [if_pos h1]

/-- Loop invariant of the neighbour scan of one dequeued berth `b` at
distance `d`: the labels and queue have grown by one common block `E` of
distance-`(d+1)` entries keyed by valid connections of `b`, and the adjacency
map has changed only by recordings at value `d+1` for stations of valid
connections of `b`. -/
structure ExpInv (g : Graph) (center : String) (d : Nat) (b : String)
    (st2 : BfsStateG) (t : BfsStateG) : Prop where
  decomp : ∃ E, t.labels = st2.labels ++ E ∧ t.queue = st2.queue ++ E ∧
    ∀ p ∈ E, p.2 = d + 1 ∧
      (∃ c ∈ connsAll g b, ¬(c.td_area = "" ∨ c.berth = "") ∧ p.1 = connKey c) ∧
      p.1 ∉ st2.labels.map Prod.fst ∧
      alGet t.labels p.1 = some p.2
  lab_nodup : (t.labels.map Prod.fst).Nodup
  lab_bound : ∀ p ∈ t.labels, p.2 ≤ d + 1
  adj_new : ∀ s v, alGet t.adjacent s = some v →
    alGet st2.adjacent s = some v ∨
    (v = d + 1 ∧ ¬(s = "") ∧ ¬(s = center) ∧
      ∃ c ∈ connsAll g b, ¬(c.td_area = "" ∨ c.berth = "") ∧
        alGet g.berth_to_stanox (connKey c) = some s)
  adj_mono : ∀ s v, alGet st2.adjacent s = some v →
    ∃ v2 ≤ v, alGet t.adjacent s = some v2

theorem expStep (g : Graph) (center : String) (d : Nat) (b : String)
    (st2 t : BfsStateG) (c : Conn) (hc : c ∈ connsAll g b)
    (hInv : ExpInv g center d b st2 t) :
    ExpInv g center d b st2 (bfsConnStepG g center d t c) ∧
    (∀ k v, alGet t.labels k = some v →
      alGet (bfsConnStepG g center d t c).labels k = some v) ∧
    (∀ s v, alGet t.adjacent s = some v →
      ∃ v2 ≤ v, alGet (bfsConnStepG g center d t c).adjacent s = some v2) ∧
    (¬(c.td_area = "" ∨ c.berth = "") →
      (∃ l2 ≤ d + 1,
        alGet (bfsConnStepG g center d t c).labels (connKey c) = some l2) ∧
      (∀ s, alGet g.berth_to_stanox (connKey c) = some s → ¬(s = "") →
        ¬(s = center) →
        ∃ v ≤ d + 1, alGet (bfsConnStepG g center d t c).adjacent s = some v)) := by
  by_cases h1 : c.td_area = "" ∨ c.berth = ""
  · rw [bfsConnStepG_skip g center d t c h1]
    exact ⟨hInv, fun k v h => h, fun s v h => ⟨v, Nat.le_refl v, h⟩,
      fun h => absurd h1 h⟩
  · rw [bfsConnStepG_valid g center d t c h1]
    have hAdjNew : ∀ s v,
        alGet (recordPhase g center d t.adjacent (connKey c)) s = some v →
        alGet st2.adjacent s = some v ∨
        (v = d + 1 ∧ ¬(s = "") ∧ ¬(s = center) ∧
          ∃ c2 ∈ connsAll g b, ¬(c2.td_area = "" ∨ c2.berth = "") ∧
            alGet g.berth_to_stanox (connKey c2) = some s) := by
      intro s v h
      rcases recordPhase_lookup g center d t.adjacent (connKey c) s v h with
        h5 | ⟨hv, hs1, hs2, hs3⟩
      · exact hInv.adj_new s v h5
      · exact Or.inr ⟨hv, hs1, hs2, c, hc, h1, hs3⟩
    have hAdjMono : ∀ s v, alGet st2.adjacent s = some v →
        ∃ v2 ≤ v,
          alGet (recordPhase g center d t.adjacent (connKey c)) s = some v2 := by
      intro s v h
      obtain ⟨v1, hv1, h5⟩ := hInv.adj_mono s v h
      obtain ⟨v2, hv2, h6⟩ := recordPhase_mono g center d t.adjacent (connKey c)
        s v1 h5
      exact ⟨v2, by omega, h6⟩
    have hAdjStep : ∀ s v, alGet t.adjacent s = some v →
        ∃ v2 ≤ v,
          alGet (recordPhase g center d t.adjacent (connKey c)) s = some v2 :=
      fun s v h => recordPhase_mono g center d t.adjacent (connKey c) s v h
    have hAdjProg : ∀ s, alGet g.berth_to_stanox (connKey c) = some s →
        ¬(s = "") → ¬(s = center) →
        ∃ v ≤ d + 1,
          alGet (recordPhase g center d t.adjacent (connKey c)) s = some v :=
      fun s hs hs1 hs2 =>
        recordPhase_progress g center d t.adjacent (connKey c) s hs hs1 hs2
    by_cases h3 : connKey c ∈ t.labels.map Prod.fst
    · rw [if_pos h3]
      obtain ⟨E, hE1, hE2, hE3⟩ := hInv.decomp
      refine ⟨⟨⟨E, hE1, hE2, hE3⟩, hInv.lab_nodup, hInv.lab_bound,
        hAdjNew, hAdjMono⟩, fun k v h => h, hAdjStep, fun _ => ⟨?_, hAdjProg⟩⟩
      obtain ⟨v, hv⟩ := alGet_isSome_of_mem_keys t.labels (connKey c) h3
      exact ⟨v, hInv.lab_bound _ (alGet_mem _ _ _ hv), hv⟩
    · rw [if_neg h3]
      obtain ⟨E, hE1, hE2, hE3⟩ := hInv.decomp
      have hnewGet : alGet (t.labels ++ [(connKey c, d + 1)]) (connKey c)
          = some (d + 1) := by
        rw [alGet_append_right t.labels _ _ h3]
        show (if connKey c = connKey c then some (d + 1) else alGet [] (connKey c))
          = some (d + 1)
        rw [if_pos rfl]
      refine ⟨⟨⟨E ++ [(connKey c, d + 1)], ?_, ?_, ?_⟩, ?_, ?_, hAdjNew, hAdjMono⟩,
        ?_, hAdjStep, fun _ => ⟨⟨d + 1, Nat.le_refl _, hnewGet⟩, hAdjProg⟩⟩
      · rw [hE1, List.append_assoc]
      · rw [hE2, List.append_assoc]
      · intro p hp
        rcases List.mem_append.mp hp with hp1 | hp2
        · obtain ⟨hq1, hq2, hq3, hq4⟩ := hE3 p hp1
          exact ⟨hq1, hq2, hq3, alGet_append_left _ _ _ _ hq4⟩
        · simp only [List.mem_singleton] at hp2
          subst hp2
          refine ⟨rfl, ⟨c, hc, h1, rfl⟩, ?_, hnewGet⟩
          intro hmem
          exact h3 (by rw [hE1, List.map_append]; exact List.mem_append_left _ hmem)
      · rw [List.map_append]
        refine List.Nodup.append hInv.lab_nodup (List.nodup_singleton _) ?_
        intro a ha hb
        simp only [List.map_cons, List.map_nil, List.mem_singleton] at hb
        subst hb
        exact h3 ha
      · intro p hp
        rcases List.mem_append.mp hp with hp1 | hp2
        · exact hInv.lab_bound p hp1
        · simp only [List.mem_singleton] at hp2
          subst hp2
          exact Nat.le_refl _
      · intro k v h
        exact alGet_append_left _ _ _ _ h


theorem expFold (g : Graph) (center : String) (d : Nat) (b : String)
    (st2 : BfsStateG) :
    ∀ (cs : List Conn) (t : BfsStateG),
    (∀ c ∈ cs, c ∈ connsAll g b) →
    ExpInv g center d b st2 t →
    ExpInv g center d b st2 (cs.foldl (bfsConnStepG g center d) t) ∧
    (∀ k v, alGet t.labels k = some v →
      alGet (cs.foldl (bfsConnStepG g center d) t).labels k = some v) ∧
    (∀ s v, alGet t.adjacent s = some v →
      ∃ v2 ≤ v, alGet (cs.foldl (bfsConnStepG g center d) t).adjacent s
        = some v2) ∧
    (∀ c ∈ cs, ¬(c.td_area = "" ∨ c.berth = "") →
      (∃ l2 ≤ d + 1,
        alGet (cs.foldl (bfsConnStepG g center d) t).labels (connKey c)
          = some l2) ∧
      (∀ s, alGet g.berth_to_stanox (connKey c) = some s → ¬(s = "") →
        ¬(s = center) →
        ∃ v ≤ d + 1,
          alGet (cs.foldl (bfsConnStepG g center d) t).adjacent s = some v)) := by
  intro cs
  induction cs with
  | nil =>
      intro t _ hInv
      exact ⟨hInv, fun k v h => h, fun s v h => ⟨v, Nat.le_refl v, h⟩,
        fun c hc => absurd hc (List.not_mem_nil c)⟩
  | cons c cs ih =>
      intro t hcs hInv
      obtain ⟨hInv1, hLab1, hAdj1, hProg1⟩ :=
        expStep g center d b st2 t c (hcs c (List.mem_cons_self c cs)) hInv
      obtain ⟨hInvF, hLabF, hAdjF, hProgF⟩ :=
        ih (bfsConnStepG g center d t c)
          (fun c2 hc2 => hcs c2 (List.mem_cons_of_mem c hc2)) hInv1
      show ExpInv g center d b st2
          (cs.foldl (bfsConnStepG g center d) (bfsConnStepG g center d t c)) ∧ _
      refine ⟨hInvF, ?_, ?_, ?_⟩
      · intro k v h
        exact hLabF k v (hLab1 k v h)
      · intro s v h
        obtain ⟨v1, hv1, h1⟩ := hAdj1 s v h
        obtain ⟨v2, hv2, h2⟩ := hAdjF s v1 h1
        exact ⟨v2, by omega, h2⟩
      · intro c2 hc2 hval
        rcases List.mem_cons.mp hc2 with rfl | hc3
        · obtain ⟨⟨l2, hl2, hl2g⟩, hadj⟩ := hProg1 hval
          refine ⟨⟨l2, hl2, hLabF _ _ hl2g⟩, ?_⟩
          intro s hs hs1 hs2
          obtain ⟨v, hv, hvg⟩ := hadj s hs hs1 hs2
          obtain ⟨v2, hv2, h2⟩ := hAdjF s v hvg
          exact ⟨v2, by omega, h2⟩
        · exact hProgF c2 hc3 hval


/-- Global loop invariant of the ghost BFS. -/
structure BfsInv (g : Graph) (seeds : List String) (center : String)
    (maxHops : Nat) (st : BfsStateG) : Prop where
  lab_q : ∀ p ∈ st.queue, alGet st.labels p.1 = some p.2
  q_keys_nodup : (st.queue.map Prod.fst).Nodup
  lab_nodup : (st.labels.map Prod.fst).Nodup
  q_sorted : st.queue.Pairwise (fun p p2 => p.2 ≤ p2.2)
  q_head_bound : ∀ p ∈ st.queue, ∀ h0, st.queue.head? = some h0 →
    p.2 ≤ h0.2 + 1
  lab_head_bound : ∀ p ∈ st.labels, ∀ h0, st.queue.head? = some h0 →
    p.2 ≤ h0.2 + 1
  lab_sound : ∀ p ∈ st.labels, p.1 ∈ reachSet g seeds p.2
  lab_seed : ∀ b ∈ seeds, alGet st.labels b = some 0
  lab_dom : ∀ p ∈ st.labels, p.1 ∈ seeds ++ allConnKeys g
  closed : ∀ p ∈ st.labels, p.2 < maxHops → p.1 ∉ st.queue.map Prod.fst →
    ∀ y ∈ neighborsOf g p.1, ∃ l2 ≤ p.2 + 1, alGet st.labels y = some l2
  recorded : ∀ p ∈ st.labels, p.2 < maxHops → p.1 ∉ st.queue.map Prod.fst →
    ∀ y ∈ neighborsOf g p.1, ∀ s, alGet g.berth_to_stanox y = some s →
      ¬(s = "") → ¬(s = center) → ∃ v2 ≤ p.2 + 1, alGet st.adjacent s = some v2
  adj_sound : ∀ s v, alGet st.adjacent s = some v →
    ¬(s = "") ∧ ¬(s = center) ∧ 1 ≤ v ∧ v ≤ maxHops ∧
    ∃ b2, b2 ∈ reachSet g seeds v ∧ alGet g.berth_to_stanox b2 = some s

theorem pruneInv (g : Graph) (seeds : List String) (center : String)
    (maxHops : Nat) (st : BfsStateG) (b : String) (d : Nat)
    (q : List (String × Nat)) (hq : st.queue = (b, d) :: q)
    (hd : maxHops ≤ d) (hInv : BfsInv g seeds center maxHops st) :
    BfsInv g seeds center maxHops ⟨st.adjacent, st.labels, q⟩ := by
  have hfront : alGet st.labels b = some d :=
    hInv.lab_q (b, d) (by rw [hq]; exact List.mem_cons_self _ _)
  have hsorted := hInv.q_sorted
  rw [hq] at hsorted
  have hd_le : ∀ p ∈ q, d ≤ p.2 := by
    intro p hp
    exact (List.pairwise_cons.mp hsorted).1 p hp
  refine ⟨?_, ?_, hInv.lab_nodup, ?_, ?_, ?_, hInv.lab_sound, hInv.lab_seed,
    hInv.lab_dom, ?_, ?_, hInv.adj_sound⟩
  · intro p hp
    exact hInv.lab_q p (by rw [hq]; exact List.mem_cons_of_mem _ hp)
  · have := hInv.q_keys_nodup
    rw [hq] at this
    exact (List.nodup_cons.mp this).2
  · exact (List.pairwise_cons.mp hsorted).2
  · intro p hp h0 hh0
    have h1 : p.2 ≤ d + 1 := hInv.q_head_bound p
      (by rw [hq]; exact List.mem_cons_of_mem _ hp) (b, d) (by rw [hq]; rfl)
    have h2 : d ≤ h0.2 := by
      have hm : h0 ∈ q := List.mem_of_mem_head? hh0
      exact hd_le h0 hm
    omega
  · intro p hp h0 hh0
    have h1 : p.2 ≤ d + 1 := hInv.lab_head_bound p hp (b, d) (by rw [hq]; rfl)
    have h2 : d ≤ h0.2 := hd_le h0 (List.mem_of_mem_head? hh0)
    omega
  · intro p hp hlt hnq
    by_cases hb : p.1 = b
    · exfalso
      have hpg : alGet st.labels p.1 = some p.2 :=
        mem_alGet_nodup st.labels p.1 p.2 hInv.lab_nodup (by
          cases p
          exact hp)
      rw [hb, hfront] at hpg
      have : p.2 = d := by
        injection hpg with hh
        omega
      omega
    · refine hInv.closed p hp hlt ?_
      rw [hq]
      intro hm
      simp only [List.map_cons, List.mem_cons] at hm
      rcases hm with hm | hm
      · exact hb hm
      · exact hnq hm
  · intro p hp hlt hnq
    by_cases hb : p.1 = b
    · exfalso
      have hpg : alGet st.labels p.1 = some p.2 :=
        mem_alGet_nodup st.labels p.1 p.2 hInv.lab_nodup (by
          cases p
          exact hp)
      rw [hb, hfront] at hpg
      have : p.2 = d := by
        injection hpg with hh
        omega
      omega
    · refine hInv.recorded p hp hlt ?_
      rw [hq]
      intro hm
      simp only [List.map_cons, List.mem_cons] at hm
      rcases hm with hm | hm
      · exact hb hm
      · exact hnq hm


theorem expandInv (g : Graph) (seeds : List String) (center : String)
    (maxHops : Nat) (st : BfsStateG) (b : String) (d : Nat)
    (q : List (String × Nat)) (hq : st.queue = (b, d) :: q)
    (hd : d < maxHops) (hInv : BfsInv g seeds center maxHops st) :
    BfsInv g seeds center maxHops
      ((connsAll g b).foldl (bfsConnStepG g center d)
        ⟨st.adjacent, st.labels, q⟩) ∧
    ∃ E, ((connsAll g b).foldl (bfsConnStepG g center d)
        ⟨st.adjacent, st.labels, q⟩).labels = st.labels ++ E ∧
      ((connsAll g b).foldl (bfsConnStepG g center d)
        ⟨st.adjacent, st.labels, q⟩).queue = q ++ E := by
  have hfront : alGet st.labels b = some d :=
    hInv.lab_q (b, d) (by rw [hq]; exact List.mem_cons_self _ _)
  have hbmem : (b, d) ∈ st.labels := alGet_mem _ _ _ hfront
  have hbreach : b ∈ reachSet g seeds d := hInv.lab_sound (b, d) hbmem
  have hsorted := hInv.q_sorted
  rw [hq] at hsorted
  have hd_le : ∀ p ∈ q, d ≤ p.2 :=
    fun p hp => (List.pairwise_cons.mp hsorted).1 p hp
  have hq_le : ∀ p ∈ q, p.2 ≤ d + 1 :=
    fun p hp => hInv.q_head_bound p
      (by rw [hq]; exact List.mem_cons_of_mem _ hp) (b, d) (by rw [hq]; rfl)
  have hlab_le : ∀ p ∈ st.labels, p.2 ≤ d + 1 :=
    fun p hp => hInv.lab_head_bound p hp (b, d) (by rw [hq]; rfl)
  have hExp0 : ExpInv g center d b ⟨st.adjacent, st.labels, q⟩
      ⟨st.adjacent, st.labels, q⟩ := by
    refine ⟨⟨[], by simp, by simp, by simp⟩, hInv.lab_nodup, hlab_le, ?_, ?_⟩
    · intro s v h
      exact Or.inl h
    · intro s v h
      exact ⟨v, Nat.le_refl v, h⟩
  obtain ⟨hInvF, hLabF, hAdjF, hProgF⟩ :=
    expFold g center d b ⟨st.adjacent, st.labels, q⟩ (connsAll g b)
      ⟨st.adjacent, st.labels, q⟩ (fun c hc => hc) hExp0
  set F := (connsAll g b).foldl (bfsConnStepG g center d)
    ⟨st.adjacent, st.labels, q⟩ with hF
  obtain ⟨E, hE1, hE2, hE3⟩ := hInvF.decomp
  have hE1' : F.labels = st.labels ++ E := hE1
  have hE2' : F.queue = q ++ E := hE2
  have hEval : ∀ p ∈ E, p.2 = d + 1 := fun p hp => (hE3 p hp).1
  have hEkey : ∀ p ∈ E, ∃ c ∈ connsAll g b,
      ¬(c.td_area = "" ∨ c.berth = "") ∧ p.1 = connKey c :=
    fun p hp => (hE3 p hp).2.1
  have hEfresh : ∀ p ∈ E, p.1 ∉ st.labels.map Prod.fst :=
    fun p hp => (hE3 p hp).2.2.1
  have hEget : ∀ p ∈ E, alGet F.labels p.1 = some p.2 :=
    fun p hp => (hE3 p hp).2.2.2
  have hqlab : ∀ p ∈ q, p.1 ∈ st.labels.map Prod.fst := by
    intro p hp
    exact mem_keys_of_alGet _ _ _
      (hInv.lab_q p (by rw [hq]; exact List.mem_cons_of_mem _ hp))
  have hqE_disj : ∀ a, a ∈ q.map Prod.fst → a ∈ E.map Prod.fst → False := by
    intro a ha hb2
    obtain ⟨p, hp, rfl⟩ := List.mem_map.mp ha
    obtain ⟨p2, hp2, heq⟩ := List.mem_map.mp hb2
    exact hEfresh p2 hp2 (heq ▸ hqlab p hp)
  have hreach_new : ∀ p ∈ E, p.1 ∈ reachSet g seeds (d + 1) := by
    intro p hp
    obtain ⟨c, hc, hcv, hck⟩ := hEkey p hp
    rw [hck]
    exact reach_step g seeds d b (connKey c) hbreach
      (connKey_mem_neighbors g b c hc hcv)
  refine ⟨⟨?_, ?_, hInvF.lab_nodup, ?_, ?_, ?_, ?_, ?_, ?_, ?_, ?_, ?_⟩,
    E, hE1', hE2'⟩
  · intro p hp
    rw [hE2'] at hp
    rcases List.mem_append.mp hp with hp1 | hp2
    · rw [hE1']
      exact alGet_append_left _ _ _ _
        (hInv.lab_q p (by rw [hq]; exact List.mem_cons_of_mem _ hp1))
    · exact hEget p hp2
  · rw [hE2', List.map_append]
    refine List.Nodup.append ?_ ?_ hqE_disj
    · have h2 := hInv.q_keys_nodup
      rw [hq] at h2
      exact (List.nodup_cons.mp (by simpa using h2)).2
    · have h2 := hInvF.lab_nodup
      rw [hE1', List.map_append] at h2
      exact h2.of_append_right
  · rw [hE2']
    rw [List.pairwise_append]
    refine ⟨(List.pairwise_cons.mp hsorted).2, ?_, ?_⟩
    · refine List.pairwise_of_forall_mem_list ?_
      intro p hp p2 hp2
      rw [hEval p hp, hEval p2 hp2]
    · intro p hp p2 hp2
      rw [hEval p2 hp2]
      exact Nat.le_trans (hq_le p hp) (Nat.le_refl _)
  · intro p hp h0 hh0
    rw [hE2'] at hp hh0
    have hple : p.2 ≤ d + 1 := by
      rcases List.mem_append.mp hp with hp1 | hp2
      · exact hq_le p hp1
      · rw [hEval p hp2]
    have hh0ge : d ≤ h0.2 := by
      have hh0m : h0 ∈ q ++ E := List.mem_of_mem_head? hh0
      rcases List.mem_append.mp hh0m with h1 | h2
      · exact hd_le h0 h1
      · rw [hEval h0 h2]
        omega
    omega
  · intro p hp h0 hh0
    rw [hE1'] at hp
    rw [hE2'] at hh0
    have hple : p.2 ≤ d + 1 := by
      rcases List.mem_append.mp hp with hp1 | hp2
      · exact hlab_le p hp1
      · rw [hEval p hp2]
    have hh0ge : d ≤ h0.2 := by
      have hh0m : h0 ∈ q ++ E := List.mem_of_mem_head? hh0
      rcases List.mem_append.mp hh0m with h1 | h2
      · exact hd_le h0 h1
      · rw [hEval h0 h2]
        omega
    omega
  · intro p hp
    rw [hE1'] at hp
    rcases List.mem_append.mp hp with hp1 | hp2
    · exact hInv.lab_sound p hp1
    · rw [hEval p hp2]
      exact hreach_new p hp2
  · intro b2 hb2
    rw [hE1']
    exact alGet_append_left _ _ _ _ (hInv.lab_seed b2 hb2)
  · intro p hp
    rw [hE1'] at hp
    rcases List.mem_append.mp hp with hp1 | hp2
    · exact hInv.lab_dom p hp1
    · obtain ⟨c, hc, hcv, hck⟩ := hEkey p hp2
      rw [hck]
      exact List.mem_append_right _ (connKey_mem_allConnKeys g b c hc)
  · intro p hp hlt hnq
    rw [hE1'] at hp
    rw [hE2'] at hnq
    rcases List.mem_append.mp hp with hp1 | hp2
    · by_cases hb : p.1 = b
      · have hpg : alGet st.labels p.1 = some p.2 :=
          mem_alGet_nodup st.labels p.1 p.2 hInv.lab_nodup (by
            cases p
            exact hp1)
        rw [hb, hfront] at hpg
        have hpd : p.2 = d := by
          injection hpg with hh
          omega
        intro y hy
        rw [hb] at hy
        obtain ⟨c, hc, hcv, hck⟩ := neighbors_to_conn g b y hy
        obtain ⟨⟨l2, hl2, hl2g⟩, -⟩ := hProgF c hc hcv
        rw [hpd]
        exact ⟨l2, hl2, by rw [hck]; exact hl2g⟩
      · have hnq2 : p.1 ∉ st.queue.map Prod.fst := by
          rw [hq]
          intro hm
          simp only [List.map_cons, List.mem_cons] at hm
          rcases hm with hm | hm
          · exact hb hm
          · exact hnq (by rw [List.map_append]; exact List.mem_append_left _ hm)
        intro y hy
        obtain ⟨l2, hl2, hl2g⟩ := hInv.closed p hp1 hlt hnq2 y hy
        rw [hE1']
        exact ⟨l2, hl2, alGet_append_left _ _ _ _ hl2g⟩
    · exfalso
      apply hnq
      rw [List.map_append]
      exact List.mem_append_right _ (List.mem_map.mpr ⟨p, hp2, rfl⟩)
  · intro p hp hlt hnq
    rw [hE1'] at hp
    rw [hE2'] at hnq
    rcases List.mem_append.mp hp with hp1 | hp2
    · by_cases hb : p.1 = b
      · have hpg : alGet st.labels p.1 = some p.2 :=
          mem_alGet_nodup st.labels p.1 p.2 hInv.lab_nodup (by
            cases p
            exact hp1)
        rw [hb, hfront] at hpg
        have hpd : p.2 = d := by
          injection hpg with hh
          omega
        intro y hy s hys hs1 hs2
        rw [hb] at hy
        obtain ⟨c, hc, hcv, hck⟩ := neighbors_to_conn g b y hy
        obtain ⟨-, hadj⟩ := hProgF c hc hcv
        rw [hpd]
        exact hadj s (by rw [← hck]; exact hys) hs1 hs2
      · have hnq2 : p.1 ∉ st.queue.map Prod.fst := by
          rw [hq]
          intro hm
          simp only [List.map_cons, List.mem_cons] at hm
          rcases hm with hm | hm
          · exact hb hm
          · exact hnq (by rw [List.map_append]; exact List.mem_append_left _ hm)
        intro y hy s hys hs1 hs2
        obtain ⟨v2, hv2, hv2g⟩ := hInv.recorded p hp1 hlt hnq2 y hy s hys hs1 hs2
        obtain ⟨v3, hv3, hv3g⟩ := hAdjF s v2 hv2g
        exact ⟨v3, by omega, hv3g⟩
    · exfalso
      apply hnq
      rw [List.map_append]
      exact List.mem_append_right _ (List.mem_map.mpr ⟨p, hp2, rfl⟩)
  · intro s v h
    rcases hInvF.adj_new s v h with h1 | ⟨hv, hs1, hs2, c, hc, hcv, hcs⟩
    · exact hInv.adj_sound s v h1
    · subst hv
      refine ⟨hs1, hs2, by omega, by omega, connKey c, ?_, hcs⟩
      exact reach_step g seeds d b (connKey c) hbreach
        (connKey_mem_neighbors g b c hc hcv)


theorem map_fst_pair_zero (seeds : List String) :
    ((seeds.map (fun b => (b, (0 : Nat)))).map Prod.fst) = seeds := by
  induction seeds with
  | nil => rfl
  | cons a l ih =>
      simp only [List.map_cons, Function.comp]
      rw [ih]

theorem initInv (g : Graph) (seeds : List String) (center : String)
    (maxHops : Nat) (hnd : seeds.Nodup) :
    BfsInv g seeds center maxHops
      ⟨[], seeds.map (fun b => (b, 0)), seeds.map (fun b => (b, 0))⟩ := by
  have hmem : ∀ p ∈ seeds.map (fun b => (b, (0 : Nat))),
      p.1 ∈ seeds ∧ p.2 = 0 := by
    intro p hp
    obtain ⟨b, hb, rfl⟩ := List.mem_map.mp hp
    exact ⟨hb, rfl⟩
  refine ⟨?_, ?_, ?_, ?_, ?_, ?_, ?_, ?_, ?_, ?_, ?_, ?_⟩
  · intro p hp
    obtain ⟨hb, h0⟩ := hmem p hp
    rw [h0]
    exact alGet_map_pair seeds p.1 hb
  · rw [map_fst_pair_zero]
    exact hnd
  · rw [map_fst_pair_zero]
    exact hnd
  · refine List.pairwise_of_forall_mem_list ?_
    intro p hp p2 hp2
    rw [(hmem p hp).2, (hmem p2 hp2).2]
  · intro p hp h0 hh0
    rw [(hmem p hp).2]
    omega
  · intro p hp h0 hh0
    rw [(hmem p hp).2]
    omega
  · intro p hp
    rw [(hmem p hp).2]
    exact (hmem p hp).1
  · intro b hb
    exact alGet_map_pair seeds b hb
  · intro p hp
    exact List.mem_append_left _ (hmem p hp).1
  · intro p hp hlt hnq
    exfalso
    apply hnq
    exact List.mem_map.mpr ⟨p, hp, rfl⟩
  · intro p hp hlt hnq
    exfalso
    apply hnq
    exact List.mem_map.mpr ⟨p, hp, rfl⟩
  · intro s v h
    simp [alGet] at h

theorem labels_le_bound (g : Graph) (seeds : List String) (center : String)
    (maxHops : Nat) (st : BfsStateG)
    (hInv : BfsInv g seeds center maxHops st) :
    st.labels.length ≤ seeds.length + (allConnKeys g).length := by
  have h1 : (st.labels.map Prod.fst).length ≤ (seeds ++ allConnKeys g).length :=
    nodup_subset_length _ _ hInv.lab_nodup (by
      intro x hx
      obtain ⟨p, hp, rfl⟩ := List.mem_map.mp hx
      exact hInv.lab_dom p hp)
  rw [List.length_map, List.length_append] at h1
  exact h1

theorem bfsLoopG_run (g : Graph) (seeds : List String) (center : String)
    (maxHops : Nat) :
    ∀ (fuel : Nat) (st : BfsStateG),
    BfsInv g seeds center maxHops st →
    st.queue.length + (seeds.length + (allConnKeys g).length)
      < fuel + st.labels.length →
    (bfsLoopG g center maxHops fuel st).queue = [] ∧
    BfsInv g seeds center maxHops (bfsLoopG g center maxHops fuel st) := by
  intro fuel
  induction fuel with
  | zero =>
      intro st hInv hfuel
      have := labels_le_bound g seeds center maxHops st hInv
      omega
  | succ fuel ih =>
      intro st hInv hfuel
      cases hq : st.queue with
      | nil =>
          have hres : bfsLoopG g center maxHops (fuel + 1) st = st := by
            unfold bfsLoopG
            simp only [hq]
          rw [hres]
          exact ⟨hq, hInv⟩
      | cons p q =>
          obtain ⟨b, d⟩ := p
          by_cases hd : maxHops ≤ d
          · have hres : bfsLoopG g center maxHops (fuel + 1) st
                = bfsLoopG g center maxHops fuel ⟨st.adjacent, st.labels, q⟩ := by
              conv_lhs => unfold bfsLoopG
              simp only [hq]
              rw [if_pos hd]
            rw [hres]
            refine ih ⟨st.adjacent, st.labels, q⟩
              (pruneInv g seeds center maxHops st b d q hq hd hInv) ?_
            have hlen : st.queue.length = q.length + 1 := by
              rw [hq]
              rfl
            simp only
            omega
          · have hres : bfsLoopG g center maxHops (fuel + 1) st
                = bfsLoopG g center maxHops fuel
                  ((connsAll g b).foldl (bfsConnStepG g center d)
                    ⟨st.adjacent, st.labels, q⟩) := by
              conv_lhs => unfold bfsLoopG
              simp only [hq]
              rw [if_neg hd]
            rw [hres]
            obtain ⟨hInvF, E, hE1, hE2⟩ := expandInv g seeds center maxHops st
              b d q hq (by omega) hInv
            refine ih _ hInvF ?_
            have hlen : st.queue.length = q.length + 1 := by
              rw [hq]
              rfl
            rw [hE1, hE2]
            simp only [List.length_append]
            omega


/-- After the queue has drained, every berth within `n ≤ maxHops` traversal
steps of the seeds carries a label of at most `n`. -/
theorem path_labeled (g : Graph) (seeds : List String) (center : String)
    (maxHops : Nat) (F : BfsStateG) (hQ : F.queue = [])
    (hInv : BfsInv g seeds center maxHops F) :
    ∀ n, n ≤ maxHops → ∀ b2 ∈ reachSet g seeds n,
      ∃ l2 ≤ n, alGet F.labels b2 = some l2 := by
  intro n
  induction n with
  | zero =>
      intro _ b2 hb2
      exact ⟨0, Nat.le_refl 0, hInv.lab_seed b2 hb2⟩
  | succ n ih =>
      intro hn b2 hb2
      rcases List.mem_append.mp hb2 with h1 | h2
      · obtain ⟨l2, hl2, hl2g⟩ := ih (by omega) b2 h1
        exact ⟨l2, by omega, hl2g⟩
      · rw [List.mem_flatten] at h2
        obtain ⟨L, hL, hb2L⟩ := h2
        obtain ⟨u, hu, rfl⟩ := List.mem_map.mp hL
        obtain ⟨lu, hlu, hlug⟩ := ih (by omega) u hu
        have hmem : (u, lu) ∈ F.labels := alGet_mem _ _ _ hlug
        have hult : lu < maxHops := by omega
        have hnq : u ∉ F.queue.map Prod.fst := by
          rw [hQ]
          exact List.not_mem_nil u
        obtain ⟨l2, hl2, hl2g⟩ := hInv.closed (u, lu) hmem hult hnq b2 hb2L
        exact ⟨l2, by omega, hl2g⟩

/-- C7 (amended): provided the seed berths are distinct and none of them is
mapped to a station other than the center, the multi-hop search never
reports the center, and every station it reports carries exactly the
minimum number of berth-to-berth traversal steps (following both connection
directions) from a seed berth to a berth mapped to that station. -/
theorem C7_multihop_adjacent (g : Graph) (seeds : List String)
    (center : String) (maxHops : Nat) (hnd : seeds.Nodup)
    (H1 : ∀ b ∈ seeds, ∀ s, alGet g.berth_to_stanox b = some s →
      s = center ∨ s = "") :
    alGet (find_adjacent_stations_multihop g seeds center maxHops) center
      = none ∧
    ∀ S v,
      alGet (find_adjacent_stations_multihop g seeds center maxHops) S
        = some v →
      (∃ b2 ∈ reachSet g seeds v, alGet g.berth_to_stanox b2 = some S) ∧
      ∀ n, n < v → ∀ b2 ∈ reachSet g seeds n,
        alGet g.berth_to_stanox b2 ≠ some S := by
  rw [find_adjacent_eq_ghost]
  obtain ⟨hQ, hInv⟩ := bfsLoopG_run g seeds center maxHops
    (seeds.length + (allConnKeys g).length + 1)
    ⟨[], seeds.map (fun b => (b, 0)), seeds.map (fun b => (b, 0))⟩
    (initInv g seeds center maxHops hnd)
    (by
      simp only [List.length_map]
      omega)
  set F := bfsLoopG g center maxHops
    (seeds.length + (allConnKeys g).length + 1)
    ⟨[], seeds.map (fun b => (b, 0)), seeds.map (fun b => (b, 0))⟩ with hF
  constructor
  · cases h : alGet F.adjacent center with
    | none => rfl
    | some v =>
        obtain ⟨-, hc, -⟩ := hInv.adj_sound center v h
        exact absurd rfl hc
  · intro S v h
    obtain ⟨hS1, hS2, hv1, hv2, b2, hb2r, hb2s⟩ := hInv.adj_sound S v h
    refine ⟨⟨b2, hb2r, hb2s⟩, ?_⟩
    intro n
    induction n with
    | zero =>
        intro _ b3 hb3 hbs
        rcases H1 b3 hb3 S hbs with h1 | h1
        · exact hS2 h1
        · exact hS1 h1
    | succ n ih =>
        intro hn b3 hb3 hbs
        rcases List.mem_append.mp hb3 with h1 | h2
        · exact ih (by omega) b3 h1 hbs
        · rw [List.mem_flatten] at h2
          obtain ⟨L, hL, hb3L⟩ := h2
          obtain ⟨u, hu, rfl⟩ := List.mem_map.mp hL
          obtain ⟨lu, hlu, hlug⟩ := path_labeled g seeds center maxHops F hQ
            hInv n (by omega) u hu
          have hmem : (u, lu) ∈ F.labels := alGet_mem _ _ _ hlug
          have hult : lu < maxHops := by omega
          have hnq : u ∉ F.queue.map Prod.fst := by
            rw [hQ]
            exact List.not_mem_nil u
          obtain ⟨v2, hv2le, hv2g⟩ := hInv.recorded (u, lu) hmem hult hnq b3
            hb3L S hbs hS1 hS2
          rw [h] at hv2g
          have : v2 = v := by
            injection hv2g with hh
            omega
          omega


/-- Two-berth graph whose single seed berth `A:1` is itself mapped to
station `S` (not the center) and is re-reachable in two steps. -/
def c7g : Graph :=
  ⟨[("A:1", ⟨[], [⟨"2", "A", "", ""⟩]⟩), ("A:2", ⟨[], [⟨"1", "A", "", ""⟩]⟩)],
   [], [("A:1", "S")]⟩

/-- C7, counterexample.  Station `S` owns the seed berth `A:1` itself (zero
berth-to-berth edges from a seed berth), yet the search reports `S` at hop
distance 2: stations are only recorded when scanned as neighbours, never at
distance 0, so the reported distance is not the minimum edge count. -/
theorem C7_counterexample :
    find_adjacent_stations_multihop c7g ["A:1"] "C" 3 = [("S", 2)] ∧
    "A:1" ∈ reachSet c7g ["A:1"] 0 ∧
    alGet c7g.berth_to_stanox "A:1" = some "S" ∧
    alGet (find_adjacent_stations_multihop c7g ["A:1"] "C" 3) "S" = some 2 ∧
    (2 : Nat) ≠ 0 :=
  ⟨rfl, by decide, rfl, rfl, by decide⟩

/-- The counterexample graph with the seed berth correctly mapped to the
center station. -/
def c7w : Graph :=
  ⟨[("A:1", ⟨[], [⟨"2", "A", "", ""⟩]⟩), ("A:2", ⟨[], [⟨"1", "A", "", ""⟩]⟩)],
   [], [("A:1", "C"), ("A:2", "S")]⟩

/-- Witness for C7: the amended theorem at a concrete two-berth graph. -/
theorem C7_multihop_witness :
    alGet (find_adjacent_stations_multihop c7w ["A:1"] "C" 3) "C" = none ∧
    (∃ b2 ∈ reachSet c7w ["A:1"] 1,
      alGet c7w.berth_to_stanox b2 = some "S") ∧
    (∀ n, n < 1 → ∀ b2 ∈ reachSet c7w ["A:1"] n,
      alGet c7w.berth_to_stanox b2 ≠ some "S") := by
  have H := C7_multihop_adjacent c7w ["A:1"] "C" 3 (by decide)
    (by
      intro b hb s hs
      have hb2 : b = "A:1" := by
        rcases List.mem_cons.mp hb with h | h
        · exact h
        · simp at h
      subst hb2
      rw [show alGet c7w.berth_to_stanox "A:1" = some "C" from rfl] at hs
      injection hs with hh
      exact Or.inl hh.symm)
  exact ⟨H.1, (H.2 "S" 1 rfl).1, (H.2 "S" 1 rfl).2⟩

end NRail
